import Mathlib

/-!
Verification of the `sino` JIT calculator (`src/main.rs`).

The program is an interactive calculator: each input line is parsed by a
recursive-descent parser (`parse_expression` / `parse_term` / `parse_factor`)
that emits LLVM IR instructions as it goes, then the resulting one-block
function is finished with a `return`, verified, JIT-compiled and invoked.

Embedding notes:
* The character cursor (`Peekable<Chars>`) is a `List Char` consumed from the
  front; `skip_whitespace` is `dropWhile` over the Unicode `White_Space` class
  (Rust `char::is_whitespace`).
* The LLVM backend (the `inkwell` crate) is external to this repository.  It is
  modelled from the spec's interface contract (spec §6): creating a 64-bit
  integer constant, emitting add/sub/mul/unsigned-div instructions that return
  a fresh (non-constant) value handle with a generated label, and `is_const`
  telling constants and instruction results apart.  This is the `Backend`
  structure below; the real instance `realB` computes the 64-bit value of every
  handle (wrapping arithmetic on bit patterns, `udiv` on patterns), tracks the
  instruction labels produced by `gen_tmp_name`, and records whether some
  emitted `udiv` has divisor pattern 0 (executing such a function traps).
* The three mutually recursive parser functions and their two operator loops
  are defunctionalised into the single fuel-indexed function `parseF`
  (structural recursion on the fuel, so everything evaluates by `decide`);
  mode `pexpr`/`pterm`/`pfactor` are the entry points of `parse_expression`,
  `parse_term`, `parse_factor`, modes `peloop`/`ptloop` their `loop` bodies
  with the running accumulator.  Fuel `3*|input|+5` always suffices
  (theorem `parse_fuel_sufficient`).
* For the refinement claims, two further `Backend` instances build the
  abstract syntax tree instead: `chkB` (with the source's static zero-divisor
  check) and `nochkB` (the bare grammar, following the spec's words
  "standard left-associative, precedence-respecting" parsing).
-/

set_option maxHeartbeats 4000000

namespace Sino

/-- `2^64`, modulus of 64-bit machine words. -/
def WORD : Nat := 2 ^ 64

/-- `2^32`, modulus of the `u32` type of `Calculator.tmp_counter`. -/
def U32 : Nat := 2 ^ 32

/-- Largest value of the signed 64-bit domain, `i64::MAX`. -/
def maxI64 : Nat := 2 ^ 63 - 1

/-- Reinterpret a 64-bit pattern as a signed (two's complement) integer:
the `i64` value returned by the JIT-compiled function. -/
def toSigned (n : Nat) : Int := if n < 2 ^ 63 then (n : Int) else (n : Int) - (WORD : Int)

/-- Rust `char::is_whitespace`: the Unicode `White_Space` property. -/
def isWsC (c : Char) : Bool :=
  (9 ≤ c.toNat && c.toNat ≤ 13) || c.toNat = 32 || c.toNat = 133 || c.toNat = 160 ||
  c.toNat = 5760 || (8192 ≤ c.toNat && c.toNat ≤ 8202) || c.toNat = 8232 ||
  c.toNat = 8233 || c.toNat = 8239 || c.toNat = 8287 || c.toNat = 12288

/-- `skip_whitespace` (src/main.rs:13-21): advance the cursor past every
whitespace character. -/
def skip_whitespace (cs : List Char) : List Char := cs.dropWhile isWsC

/-- `is_valid_char` (src/main.rs:24-26). -/
def is_valid_char (c : Char) : Bool :=
  c.isDigit || c = '+' || c = '-' || c = '*' || c = '/' || c = '(' || c = ')'

/-- Rust `str::trim`: remove leading and trailing whitespace. -/
def trimChars (cs : List Char) : List Char :=
  ((cs.dropWhile isWsC).reverse.dropWhile isWsC).reverse

/-- Value of a run of ASCII decimal digits. -/
def digitsVal (ds : List Char) : Nat := ds.foldl (fun a c => 10 * a + (c.toNat - 48)) 0

/-- The ASCII digit character for `n < 10`. -/
def digitChar (n : Nat) : Char := Char.ofNat (48 + n)

/-- Decimal digits of `n`, given enough fuel (any `fuel > n` works). -/
def natReprAux : Nat → Nat → List Char
  | 0, _ => []
  | f + 1, n => if n < 10 then [digitChar n] else natReprAux f (n / 10) ++ [digitChar (n % 10)]

/-- Decimal rendering of a natural number, as produced by Rust's
`format!("{}", n)` for the `u32` counter. -/
def natRepr (n : Nat) : String := String.mk (natReprAux (n + 1) n)

/-- `num_chars.parse::<i64>()` on a nonempty run of ASCII digits: the decimal
value if it fits the signed 64-bit domain, otherwise an overflow failure
(src/main.rs:182-187 maps the failure to a `ValueError`). -/
def parseI64 (ds : List Char) : Option Nat :=
  if digitsVal ds ≤ maxI64 then some (digitsVal ds) else none

/-- The error kinds `run` can produce (spec §7).  The first seven are the
parse-time errors of src/main.rs; the last four stand for the backend/runtime
failure points of `run` (LLVM engine creation, `build_return`, verification,
JIT function resolution). -/
inductive CalcError where
  | zeroDivision
  | unexpectedEnd
  | missingParen
  | valueError (lit : String)
  | invalidChar (c : Char)
  | invalidTrailing (c : Char)
  | incompleteExpr (c : Char)
  | llvmInitError
  | retEmitError
  | verifyError
  | jitResolveError
  deriving DecidableEq, Repr

/-- Results of fallible steps are `Except` values; equality of results is
decidable (used only to evaluate the development on concrete inputs). -/
instance {ε α : Type} [DecidableEq ε] [DecidableEq α] : DecidableEq (Except ε α) := fun x y =>
  match x, y with
  | .ok a, .ok b =>
    if h : a = b then isTrue (by rw [h]) else isFalse (fun hc => h (by injection hc))
  | .error a, .error b =>
    if h : a = b then isTrue (by rw [h]) else isFalse (fun hc => h (by injection hc))
  | .ok _, .error _ => isFalse (fun hc => Except.noConfusion hc)
  | .error _, .ok _ => isFalse (fun hc => Except.noConfusion hc)

/-- An LLVM `IntValue` handle of type i64, modelled from spec §6: the 64-bit
pattern it evaluates to, and whether it is a compile-time constant
(`is_const()`): true for `const_int` results, false for emitted instructions. -/
structure IRValue where
  val : Nat
  isConst : Bool
  deriving DecidableEq, Repr

/-- The mutable compilation state owned by `Calculator` and the module:
the `tmp_counter` field (a `u32` in the source, src/main.rs:41, represented
as its value below `2^32` with every update taken `% U32`), the labels of
the instructions emitted so far (most recent first), and whether some
emitted `udiv` has divisor pattern 0 (executing the compiled function would
then trap). -/
structure BuildSt where
  tmp_counter : Nat
  labels : List String
  trap : Bool
  deriving DecidableEq, Repr

/-- `Calculator::gen_tmp_name` (src/main.rs:57-61): the returned name embeds
the current counter; `self.tmp_counter += 1` on the `u32` field wraps to 0 at
`2^32` (release-mode wrapping semantics). -/
def gen_tmp_name (pfx : String) (st : BuildSt) : String × BuildSt :=
  (pfx ++ "_" ++ natRepr st.tmp_counter,
    { st with tmp_counter := (st.tmp_counter + 1) % U32 })

/-- Wrapping 64-bit addition on bit patterns. -/
def wadd (a b : Nat) : Nat := (a + b) % WORD

/-- Wrapping 64-bit subtraction on bit patterns. -/
def wsub (a b : Nat) : Nat := (a + (WORD - b % WORD)) % WORD

/-- Wrapping 64-bit multiplication on bit patterns. -/
def wmul (a b : Nat) : Nat := (a * b) % WORD

/-- Unsigned 64-bit division on bit patterns (`udiv`). -/
def wdiv (a b : Nat) : Nat := a / b

/-- The code-generation capability the parser consumes (spec §6), so that the
parser's translation is literally the source with `builder.build_int_*`
replaced by the corresponding field. -/
structure Backend (V S : Type) where
  constInt : Nat → V
  isConstZero : V → Bool
  buildAdd : V → V → S → V × S
  buildSub : V → V → S → V × S
  buildMul : V → V → S → V × S
  buildDiv : V → V → S → V × S

/-- The real backend: `i64_type.const_int(n, false)` makes a constant with
pattern `n % 2^64`; each `build_int_*` call draws a label from `gen_tmp_name`
and yields a non-constant handle whose pattern is the wrapping (resp. unsigned
division) result; `rhs.is_const() && rhs == zero_val` is constancy plus a zero
pattern.  Modelled from the spec (§4.2, §6): instruction results are opaque
new handles, not constants. -/
def realB : Backend IRValue BuildSt where
  constInt n := ⟨n % WORD, true⟩
  isConstZero v := v.isConst && v.val == 0
  buildAdd a b st :=
    let p := gen_tmp_name "add_tmp" st
    (⟨wadd a.val b.val, false⟩, { p.2 with labels := p.1 :: p.2.labels })
  buildSub a b st :=
    let p := gen_tmp_name "sub_tmp" st
    (⟨wsub a.val b.val, false⟩, { p.2 with labels := p.1 :: p.2.labels })
  buildMul a b st :=
    let p := gen_tmp_name "mul_tmp" st
    (⟨wmul a.val b.val, false⟩, { p.2 with labels := p.1 :: p.2.labels })
  buildDiv a b st :=
    let p := gen_tmp_name "div_tmp" st
    (⟨wdiv a.val b.val, false⟩,
      { p.2 with labels := p.1 :: p.2.labels, trap := p.2.trap || (b.val == 0) })

/-- Abstract syntax trees of the calculator grammar (the spec's reading of an
input: a literal, or a binary operation). -/
inductive Expr where
  | lit (n : Nat)
  | add (a b : Expr)
  | sub (a b : Expr)
  | mul (a b : Expr)
  | div (a b : Expr)
  deriving DecidableEq, Repr

/-- Machine evaluation of a tree: wrapping 64-bit arithmetic with unsigned
division, i.e. exactly what the emitted instructions compute. -/
def evalM : Expr → Nat
  | .lit n => n % WORD
  | .add a b => wadd (evalM a) (evalM b)
  | .sub a b => wsub (evalM a) (evalM b)
  | .mul a b => wmul (evalM a) (evalM b)
  | .div a b => wdiv (evalM a) (evalM b)

/-- Which trees are compiled to a compile-time constant handle: exactly the
bare literals (parentheses are transparent, every operator emits an
instruction). -/
def isLitB : Expr → Bool
  | .lit _ => true
  | _ => false

/-- A tree whose handle is the constant zero (the divisors the static
division-by-zero check catches). -/
def isLitZero : Expr → Bool
  | .lit n => n % WORD == 0
  | _ => false

/-- Some division node of the tree has a constant-zero right-hand side
(static zero divisor). -/
def hasSZ : Expr → Bool
  | .lit _ => false
  | .add a b => hasSZ a || hasSZ b
  | .sub a b => hasSZ a || hasSZ b
  | .mul a b => hasSZ a || hasSZ b
  | .div a b => hasSZ a || hasSZ b || isLitZero b

/-- Some division node of the tree has a right-hand side evaluating to the
zero pattern (so the compiled function divides by zero when executed; this
includes the statically caught literal zeros). -/
def dynTrap : Expr → Bool
  | .lit _ => false
  | .add a b => dynTrap a || dynTrap b
  | .sub a b => dynTrap a || dynTrap b
  | .mul a b => dynTrap a || dynTrap b
  | .div a b => dynTrap a || dynTrap b || (evalM b == 0)

/-- Specification-side backend: build the syntax tree instead of instructions.
Its state is the "some emitted division divides by zero" flag, mirroring
`BuildSt.trap`.  Its `isConstZero` is the real one transported along
`absVal`: literals are the constants. -/
def chkB : Backend Expr Bool where
  constInt n := .lit n
  isConstZero := isLitZero
  buildAdd a b t := (.add a b, t)
  buildSub a b t := (.sub a b, t)
  buildMul a b t := (.mul a b, t)
  buildDiv a b t := (.div a b, t || (evalM b == 0))

/-- The bare grammar backend: like `chkB` but without the static zero-divisor
check, i.e. plain "standard left-associative, precedence-respecting" parsing
from the spec's words. -/
def nochkB : Backend Expr Bool :=
  { chkB with isConstZero := fun _ => false }

/-- The value handle a tree compiles to. -/
def absVal (e : Expr) : IRValue := ⟨evalM e, isLitB e⟩

/-- The five control points of the fused parser: the three entry points and
the two operator loops (with their accumulator). -/
inductive PMode (V : Type) where
  | pexpr
  | pterm
  | pfactor
  | peloop (acc : V)
  | ptloop (acc : V)

/-- Parse results: `none` is fuel exhaustion (never happens with fuel
`3*|input|+5`); otherwise the `Result` together with the final cursor and
backend state (in Rust these live in `&mut` arguments and survive an `Err`). -/
abbrev PRes (V S : Type) := Option (Except CalcError V × List Char × S)

/-- The parser/code generator of src/main.rs:64-199, defunctionalised:
* `pexpr` = `parse_expression`: one term, then the `+`/`-` loop `peloop`;
* `peloop acc` = the loop body at src/main.rs:73-91: skip whitespace, peek;
  on `+`/`-` consume it, parse a term and emit add/sub, else break;
* `pterm` = `parse_term`, `ptloop acc` its `*`/`/` loop (src/main.rs:106-135)
  with the static zero-divisor check in the `/` arm (src/main.rs:118-129);
* `pfactor` = `parse_factor` (src/main.rs:140-199): skip whitespace, then
  a parenthesised expression, a maximal run of digits, or an error. -/
def parseF (B : Backend V S) : Nat → PMode V → List Char → S → PRes V S
  | 0, _, _, _ => none
  | f + 1, .pexpr, cs, st =>
    match parseF B f .pterm cs st with
    | none => none
    | some (.error e, cs1, st1) => some (.error e, cs1, st1)
    | some (.ok v, cs1, st1) => parseF B f (.peloop v) cs1 st1
  | f + 1, .peloop acc, cs, st =>
    match skip_whitespace cs with
    | [] => some (.ok acc, [], st)
    | op :: rest =>
      if op = '+' then
        match parseF B f .pterm rest st with
        | none => none
        | some (.error e, cs1, st1) => some (.error e, cs1, st1)
        | some (.ok rhs, cs1, st1) =>
          parseF B f (.peloop (B.buildAdd acc rhs st1).1) cs1 (B.buildAdd acc rhs st1).2
      else if op = '-' then
        match parseF B f .pterm rest st with
        | none => none
        | some (.error e, cs1, st1) => some (.error e, cs1, st1)
        | some (.ok rhs, cs1, st1) =>
          parseF B f (.peloop (B.buildSub acc rhs st1).1) cs1 (B.buildSub acc rhs st1).2
      else some (.ok acc, op :: rest, st)
  | f + 1, .pterm, cs, st =>
    match parseF B f .pfactor cs st with
    | none => none
    | some (.error e, cs1, st1) => some (.error e, cs1, st1)
    | some (.ok v, cs1, st1) => parseF B f (.ptloop v) cs1 st1
  | f + 1, .ptloop acc, cs, st =>
    match skip_whitespace cs with
    | [] => some (.ok acc, [], st)
    | op :: rest =>
      if op = '*' then
        match parseF B f .pfactor rest st with
        | none => none
        | some (.error e, cs1, st1) => some (.error e, cs1, st1)
        | some (.ok rhs, cs1, st1) =>
          parseF B f (.ptloop (B.buildMul acc rhs st1).1) cs1 (B.buildMul acc rhs st1).2
      else if op = '/' then
        match parseF B f .pfactor rest st with
        | none => none
        | some (.error e, cs1, st1) => some (.error e, cs1, st1)
        | some (.ok rhs, cs1, st1) =>
          if B.isConstZero rhs then some (.error .zeroDivision, cs1, st1)
          else
            parseF B f (.ptloop (B.buildDiv acc rhs st1).1) cs1 (B.buildDiv acc rhs st1).2
      else some (.ok acc, op :: rest, st)
  | f + 1, .pfactor, cs, st =>
    match skip_whitespace cs with
    | [] => some (.error .unexpectedEnd, [], st)
    | c :: rest =>
      if c = '(' then
        match parseF B f .pexpr rest st with
        | none => none
        | some (.error e, cs1, st1) => some (.error e, cs1, st1)
        | some (.ok v, cs1, st1) =>
          match skip_whitespace cs1 with
          | ')' :: rest2 => some (.ok v, skip_whitespace rest2, st1)
          | cs2 => some (.error .missingParen, cs2, st1)
      else if c.isDigit then
        match parseI64 ((c :: rest).takeWhile Char.isDigit) with
        | some n => some (.ok (B.constInt n), (c :: rest).dropWhile Char.isDigit, st)
        | none =>
          some (.error (.valueError (String.mk ((c :: rest).takeWhile Char.isDigit))),
            (c :: rest).dropWhile Char.isDigit, st)
      else some (.error (.invalidChar c), c :: rest, st)

/-- Fuel that suffices to finish parsing from each control point (proved in
`parse_fuel_sufficient`). -/
def fuelNeed : PMode V → Nat → Nat
  | .pexpr, n => 3 * n + 5
  | .pterm, n => 3 * n + 4
  | .pfactor, n => 3 * n + 3
  | .peloop _, n => 3 * n + 2
  | .ptloop _, n => 3 * n + 1

/-- The control points at which a successful parse has consumed at least one
character (a factor consumes a digit or a parenthesis, and expression/term
begin with a factor); the loop points may succeed consuming only whitespace. -/
def strictMode : PMode V → Bool
  | .pexpr => true
  | .pterm => true
  | .pfactor => true
  | .peloop _ => false
  | .ptloop _ => false

/-- Observable outcome of one `run` call: the printed `i64`, the printed
error, or a processor trap while executing the compiled function (a division
instruction with divisor 0 — the documented dynamic-zero gap, spec §9). -/
inductive Outcome where
  | ok (n : Int)
  | err (e : CalcError)
  | trap
  deriving DecidableEq, Repr

/-- The compilation state at the start of a line: counter reset to 0
(src/main.rs:317), no instructions. -/
def initSt : BuildSt := ⟨0, [], false⟩

/-- The compilation state after `n` successive `gen_tmp_name` draws (stem
`p`) from the start-of-line state: the counter path of an uninterrupted
emission sequence. -/
def emitStream (p : String) : Nat → BuildSt
  | 0 => initSt
  | n + 1 => (gen_tmp_name p (emitStream p n)).2

/-- `Calculator::run` (src/main.rs:202-260) with the outcome of each external
backend stage as a parameter (they are external capabilities; `true` = the
stage succeeds, which is their specified behaviour):
engine creation, `build_return`, `verify`, `get_function` — in the source's
order: the JIT engine is created before parsing, the other three stages run
after the trailing-character check. -/
def runP (jitInitOk retOk verifyOk resolveOk : Bool) (s : String) : Outcome × Bool :=
  if jitInitOk = false then (.err .llvmInitError, false)
  else
    let cs := trimChars s.data
    match parseF realB (3 * cs.length + 5) .pexpr cs initSt with
    | none => (.err .unexpectedEnd, false)
    | some (.error e, _, _) => (.err e, false)
    | some (.ok v, rest, st) =>
      match skip_whitespace rest with
      | c :: _ =>
        if is_valid_char c = false then (.err (.invalidTrailing c), false)
        else (.err (.incompleteExpr c), false)
      | [] =>
        if retOk = false then (.err .retEmitError, false)
        else if verifyOk = false then (.err .verifyError, false)
        else if resolveOk = false then (.err .jitResolveError, false)
        else if st.trap then (.trap, true)
        else (.ok (toSigned v.val), true)

/-- `run` with every external backend stage behaving as specified.  The
second component of `runP` records whether the compiled function was
invoked; `run` keeps only the outcome. -/
def run (s : String) : Outcome := (runP true true true true s).1

/-- The specification parser: the same grammar traversal building the syntax
tree (backend `nochkB`), on the trimmed input, with no static check —
"standard left-associative, precedence-respecting" parsing of the line. -/
def refParseRes (s : String) : PRes Expr Bool :=
  parseF nochkB (3 * (trimChars s.data).length + 5) .pexpr (trimChars s.data) false

/-- The tree of a line that parses completely (nothing but whitespace left
after the expression). -/
def refParse (s : String) : Option Expr :=
  match refParseRes s with
  | some (.ok e, rest, _) => if skip_whitespace rest = [] then some e else none
  | _ => none

/-- The four label stems used by the emitter. -/
def labelPrefixes : List String := ["add_tmp", "sub_tmp", "mul_tmp", "div_tmp"]

/-- The label `gen_tmp_name` produces for stem `p` at counter value `k`. -/
def mkLabel (p : String) (k : Nat) : String := p ++ "_" ++ natRepr k

/-- Well-formed label stacks: every label embeds a distinct counter value
below the current counter, in strictly decreasing order (labels are pushed
most-recent-first). -/
inductive LabelsGood : List String → Nat → Prop where
  | nil : ∀ n, LabelsGood [] n
  | cons : ∀ p k ls n, p ∈ labelPrefixes → k < n → LabelsGood ls k →
      LabelsGood (mkLabel p k :: ls) n

/-- Whether the accumulator carried by a loop mode already contains a static
zero divisor. -/
def accSZ : PMode Expr → Bool
  | .peloop a => hasSZ a
  | .ptloop a => hasSZ a
  | _ => false

/-- Whether the accumulator carried by a loop mode already contains a
division whose divisor evaluates to the zero pattern. -/
def accTrap : PMode Expr → Bool
  | .peloop a => dynTrap a
  | .ptloop a => dynTrap a
  | _ => false

/-- Transport a parser mode along a value translation. -/
def mapPMode (g : V1 → V2) : PMode V1 → PMode V2
  | .pexpr => .pexpr
  | .pterm => .pterm
  | .pfactor => .pfactor
  | .peloop a => .peloop (g a)
  | .ptloop a => .ptloop (g a)

/-- Simulation relation between a tree-building parse (state: the trap flag)
and the instruction-emitting parse (state: `BuildSt`): same fuel outcome, same
error or `absVal`-related value, same cursor, and the real trap flag mirrors
the abstract one. -/
def absRel : PRes Expr Bool → PRes IRValue BuildSt → Prop
  | none, none => True
  | some (.error e1, cs1, t1), some (.error e2, cs2, st2) =>
    e1 = e2 ∧ cs1 = cs2 ∧ st2.trap = t1
  | some (.ok e, cs1, t1), some (.ok v, cs2, st2) =>
    absVal e = v ∧ cs1 = cs2 ∧ st2.trap = t1
  | _, _ => False

/-- The tokens of an input line: a maximal run of digits, or one
operator/parenthesis character. -/
inductive Tok where
  | num (ds : List Char)
  | sym (c : Char)
  deriving DecidableEq, Repr

/-- The characters of a token. -/
def tokChars : Tok → List Char
  | .num ds => ds
  | .sym c => [c]

/-- Valid tokens: a nonempty all-digit run, or one of the six
operator/parenthesis characters. -/
def tokOK : Tok → Bool
  | .num ds => !ds.isEmpty && ds.all Char.isDigit
  | .sym c => c = '+' || c = '-' || c = '*' || c = '/' || c = '(' || c = ')'

/-- Two adjacent number tokens (which must be separated by whitespace for the
token list to be the tokenisation of the rendered string). -/
def numNum : Tok → Tok → Bool
  | .num _, .num _ => true
  | _, _ => false

/-- A token list together with the whitespace run following each token;
`psOK` checks every token is valid, every separator is whitespace, and two
adjacent number tokens are separated by nonempty whitespace. -/
def psOK : List (Tok × List Char) → Bool
  | [] => true
  | (t, w) :: ps =>
    tokOK t && w.all isWsC &&
    (match ps with
     | [] => true
     | (t2, _) :: _ => !numNum t t2 || !w.isEmpty) &&
    psOK ps

/-- Render a separated token list back into characters. -/
def renderPs : List (Tok × List Char) → List Char
  | [] => []
  | (t, w) :: ps => tokChars t ++ w ++ renderPs ps

/-- `cs` is some whitespace-interleaved rendering of the token list `l`. -/
def RendW (l : List Tok) (cs : List Char) : Prop :=
  ∃ w ps, w.all isWsC = true ∧ psOK ps = true ∧ ps.map Prod.fst = l ∧ cs = w ++ renderPs ps

/-- The first character of a token's rendering. -/
def tokHead : Tok → Char
  | .sym c => c
  | .num ds => ds.headD '0'

/-- The outcome `run` computes from the trimmed character list (the body of
`runP` with all backend stages succeeding, projected to the outcome). -/
def runBody (cs : List Char) : Outcome :=
  match parseF realB (3 * cs.length + 5) .pexpr cs initSt with
  | none => .err .unexpectedEnd
  | some (.error e, _, _) => .err e
  | some (.ok v, rest, st) =>
    match skip_whitespace rest with
    | c :: _ =>
      if is_valid_char c = false then .err (.invalidTrailing c)
      else .err (.incompleteExpr c)
    | [] => if st.trap then .trap else .ok (toSigned v.val)

example : run "2 + 3 * 4" = .ok 14 := by decide
example : run "(2 + 3) * 4" = .ok 20 := by decide
example : run "10 / 3" = .ok 3 := by decide
example : run "5 / 0" = .err .zeroDivision := by decide
example : run "5 / (2 - 2)" = .trap := by decide
example : run "2 +" = .err .unexpectedEnd := by decide
example : run "2 ^ 3" = .err (.invalidTrailing '^') := by decide
example : run "^ 3" = .err (.invalidChar '^') := by decide
example : run "" = .err .unexpectedEnd := by decide
example : run "1 2" = .err (.incompleteExpr '2') := by decide
example : run "1 $" = .err (.invalidTrailing '$') := by decide
example : run "9223372036854775808" = .err (.valueError "9223372036854775808") := by decide
example : run "(1" = .err .missingParen := by decide
example : refParse "2 + 3 * 4" = some (.add (.lit 2) (.mul (.lit 3) (.lit 4))) := by decide
example : run "(0 - 4) / 2" = .ok 9223372036854775806 := by decide

/-! ### Cursor and fuel facts -/

theorem length_dropWhile_le (p : α → Bool) (l : List α) :
    (l.dropWhile p).length ≤ l.length := by
  induction l with
  | nil => simp
  | cons a l ih =>
    rw [List.dropWhile_cons]
    by_cases h : p a = true
    · simp [h]; omega
    · simp [h]

theorem length_skip_le (cs : List Char) : (skip_whitespace cs).length ≤ cs.length :=
  length_dropWhile_le isWsC cs

/-- Any successful step leaves the cursor no longer than it was, and a
successful `parse_expression` / `parse_term` / `parse_factor` consumes at
least one character. -/
theorem parse_consume (B : Backend V S) :
    ∀ f (m : PMode V) cs st r cs' st', parseF B f m cs st = some (r, cs', st') →
      cs'.length ≤ cs.length ∧
      (∀ v, r = Except.ok v → strictMode m = true → cs'.length < cs.length) := by
  intro f
  induction f with
  | zero => intro m cs st r cs' st' h; simp [parseF] at h
  | succ f ih =>
    intro m cs st r cs' st' h
    cases m with
    | pexpr =>
      simp only [parseF] at h
      split at h
      next h1 => simp at h
      next e cs1 st1 h1 =>
        simp only [Option.some.injEq, Prod.mk.injEq] at h
        obtain ⟨hr, hc, hs2⟩ := h
        subst hr hc
        refine ⟨(ih _ _ _ _ _ _ h1).1, ?_⟩
        intro v hv; simp at hv
      next v1 cs1 st1 h1 =>
        have h2 := (ih _ _ _ _ _ _ h1).2 v1 rfl rfl
        have h3 := (ih _ _ _ _ _ _ h).1
        exact ⟨by omega, fun _ _ _ => by omega⟩
    | pterm =>
      simp only [parseF] at h
      split at h
      next h1 => simp at h
      next e cs1 st1 h1 =>
        simp only [Option.some.injEq, Prod.mk.injEq] at h
        obtain ⟨hr, hc, hs2⟩ := h
        subst hr hc
        refine ⟨(ih _ _ _ _ _ _ h1).1, ?_⟩
        intro v hv; simp at hv
      next v1 cs1 st1 h1 =>
        have h2 := (ih _ _ _ _ _ _ h1).2 v1 rfl rfl
        have h3 := (ih _ _ _ _ _ _ h).1
        exact ⟨by omega, fun _ _ _ => by omega⟩
    | peloop acc =>
      have hsk := length_skip_le cs
      simp only [parseF] at h
      split at h
      next h0 =>
        simp only [Option.some.injEq, Prod.mk.injEq] at h
        obtain ⟨hr, hc, hs2⟩ := h
        subst hc
        exact ⟨by simp, fun v hv hm => by simp [strictMode] at hm⟩
      next op rest h0 =>
        rw [h0] at hsk
        simp only [List.length_cons] at hsk
        split at h
        next hop =>
          split at h
          next h1 => simp at h
          next e cs1 st1 h1 =>
            simp only [Option.some.injEq, Prod.mk.injEq] at h
            obtain ⟨hr, hc, hs2⟩ := h
            subst hc
            have := (ih _ _ _ _ _ _ h1).1
            exact ⟨by omega, fun v hv hm => by simp [strictMode] at hm⟩
          next rhs cs1 st1 h1 =>
            have h2 := (ih _ _ _ _ _ _ h1).1
            have h3 := (ih _ _ _ _ _ _ h).1
            exact ⟨by omega, fun v hv hm => by simp [strictMode] at hm⟩
        next hop =>
          split at h
          next hop2 =>
            split at h
            next h1 => simp at h
            next e cs1 st1 h1 =>
              simp only [Option.some.injEq, Prod.mk.injEq] at h
              obtain ⟨hr, hc, hs2⟩ := h
              subst hc
              have := (ih _ _ _ _ _ _ h1).1
              exact ⟨by omega, fun v hv hm => by simp [strictMode] at hm⟩
            next rhs cs1 st1 h1 =>
              have h2 := (ih _ _ _ _ _ _ h1).1
              have h3 := (ih _ _ _ _ _ _ h).1
              exact ⟨by omega, fun v hv hm => by simp [strictMode] at hm⟩
          next hop2 =>
            simp only [Option.some.injEq, Prod.mk.injEq] at h
            obtain ⟨hr, hc, hs2⟩ := h
            subst hc
            refine ⟨by simp only [List.length_cons]; omega, ?_⟩
            intro v hv hm; simp [strictMode] at hm
    | ptloop acc =>
      have hsk := length_skip_le cs
      simp only [parseF] at h
      split at h
      next h0 =>
        simp only [Option.some.injEq, Prod.mk.injEq] at h
        obtain ⟨hr, hc, hs2⟩ := h
        subst hc
        exact ⟨by simp, fun v hv hm => by simp [strictMode] at hm⟩
      next op rest h0 =>
        rw [h0] at hsk
        simp only [List.length_cons] at hsk
        split at h
        next hop =>
          split at h
          next h1 => simp at h
          next e cs1 st1 h1 =>
            simp only [Option.some.injEq, Prod.mk.injEq] at h
            obtain ⟨hr, hc, hs2⟩ := h
            subst hc
            have := (ih _ _ _ _ _ _ h1).1
            exact ⟨by omega, fun v hv hm => by simp [strictMode] at hm⟩
          next rhs cs1 st1 h1 =>
            have h2 := (ih _ _ _ _ _ _ h1).1
            have h3 := (ih _ _ _ _ _ _ h).1
            exact ⟨by omega, fun v hv hm => by simp [strictMode] at hm⟩
        next hop =>
          split at h
          next hop2 =>
            split at h
            next h1 => simp at h
            next e cs1 st1 h1 =>
              simp only [Option.some.injEq, Prod.mk.injEq] at h
              obtain ⟨hr, hc, hs2⟩ := h
              subst hc
              have := (ih _ _ _ _ _ _ h1).1
              exact ⟨by omega, fun v hv hm => by simp [strictMode] at hm⟩
            next rhs cs1 st1 h1 =>
              split at h
              next hz =>
                simp only [Option.some.injEq, Prod.mk.injEq] at h
                obtain ⟨hr, hc, hs2⟩ := h
                subst hc
                have := (ih _ _ _ _ _ _ h1).1
                exact ⟨by omega, fun v hv hm => by simp [strictMode] at hm⟩
              next hz =>
                have h2 := (ih _ _ _ _ _ _ h1).1
                have h3 := (ih _ _ _ _ _ _ h).1
                exact ⟨by omega, fun v hv hm => by simp [strictMode] at hm⟩
          next hop2 =>
            simp only [Option.some.injEq, Prod.mk.injEq] at h
            obtain ⟨hr, hc, hs2⟩ := h
            subst hc
            refine ⟨by simp only [List.length_cons]; omega, ?_⟩
            intro v hv hm; simp [strictMode] at hm
    | pfactor =>
      have hsk := length_skip_le cs
      simp only [parseF] at h
      split at h
      next h0 =>
        simp only [Option.some.injEq, Prod.mk.injEq] at h
        obtain ⟨hr, hc, hs2⟩ := h
        subst hr hc
        refine ⟨by simp, ?_⟩
        intro v hv; simp at hv
      next c rest h0 =>
        rw [h0] at hsk
        simp only [List.length_cons] at hsk
        split at h
        next hpar =>
          split at h
          next h1 => simp at h
          next e cs1 st1 h1 =>
            simp only [Option.some.injEq, Prod.mk.injEq] at h
            obtain ⟨hr, hc, hs2⟩ := h
            subst hr hc
            have := (ih _ _ _ _ _ _ h1).1
            refine ⟨by omega, ?_⟩
            intro v hv; simp at hv
          next v1 cs1 st1 h1 =>
            have h2 := (ih _ _ _ _ _ _ h1).2 v1 rfl rfl
            have hsk1 := length_skip_le cs1
            split at h
            next rest2 h3 =>
              rw [h3] at hsk1
              simp only [List.length_cons] at hsk1
              simp only [Option.some.injEq, Prod.mk.injEq] at h
              obtain ⟨hr, hc, hs2⟩ := h
              subst hc
              have h4 := length_skip_le rest2
              exact ⟨by omega, fun v hv hm => by omega⟩
            next cs2 h3 =>
              simp only [Option.some.injEq, Prod.mk.injEq] at h
              obtain ⟨hr, hc, hs2⟩ := h
              subst hr hc
              refine ⟨by omega, ?_⟩
              intro v hv; simp at hv
        next hpar =>
          split at h
          next hdig =>
            have hdrop : (c :: rest).dropWhile Char.isDigit = rest.dropWhile Char.isDigit := by
              rw [List.dropWhile_cons]; simp [hdig]
            have hdl := length_dropWhile_le Char.isDigit rest
            split at h
            next n h1 =>
              simp only [Option.some.injEq, Prod.mk.injEq] at h
              obtain ⟨hr, hc, hs2⟩ := h
              subst hc
              rw [hdrop]
              exact ⟨by omega, fun v hv hm => by omega⟩
            next h1 =>
              simp only [Option.some.injEq, Prod.mk.injEq] at h
              obtain ⟨hr, hc, hs2⟩ := h
              subst hr hc
              rw [hdrop]
              refine ⟨by omega, ?_⟩
              intro v hv; simp at hv
          next hdig =>
            simp only [Option.some.injEq, Prod.mk.injEq] at h
            obtain ⟨hr, hc, hs2⟩ := h
            subst hr hc
            refine ⟨by simp only [List.length_cons]; omega, ?_⟩
            intro v hv; simp at hv

/-- More fuel never changes a result that was already reached. -/
theorem parse_mono (B : Backend V S) :
    ∀ f1 f2, f1 ≤ f2 → ∀ (m : PMode V) cs st r, parseF B f1 m cs st = some r →
      parseF B f2 m cs st = some r := by
  intro f1
  induction f1 with
  | zero => intro f2 hle m cs st r h; simp [parseF] at h
  | succ f1 ih =>
    intro f2 hle m cs st r h
    obtain ⟨f2', rfl⟩ : ∃ k, f2 = k + 1 := ⟨f2 - 1, by omega⟩
    have hle' : f1 ≤ f2' := by omega
    cases m with
    | pexpr =>
      simp only [parseF] at h ⊢
      split at h
      next h1 => simp at h
      next e cs1 st1 h1 =>
        simp only [ih _ hle' _ _ _ _ h1]
        exact h
      next v1 cs1 st1 h1 =>
        simp only [ih _ hle' _ _ _ _ h1]
        exact ih _ hle' _ _ _ _ h
    | pterm =>
      simp only [parseF] at h ⊢
      split at h
      next h1 => simp at h
      next e cs1 st1 h1 =>
        simp only [ih _ hle' _ _ _ _ h1]
        exact h
      next v1 cs1 st1 h1 =>
        simp only [ih _ hle' _ _ _ _ h1]
        exact ih _ hle' _ _ _ _ h
    | peloop acc =>
      simp only [parseF] at h ⊢
      split at h
      next h0 => exact h
      next op rest h0 =>
        split at h
        next hop =>
          rw [if_pos hop]
          split at h
          next h1 => simp at h
          next e cs1 st1 h1 =>
            simp only [ih _ hle' _ _ _ _ h1]
            exact h
          next rhs cs1 st1 h1 =>
            simp only [ih _ hle' _ _ _ _ h1]
            exact ih _ hle' _ _ _ _ h
        next hop =>
          rw [if_neg hop]
          split at h
          next hop2 =>
            rw [if_pos hop2]
            split at h
            next h1 => simp at h
            next e cs1 st1 h1 =>
              simp only [ih _ hle' _ _ _ _ h1]
              exact h
            next rhs cs1 st1 h1 =>
              simp only [ih _ hle' _ _ _ _ h1]
              exact ih _ hle' _ _ _ _ h
          next hop2 =>
            rw [if_neg hop2]
            exact h
    | ptloop acc =>
      simp only [parseF] at h ⊢
      split at h
      next h0 => exact h
      next op rest h0 =>
        split at h
        next hop =>
          rw [if_pos hop]
          split at h
          next h1 => simp at h
          next e cs1 st1 h1 =>
            simp only [ih _ hle' _ _ _ _ h1]
            exact h
          next rhs cs1 st1 h1 =>
            simp only [ih _ hle' _ _ _ _ h1]
            exact ih _ hle' _ _ _ _ h
        next hop =>
          rw [if_neg hop]
          split at h
          next hop2 =>
            rw [if_pos hop2]
            split at h
            next h1 => simp at h
            next e cs1 st1 h1 =>
              simp only [ih _ hle' _ _ _ _ h1]
              exact h
            next rhs cs1 st1 h1 =>
              simp only [ih _ hle' _ _ _ _ h1]
              split at h
              next hz => rw [if_pos hz]; exact h
              next hz => rw [if_neg hz]; exact ih _ hle' _ _ _ _ h
          next hop2 =>
            rw [if_neg hop2]
            exact h
    | pfactor =>
      simp only [parseF] at h ⊢
      split at h
      next h0 => exact h
      next c rest h0 =>
        split at h
        next hpar =>
          rw [if_pos hpar]
          split at h
          next h1 => simp at h
          next e cs1 st1 h1 =>
            simp only [ih _ hle' _ _ _ _ h1]
            exact h
          next v1 cs1 st1 h1 =>
            simp only [ih _ hle' _ _ _ _ h1]
            exact h
        next hpar =>
          rw [if_neg hpar]
          exact h

/-- Fuel `fuelNeed m |cs|` (so in particular `3*|cs|+5` for any mode) always
suffices: the parser terminates on every finite input, because every loop
iteration and every descent into a parenthesised sub-expression consumes at
least one character. -/
theorem parse_fuel_sufficient (B : Backend V S) :
    ∀ f (m : PMode V) cs st, fuelNeed m cs.length ≤ f → parseF B f m cs st ≠ none := by
  intro f
  induction f with
  | zero =>
    intro m cs st hle
    cases m <;> simp [fuelNeed] at hle
  | succ f ih =>
    intro m cs st hle
    cases m with
    | pexpr =>
      simp only [fuelNeed] at hle
      cases h1 : parseF B f .pterm cs st with
      | none =>
        exact absurd h1 (ih _ _ _ (by simp only [fuelNeed]; omega))
      | some t =>
        obtain ⟨r, cs1, st1⟩ := t
        cases r with
        | error e => simp [parseF, h1]
        | ok v =>
          have hlt := (parse_consume B f .pterm cs st _ _ _ h1).2 v rfl rfl
          simp only [parseF, h1]
          exact ih _ _ _ (by simp only [fuelNeed]; omega)
    | pterm =>
      simp only [fuelNeed] at hle
      cases h1 : parseF B f .pfactor cs st with
      | none =>
        exact absurd h1 (ih _ _ _ (by simp only [fuelNeed]; omega))
      | some t =>
        obtain ⟨r, cs1, st1⟩ := t
        cases r with
        | error e => simp [parseF, h1]
        | ok v =>
          have hlt := (parse_consume B f .pfactor cs st _ _ _ h1).2 v rfl rfl
          simp only [parseF, h1]
          exact ih _ _ _ (by simp only [fuelNeed]; omega)
    | peloop acc =>
      simp only [fuelNeed] at hle
      have hsk := length_skip_le cs
      cases h0 : skip_whitespace cs with
      | nil => simp [parseF, h0]
      | cons op rest =>
        rw [h0] at hsk
        simp only [List.length_cons] at hsk
        by_cases hop : op = '+'
        · cases h1 : parseF B f .pterm rest st with
          | none =>
            exact absurd h1 (ih _ _ _ (by simp only [fuelNeed]; omega))
          | some t =>
            obtain ⟨r, cs1, st1⟩ := t
            cases r with
            | error e =>
              simp only [parseF, h0]
              rw [if_pos hop]
              simp [h1]
            | ok rhs =>
              have hlt := (parse_consume B f .pterm rest st _ _ _ h1).2 rhs rfl rfl
              simp only [parseF, h0]
              rw [if_pos hop]
              simp only [h1]
              exact ih _ _ _ (by simp only [fuelNeed]; omega)
        · by_cases hop2 : op = '-'
          · cases h1 : parseF B f .pterm rest st with
            | none =>
              exact absurd h1 (ih _ _ _ (by simp only [fuelNeed]; omega))
            | some t =>
              obtain ⟨r, cs1, st1⟩ := t
              cases r with
              | error e =>
                simp only [parseF, h0]
                rw [if_neg hop, if_pos hop2]
                simp [h1]
              | ok rhs =>
                have hlt := (parse_consume B f .pterm rest st _ _ _ h1).2 rhs rfl rfl
                simp only [parseF, h0]
                rw [if_neg hop, if_pos hop2]
                simp only [h1]
                exact ih _ _ _ (by simp only [fuelNeed]; omega)
          · simp only [parseF, h0]
            rw [if_neg hop, if_neg hop2]
            simp
    | ptloop acc =>
      simp only [fuelNeed] at hle
      have hsk := length_skip_le cs
      cases h0 : skip_whitespace cs with
      | nil => simp [parseF, h0]
      | cons op rest =>
        rw [h0] at hsk
        simp only [List.length_cons] at hsk
        by_cases hop : op = '*'
        · cases h1 : parseF B f .pfactor rest st with
          | none =>
            exact absurd h1 (ih _ _ _ (by simp only [fuelNeed]; omega))
          | some t =>
            obtain ⟨r, cs1, st1⟩ := t
            cases r with
            | error e =>
              simp only [parseF, h0]
              rw [if_pos hop]
              simp [h1]
            | ok rhs =>
              have hlt := (parse_consume B f .pfactor rest st _ _ _ h1).2 rhs rfl rfl
              simp only [parseF, h0]
              rw [if_pos hop]
              simp only [h1]
              exact ih _ _ _ (by simp only [fuelNeed]; omega)
        · by_cases hop2 : op = '/'
          · cases h1 : parseF B f .pfactor rest st with
            | none =>
              exact absurd h1 (ih _ _ _ (by simp only [fuelNeed]; omega))
            | some t =>
              obtain ⟨r, cs1, st1⟩ := t
              cases r with
              | error e =>
                simp only [parseF, h0]
                rw [if_neg hop, if_pos hop2]
                simp [h1]
              | ok rhs =>
                have hlt := (parse_consume B f .pfactor rest st _ _ _ h1).2 rhs rfl rfl
                simp only [parseF, h0]
                rw [if_neg hop, if_pos hop2]
                simp only [h1]
                by_cases hz : B.isConstZero rhs = true
                · rw [if_pos hz]; simp
                · rw [if_neg hz]
                  exact ih _ _ _ (by simp only [fuelNeed]; omega)
          · simp only [parseF, h0]
            rw [if_neg hop, if_neg hop2]
            simp
    | pfactor =>
      simp only [fuelNeed] at hle
      have hsk := length_skip_le cs
      cases h0 : skip_whitespace cs with
      | nil => simp [parseF, h0]
      | cons c rest =>
        rw [h0] at hsk
        simp only [List.length_cons] at hsk
        by_cases hpar : c = '('
        · cases h1 : parseF B f .pexpr rest st with
          | none =>
            exact absurd h1 (ih _ _ _ (by simp only [fuelNeed]; omega))
          | some t =>
            obtain ⟨r, cs1, st1⟩ := t
            cases r with
            | error e =>
              simp only [parseF, h0]
              rw [if_pos hpar]
              simp [h1]
            | ok v =>
              simp only [parseF, h0]
              rw [if_pos hpar]
              simp only [h1]
              split <;> simp
        · by_cases hdig : c.isDigit = true
          · simp only [parseF, h0]
            rw [if_neg hpar, if_pos hdig]
            split <;> simp
          · simp only [parseF, h0]
            rw [if_neg hpar, if_neg hdig]
            simp

/-- C9: the three mutually recursive parsing functions terminate on every
finite input: with fuel `3*|input|+5` (one unit per recursive step, and
`fuelNeed` per entry point) the parser never runs out, because the remaining
input length never grows along the recursion and strictly decreases across
every successful `parse_expression`/`parse_term`/`parse_factor` call — in
particular across every operator-loop iteration (which consumes the operator
and a factor) and every descent into a parenthesised sub-expression (which
consumes the opening parenthesis). -/
theorem c9_parser_terminates :
    ∀ f (m : PMode IRValue) cs st, fuelNeed m cs.length ≤ f →
      parseF realB f m cs st ≠ none ∧
      (∀ r cs' st', parseF realB f m cs st = some (r, cs', st') →
        cs'.length ≤ cs.length ∧
        (∀ v, r = Except.ok v → strictMode m = true → cs'.length < cs.length)) := by
  intro f m cs st hf
  exact ⟨parse_fuel_sufficient realB f m cs st hf,
    fun r cs' st' h => parse_consume realB f m cs st r cs' st' h⟩

theorem c9_parser_terminates_witness :
    fuelNeed (V := IRValue) PMode.pexpr ("1+(2*3)".data).length ≤ 40 ∧
    parseF realB 40 .pexpr ("1+(2*3)".data) initSt ≠ none :=
  ⟨by decide, (c9_parser_terminates 40 .pexpr ("1+(2*3)".data) initSt (by decide)).1⟩

/-! ### The decimal rendering of the label counter -/

theorem digitChar_toNat (m : Nat) (h : m < 10) : (digitChar m).toNat = 48 + m := by
  interval_cases m <;> decide

theorem digitsVal_append (ds : List Char) (c : Char) :
    digitsVal (ds ++ [c]) = 10 * digitsVal ds + (c.toNat - 48) := by
  simp [digitsVal, List.foldl_append]

theorem natReprAux_val : ∀ f n, n < f → digitsVal (natReprAux f n) = n := by
  intro f
  induction f with
  | zero => intro n h; omega
  | succ f ih =>
    intro n h
    simp only [natReprAux]
    by_cases h10 : n < 10
    · rw [if_pos h10]
      have h1 := digitChar_toNat n h10
      simp only [digitsVal, List.foldl_cons, List.foldl_nil, h1]
      omega
    · rw [if_neg h10]
      rw [digitsVal_append]
      have hlt : n / 10 < n := Nat.div_lt_self (by omega) (by omega)
      rw [ih (n / 10) (by omega)]
      have h2 := digitChar_toNat (n % 10) (Nat.mod_lt _ (by omega))
      rw [h2]
      omega

theorem natRepr_inj {a b : Nat} (h : natRepr a = natRepr b) : a = b := by
  have h2 : natReprAux (a + 1) a = natReprAux (b + 1) b := by
    injection h
  have h3 := natReprAux_val (a + 1) a (by omega)
  rw [h2, natReprAux_val (b + 1) b (by omega)] at h3
  omega

/-! ### Distinctness of instruction labels -/

theorem mkLabel_inj (p1 p2 : String) (k1 k2 : Nat)
    (hp1 : p1 ∈ labelPrefixes) (hp2 : p2 ∈ labelPrefixes)
    (h : mkLabel p1 k1 = mkLabel p2 k2) : k1 = k2 := by
  have hd : (p1 ++ "_").data ++ (natRepr k1).data = (p2 ++ "_").data ++ (natRepr k2).data := by
    have h0 := congrArg String.data h
    simpa [mkLabel] using h0
  have hlen : (p1 ++ "_").data.length = (p2 ++ "_").data.length := by
    fin_cases hp1 <;> fin_cases hp2 <;> rfl
  have h1 := List.append_inj_right hd hlen
  exact natRepr_inj (String.ext h1)

theorem LabelsGood.le {ls : List String} {n m : Nat}
    (h : LabelsGood ls n) (hle : n ≤ m) : LabelsGood ls m := by
  cases h with
  | nil => exact .nil m
  | cons p k ls n hp hk hg => exact .cons p k ls m hp (by omega) hg

theorem LabelsGood.mem {ls : List String} {n : Nat} (h : LabelsGood ls n) :
    ∀ l ∈ ls, ∃ p k, p ∈ labelPrefixes ∧ l = mkLabel p k ∧ k < n := by
  induction h with
  | nil => simp
  | cons p k ls n hp hk hg ih =>
    intro l hl
    rcases List.mem_cons.mp hl with h1 | h1
    · exact ⟨p, k, hp, h1, hk⟩
    · obtain ⟨p2, k2, hp2, hl2, hk2⟩ := ih l h1
      exact ⟨p2, k2, hp2, hl2, by omega⟩

theorem LabelsGood.pairwise {ls : List String} {n : Nat}
    (h : LabelsGood ls n) : ls.Pairwise (· ≠ ·) := by
  induction h with
  | nil => exact List.Pairwise.nil
  | cons p k ls n hp hk hg ih =>
    refine List.Pairwise.cons ?_ ih
    intro l hl
    obtain ⟨p2, k2, hp2, rfl, hk2⟩ := hg.mem l hl
    intro hcon
    have := mkLabel_inj p p2 k k2 hp hp2 hcon
    omega

theorem buildAdd_st (a b : IRValue) (st : BuildSt) :
    (realB.buildAdd a b st).2 =
      ⟨(st.tmp_counter + 1) % U32, mkLabel "add_tmp" st.tmp_counter :: st.labels,
        st.trap⟩ := rfl

theorem buildSub_st (a b : IRValue) (st : BuildSt) :
    (realB.buildSub a b st).2 =
      ⟨(st.tmp_counter + 1) % U32, mkLabel "sub_tmp" st.tmp_counter :: st.labels,
        st.trap⟩ := rfl

theorem buildMul_st (a b : IRValue) (st : BuildSt) :
    (realB.buildMul a b st).2 =
      ⟨(st.tmp_counter + 1) % U32, mkLabel "mul_tmp" st.tmp_counter :: st.labels,
        st.trap⟩ := rfl

theorem buildDiv_st (a b : IRValue) (st : BuildSt) :
    (realB.buildDiv a b st).2 =
      ⟨(st.tmp_counter + 1) % U32, mkLabel "div_tmp" st.tmp_counter :: st.labels,
        st.trap || (b.val == 0)⟩ := rfl

theorem labels_push (p : String) (hp : p ∈ labelPrefixes) {ls : List String} {n : Nat}
    (h : LabelsGood ls n) : LabelsGood (mkLabel p n :: ls) (n + 1) :=
  .cons p n ls (n + 1) hp (by omega) h

/-- Parsing preserves well-formedness of the label stack, never decreases
the counter, and grows the counter by at most the number of characters
consumed; the headroom hypothesis keeps the wrapping `u32` increments below
`2^32`, so no counter value repeats within the run. -/
theorem parse_labels :
    ∀ f (m : PMode IRValue) cs st r cs' st', parseF realB f m cs st = some (r, cs', st') →
      st.tmp_counter + cs.length < U32 →
      LabelsGood st.labels st.tmp_counter →
      LabelsGood st'.labels st'.tmp_counter ∧ st.tmp_counter ≤ st'.tmp_counter ∧
      st'.tmp_counter + cs'.length ≤ st.tmp_counter + cs.length := by
  intro f
  induction f with
  | zero => intro m cs st r cs' st' h; simp [parseF] at h
  | succ f ih =>
    intro m cs st r cs' st' h hlt hg
    cases m with
    | pexpr =>
      simp only [parseF] at h
      split at h
      next h1 => simp at h
      next e cs1 st1 h1 =>
        simp only [Option.some.injEq, Prod.mk.injEq] at h
        obtain ⟨hr, hc, hs2⟩ := h
        subst hc
        subst hs2
        exact ih _ _ _ _ _ _ h1 hlt hg
      next v1 cs1 st1 h1 =>
        obtain ⟨hg1, hm1, hb1⟩ := ih _ _ _ _ _ _ h1 hlt hg
        have hlt2 : st1.tmp_counter + cs1.length < U32 := by omega
        obtain ⟨hg2, hm2, hb2⟩ := ih _ _ _ _ _ _ h hlt2 hg1
        exact ⟨hg2, by omega, by omega⟩
    | pterm =>
      simp only [parseF] at h
      split at h
      next h1 => simp at h
      next e cs1 st1 h1 =>
        simp only [Option.some.injEq, Prod.mk.injEq] at h
        obtain ⟨hr, hc, hs2⟩ := h
        subst hc
        subst hs2
        exact ih _ _ _ _ _ _ h1 hlt hg
      next v1 cs1 st1 h1 =>
        obtain ⟨hg1, hm1, hb1⟩ := ih _ _ _ _ _ _ h1 hlt hg
        have hlt2 : st1.tmp_counter + cs1.length < U32 := by omega
        obtain ⟨hg2, hm2, hb2⟩ := ih _ _ _ _ _ _ h hlt2 hg1
        exact ⟨hg2, by omega, by omega⟩
    | peloop acc =>
      simp only [parseF] at h
      split at h
      next h0 =>
        simp only [Option.some.injEq, Prod.mk.injEq] at h
        obtain ⟨hr, hc, hs2⟩ := h
        subst hc
        subst hs2
        exact ⟨hg, le_refl _, by simp only [List.length_nil]; omega⟩
      next op rest h0 =>
        have hsk := length_skip_le cs
        rw [h0] at hsk
        simp only [List.length_cons] at hsk
        split at h
        next hop =>
          split at h
          next h1 => simp at h
          next e cs1 st1 h1 =>
            simp only [Option.some.injEq, Prod.mk.injEq] at h
            obtain ⟨hr, hc, hs2⟩ := h
            subst hc
            subst hs2
            have hlt1 : st.tmp_counter + rest.length < U32 := by omega
            obtain ⟨hg1, hm1, hb1⟩ := ih _ _ _ _ _ _ h1 hlt1 hg
            exact ⟨hg1, hm1, by omega⟩
          next rhs cs1 st1 h1 =>
            have hlt1 : st.tmp_counter + rest.length < U32 := by omega
            obtain ⟨hg1, hm1, hb1⟩ := ih _ _ _ _ _ _ h1 hlt1 hg
            rw [buildAdd_st] at h
            have hmod : (st1.tmp_counter + 1) % U32 = st1.tmp_counter + 1 :=
              Nat.mod_eq_of_lt (by omega)
            rw [hmod] at h
            have hlt2 : st1.tmp_counter + 1 + cs1.length < U32 := by omega
            obtain ⟨hg2, hm2, hb2⟩ :=
              ih _ _ _ _ _ _ h hlt2 (labels_push "add_tmp" (by decide) hg1)
            exact ⟨hg2, by simp at hm2; omega, by simp at hb2; omega⟩
        next hop =>
          split at h
          next hop2 =>
            split at h
            next h1 => simp at h
            next e cs1 st1 h1 =>
              simp only [Option.some.injEq, Prod.mk.injEq] at h
              obtain ⟨hr, hc, hs2⟩ := h
              subst hc
              subst hs2
              have hlt1 : st.tmp_counter + rest.length < U32 := by omega
              obtain ⟨hg1, hm1, hb1⟩ := ih _ _ _ _ _ _ h1 hlt1 hg
              exact ⟨hg1, hm1, by omega⟩
            next rhs cs1 st1 h1 =>
              have hlt1 : st.tmp_counter + rest.length < U32 := by omega
              obtain ⟨hg1, hm1, hb1⟩ := ih _ _ _ _ _ _ h1 hlt1 hg
              rw [buildSub_st] at h
              have hmod : (st1.tmp_counter + 1) % U32 = st1.tmp_counter + 1 :=
                Nat.mod_eq_of_lt (by omega)
              rw [hmod] at h
              have hlt2 : st1.tmp_counter + 1 + cs1.length < U32 := by omega
              obtain ⟨hg2, hm2, hb2⟩ :=
                ih _ _ _ _ _ _ h hlt2 (labels_push "sub_tmp" (by decide) hg1)
              exact ⟨hg2, by simp at hm2; omega, by simp at hb2; omega⟩
          next hop2 =>
            simp only [Option.some.injEq, Prod.mk.injEq] at h
            obtain ⟨hr, hc, hs2⟩ := h
            subst hc
            subst hs2
            exact ⟨hg, le_refl _, by simp only [List.length_cons]; omega⟩
    | ptloop acc =>
      simp only [parseF] at h
      split at h
      next h0 =>
        simp only [Option.some.injEq, Prod.mk.injEq] at h
        obtain ⟨hr, hc, hs2⟩ := h
        subst hc
        subst hs2
        exact ⟨hg, le_refl _, by simp only [List.length_nil]; omega⟩
      next op rest h0 =>
        have hsk := length_skip_le cs
        rw [h0] at hsk
        simp only [List.length_cons] at hsk
        split at h
        next hop =>
          split at h
          next h1 => simp at h
          next e cs1 st1 h1 =>
            simp only [Option.some.injEq, Prod.mk.injEq] at h
            obtain ⟨hr, hc, hs2⟩ := h
            subst hc
            subst hs2
            have hlt1 : st.tmp_counter + rest.length < U32 := by omega
            obtain ⟨hg1, hm1, hb1⟩ := ih _ _ _ _ _ _ h1 hlt1 hg
            exact ⟨hg1, hm1, by omega⟩
          next rhs cs1 st1 h1 =>
            have hlt1 : st.tmp_counter + rest.length < U32 := by omega
            obtain ⟨hg1, hm1, hb1⟩ := ih _ _ _ _ _ _ h1 hlt1 hg
            rw [buildMul_st] at h
            have hmod : (st1.tmp_counter + 1) % U32 = st1.tmp_counter + 1 :=
              Nat.mod_eq_of_lt (by omega)
            rw [hmod] at h
            have hlt2 : st1.tmp_counter + 1 + cs1.length < U32 := by omega
            obtain ⟨hg2, hm2, hb2⟩ :=
              ih _ _ _ _ _ _ h hlt2 (labels_push "mul_tmp" (by decide) hg1)
            exact ⟨hg2, by simp at hm2; omega, by simp at hb2; omega⟩
        next hop =>
          split at h
          next hop2 =>
            split at h
            next h1 => simp at h
            next e cs1 st1 h1 =>
              simp only [Option.some.injEq, Prod.mk.injEq] at h
              obtain ⟨hr, hc, hs2⟩ := h
              subst hc
              subst hs2
              have hlt1 : st.tmp_counter + rest.length < U32 := by omega
              obtain ⟨hg1, hm1, hb1⟩ := ih _ _ _ _ _ _ h1 hlt1 hg
              exact ⟨hg1, hm1, by omega⟩
            next rhs cs1 st1 h1 =>
              have hlt1 : st.tmp_counter + rest.length < U32 := by omega
              obtain ⟨hg1, hm1, hb1⟩ := ih _ _ _ _ _ _ h1 hlt1 hg
              split at h
              next hz =>
                simp only [Option.some.injEq, Prod.mk.injEq] at h
                obtain ⟨hr, hc, hs2⟩ := h
                subst hc
                subst hs2
                exact ⟨hg1, hm1, by omega⟩
              next hz =>
                rw [buildDiv_st] at h
                have hmod : (st1.tmp_counter + 1) % U32 = st1.tmp_counter + 1 :=
                  Nat.mod_eq_of_lt (by omega)
                rw [hmod] at h
                have hlt2 : st1.tmp_counter + 1 + cs1.length < U32 := by omega
                obtain ⟨hg2, hm2, hb2⟩ :=
                  ih _ _ _ _ _ _ h hlt2 (labels_push "div_tmp" (by decide) hg1)
                exact ⟨hg2, by simp at hm2; omega, by simp at hb2; omega⟩
          next hop2 =>
            simp only [Option.some.injEq, Prod.mk.injEq] at h
            obtain ⟨hr, hc, hs2⟩ := h
            subst hc
            subst hs2
            exact ⟨hg, le_refl _, by simp only [List.length_cons]; omega⟩
    | pfactor =>
      simp only [parseF] at h
      split at h
      next h0 =>
        simp only [Option.some.injEq, Prod.mk.injEq] at h
        obtain ⟨hr, hc, hs2⟩ := h
        subst hc
        subst hs2
        exact ⟨hg, le_refl _, by simp only [List.length_nil]; omega⟩
      next c rest h0 =>
        have hsk := length_skip_le cs
        rw [h0] at hsk
        simp only [List.length_cons] at hsk
        split at h
        next hpar =>
          split at h
          next h1 => simp at h
          next e cs1 st1 h1 =>
            simp only [Option.some.injEq, Prod.mk.injEq] at h
            obtain ⟨hr, hc, hs2⟩ := h
            subst hc
            subst hs2
            have hlt1 : st.tmp_counter + rest.length < U32 := by omega
            obtain ⟨hg1, hm1, hb1⟩ := ih _ _ _ _ _ _ h1 hlt1 hg
            exact ⟨hg1, hm1, by omega⟩
          next v1 cs1 st1 h1 =>
            have hlt1 : st.tmp_counter + rest.length < U32 := by omega
            obtain ⟨hg1, hm1, hb1⟩ := ih _ _ _ _ _ _ h1 hlt1 hg
            split at h
            next rest2 h3 =>
              simp only [Option.some.injEq, Prod.mk.injEq] at h
              obtain ⟨hr, hc, hs2⟩ := h
              subst hc
              subst hs2
              have hsk1 := length_skip_le cs1
              rw [h3] at hsk1
              simp only [List.length_cons] at hsk1
              have hsk2 := length_skip_le rest2
              exact ⟨hg1, hm1, by omega⟩
            next cs2 h3 =>
              simp only [Option.some.injEq, Prod.mk.injEq] at h
              obtain ⟨hr, hc, hs2⟩ := h
              subst hc
              subst hs2
              have hsk1 := length_skip_le cs1
              exact ⟨hg1, hm1, by omega⟩
        next hpar =>
          split at h
          next hdig =>
            have hdrop : (c :: rest).dropWhile Char.isDigit = rest.dropWhile Char.isDigit := by
              rw [List.dropWhile_cons]; simp [hdig]
            have hdl := length_dropWhile_le Char.isDigit rest
            split at h
            next n h1 =>
              simp only [Option.some.injEq, Prod.mk.injEq] at h
              obtain ⟨hr, hc, hs2⟩ := h
              subst hc
              subst hs2
              rw [hdrop]
              exact ⟨hg, le_refl _, by omega⟩
            next h1 =>
              simp only [Option.some.injEq, Prod.mk.injEq] at h
              obtain ⟨hr, hc, hs2⟩ := h
              subst hc
              subst hs2
              rw [hdrop]
              exact ⟨hg, le_refl _, by omega⟩
          next hdig =>
            simp only [Option.some.injEq, Prod.mk.injEq] at h
            obtain ⟨hr, hc, hs2⟩ := h
            subst hc
            subst hs2
            exact ⟨hg, le_refl _, by simp only [List.length_cons]; omega⟩

/-- The counter of an uninterrupted `gen_tmp_name` emission sequence is the
draw index modulo `2^32`. -/
theorem emitStream_counter (p : String) :
    ∀ n, (emitStream p n).tmp_counter = n % U32 := by
  intro n
  induction n with
  | zero =>
    simp only [emitStream]
    decide
  | succ n ih =>
    simp only [emitStream, gen_tmp_name]
    rw [ih, show U32 = 4294967296 from rfl]
    omega

/-- The `u32` counter wraps: the first and the `2^32 + 1`-st draw of one
uninterrupted emission sequence carry the same label "add_tmp_0", refuting
unconditional label distinctness. -/
theorem c8_labels_distinct_cex :
    (gen_tmp_name "add_tmp" (emitStream "add_tmp" 0)).1 =
      (gen_tmp_name "add_tmp" (emitStream "add_tmp" (2 ^ 32))).1 ∧
    (2 ^ 32 : Nat) ≠ 0 := by
  constructor
  · simp only [gen_tmp_name]
    rw [emitStream_counter, emitStream_counter,
      show (0 : Nat) % U32 = 2 ^ 32 % U32 from by decide]
  · decide

/-- C8 (corrected): `gen_tmp_name` embeds the current `u32` counter in the
returned label and bumps the counter with wrapping `u32` arithmetic, so the
label stream repeats once a single compilation draws more than `2^32` names
(`c8_labels_distinct_cex`); for every line shorter than `2^32` characters
the counter, starting from zero, never wraps, and all labels recorded during
that compilation are pairwise distinct. -/
theorem c8_labels_distinct :
    (∀ p st, (gen_tmp_name p st).2.tmp_counter = (st.tmp_counter + 1) % U32 ∧
      (gen_tmp_name p st).1 = p ++ "_" ++ natRepr st.tmp_counter) ∧
    (∀ f (m : PMode IRValue) cs r cs' st',
      parseF realB f m cs initSt = some (r, cs', st') →
      cs.length < U32 →
      st'.labels.Pairwise (· ≠ ·)) := by
  constructor
  · intro p st; exact ⟨rfl, rfl⟩
  · intro f m cs r cs' st' h hlen
    have hlt : initSt.tmp_counter + cs.length < U32 := by
      simp only [initSt]
      omega
    exact (parse_labels f m cs initSt r cs' st' h hlt (LabelsGood.nil 0)).1.pairwise

theorem c8_labels_distinct_witness :
    parseF realB 20 .pexpr ("1+2*3".data) initSt =
      some (.ok ⟨7, false⟩, [], ⟨2, ["add_tmp_1", "mul_tmp_0"], false⟩) ∧
    (["add_tmp_1", "mul_tmp_0"] : List String).Pairwise (· ≠ ·) :=
  ⟨by decide,
    c8_labels_distinct.2 20 .pexpr ("1+2*3".data) (.ok ⟨7, false⟩) []
      ⟨2, ["add_tmp_1", "mul_tmp_0"], false⟩ (by decide) (by decide)⟩

/-! ### Character class facts -/

theorem isDigit_toNat {c : Char} (h : c.isDigit = true) : 48 ≤ c.toNat ∧ c.toNat ≤ 57 := by
  simp [Char.isDigit] at h
  exact h

theorem digit_not_ws {c : Char} (h : c.isDigit = true) : isWsC c = false := by
  have hb := isDigit_toNat h
  simp [isWsC]
  omega

theorem digit_not_lparen {c : Char} (h : c.isDigit = true) : ¬(c = '(') := by
  have hb := isDigit_toNat h
  intro hc
  subst hc
  simp at hb

theorem skip_cons_digit {c : Char} {cs : List Char} (h : c.isDigit = true) :
    skip_whitespace (c :: cs) = c :: cs := by
  simp [skip_whitespace, List.dropWhile_cons, digit_not_ws h]

theorem takeWhile_digits {ds rest : List Char} (hds : ∀ c ∈ ds, c.isDigit = true)
    (hrest : ∀ c, rest.head? = some c → c.isDigit = false) :
    (ds ++ rest).takeWhile Char.isDigit = ds ∧ (ds ++ rest).dropWhile Char.isDigit = rest := by
  induction ds with
  | nil =>
    cases rest with
    | nil => simp
    | cons c r =>
      have := hrest c (by simp)
      simp [List.takeWhile_cons, List.dropWhile_cons, this]
  | cons d ds ih =>
    have hd : d.isDigit = true := hds d (by simp)
    have := ih (fun c hc => hds c (by simp [hc]))
    simp [List.takeWhile_cons, List.dropWhile_cons, hd, this]

/-- C4: a factor beginning with an ASCII digit greedily consumes the maximal
digit run; if its decimal value fits the signed 64-bit domain it becomes a
constant with that value, otherwise parsing fails with a value error naming
the run — never a silent wraparound. -/
theorem c4_literal_parsing :
    ∀ f ds rest (st : BuildSt), ds ≠ [] → (∀ c ∈ ds, c.isDigit = true) →
      (∀ c, rest.head? = some c → c.isDigit = false) →
      parseF realB (f + 1) .pfactor (ds ++ rest) st =
        (if digitsVal ds ≤ maxI64
         then some (.ok ⟨digitsVal ds, true⟩, rest, st)
         else some (.error (.valueError (String.mk ds)), rest, st)) := by
  intro f ds rest st hne hds hrest
  obtain ⟨d, ds2, rfl⟩ : ∃ d ds2, ds = d :: ds2 := by
    cases ds with
    | nil => simp at hne
    | cons d ds2 => exact ⟨d, ds2, rfl⟩
  have hd : d.isDigit = true := hds d (by simp)
  obtain ⟨htk, hdp⟩ := takeWhile_digits hds hrest
  simp only [List.cons_append] at htk hdp ⊢
  simp only [parseF, skip_cons_digit hd]
  rw [if_neg (digit_not_lparen hd), if_pos hd]
  rw [htk, hdp]
  simp only [parseI64]
  by_cases hv : digitsVal (d :: ds2) ≤ maxI64
  · rw [if_pos hv, if_pos hv]
    have hlt : digitsVal (d :: ds2) % WORD = digitsVal (d :: ds2) := by
      have h9 : maxI64 < WORD := by decide
      exact Nat.mod_eq_of_lt (by omega)
    simp [realB, hlt]
  · rw [if_neg hv, if_neg hv]

theorem c4_literal_parsing_witness :
    parseF realB 1 .pfactor ("123+x".data) initSt =
      some (.ok ⟨123, true⟩, "+x".data, initSt) ∧
    parseF realB 1 .pfactor ("9223372036854775807".data) initSt =
      some (.ok ⟨9223372036854775807, true⟩, [], initSt) ∧
    parseF realB 1 .pfactor ("9223372036854775808".data) initSt =
      some (.error (.valueError "9223372036854775808"), [], initSt) := by
  refine ⟨?_, ?_, ?_⟩
  · exact (c4_literal_parsing 0 ("123".data) ("+x".data) initSt (by decide) (by decide)
      (by intro c hc; simp at hc; subst hc; decide)).trans (by decide)
  · exact (c4_literal_parsing 0 ("9223372036854775807".data) [] initSt (by decide) (by decide)
      (by intro c hc; simp at hc)).trans (by decide)
  · exact (c4_literal_parsing 0 ("9223372036854775808".data) [] initSt (by decide) (by decide)
      (by intro c hc; simp at hc)).trans (by decide)

/-- C6: if the top-level expression parse succeeds but a non-whitespace
character is left, `run` fails with the "incomplete expression" syntax error
when that character is a digit/operator/parenthesis and with the "invalid
trailing character" syntax error otherwise; nothing further is built. -/
theorem c6_trailing (s : String) (v : IRValue) (rest : List Char) (st : BuildSt)
    (c : Char) (cs2 : List Char)
    (hp : parseF realB (3 * (trimChars s.data).length + 5) .pexpr (trimChars s.data) initSt
      = some (.ok v, rest, st))
    (hr : skip_whitespace rest = c :: cs2) :
    run s = .err (if is_valid_char c then .incompleteExpr c else .invalidTrailing c) := by
  unfold run runP
  simp only [hp, hr]
  by_cases hv : is_valid_char c = true
  · simp [hv]
  · have hv2 : is_valid_char c = false := by
      cases h2 : is_valid_char c
      · rfl
      · exact absurd h2 hv
    simp [hv2]

theorem c6_trailing_witness :
    run "1 2" = .err (.incompleteExpr '2') ∧ run "1 ^" = .err (.invalidTrailing '^') := by
  constructor
  · have h := c6_trailing "1 2" ⟨1, true⟩ ['2'] initSt '2' [] (by decide) (by decide)
    rw [h]
    decide
  · have h := c6_trailing "1 ^" ⟨1, true⟩ ['^'] initSt '^' [] (by decide) (by decide)
    rw [h]
    decide

theorem dropWhile_all {cs : List Char} (h : ∀ c ∈ cs, isWsC c = true) :
    cs.dropWhile isWsC = [] := by
  induction cs with
  | nil => simp
  | cons c cs ih =>
    rw [List.dropWhile_cons, if_pos (h c (by simp))]
    exact ih (fun x hx => h x (by simp [hx]))

theorem trim_all_ws {cs : List Char} (h : ∀ c ∈ cs, isWsC c = true) : trimChars cs = [] := by
  unfold trimChars
  rw [dropWhile_all h]
  simp

/-- C10: on an empty or all-whitespace line, `run` trims the input, the
parser immediately hits the exhausted stream in factor position, and the
result is the unexpected-end-of-expression syntax error. -/
theorem c10_empty_input (s : String) (h : ∀ c ∈ s.data, isWsC c = true) :
    run s = .err .unexpectedEnd := by
  unfold run runP
  rw [trim_all_ws h]
  decide

theorem c10_empty_input_witness :
    run "" = .err .unexpectedEnd ∧ run "  " = .err .unexpectedEnd :=
  ⟨c10_empty_input "" (by decide), c10_empty_input "  " (by decide)⟩

/-! ### The instruction-emitting parse refines the tree-building parse -/

theorem buildAdd_val (a b : Expr) (st : BuildSt) :
    (realB.buildAdd (absVal a) (absVal b) st).1 = absVal (.add a b) := rfl

theorem buildSub_val (a b : Expr) (st : BuildSt) :
    (realB.buildSub (absVal a) (absVal b) st).1 = absVal (.sub a b) := rfl

theorem buildMul_val (a b : Expr) (st : BuildSt) :
    (realB.buildMul (absVal a) (absVal b) st).1 = absVal (.mul a b) := rfl

theorem buildDiv_val (a b : Expr) (st : BuildSt) :
    (realB.buildDiv (absVal a) (absVal b) st).1 = absVal (.div a b) := rfl

theorem absVal_isConstZero (e : Expr) : realB.isConstZero (absVal e) = isLitZero e := by
  cases e <;> simp [realB, absVal, isLitB, isLitZero, evalM]

theorem constInt_val (n : Nat) : realB.constInt n = absVal (.lit n) := rfl

/-- The instruction-emitting parse (`realB`) simulates the tree-building
parse with the static zero-divisor check (`chkB`): same cursor movement, the
same error or the `absVal`-image of the tree, and the real trap flag equals
the abstract one. -/
theorem parse_absSim :
    ∀ f (m : PMode Expr) cs (t : Bool) (st : BuildSt) r1 cs1 t1, st.trap = t →
      parseF chkB f m cs t = some (r1, cs1, t1) →
      (∀ e, r1 = Except.error e →
        ∃ st', parseF realB f (mapPMode absVal m) cs st = some (.error e, cs1, st') ∧
          st'.trap = t1) ∧
      (∀ e, r1 = Except.ok e →
        ∃ st', parseF realB f (mapPMode absVal m) cs st = some (.ok (absVal e), cs1, st') ∧
          st'.trap = t1) := by
  intro f
  induction f with
  | zero => intro m cs t st r1 cs1 t1 hst h; simp [parseF] at h
  | succ f ih =>
    intro m cs t st r1 cs1 t1 hst h
    cases m with
    | pexpr =>
      simp only [parseF] at h
      split at h
      next h1 => simp at h
      next e2 cs2 t2 h1 =>
        simp only [Option.some.injEq, Prod.mk.injEq] at h
        obtain ⟨hr, hc, ht⟩ := h
        subst hr hc ht
        obtain ⟨st2, hreal, htrap⟩ := (ih _ _ _ _ _ _ _ hst h1).1 e2 rfl
        simp only [mapPMode] at hreal
        refine ⟨?_, (fun e he => nomatch he)⟩
        intro e he
        injection he with he2
        subst he2
        simp only [parseF, mapPMode, hreal]
        exact ⟨st2, rfl, htrap⟩
      next v1 cs2 t2 h1 =>
        obtain ⟨st2, hreal, htrap⟩ := (ih _ _ _ _ _ _ _ hst h1).2 v1 rfl
        simp only [mapPMode] at hreal
        have hrec := ih _ _ _ _ _ _ _ htrap h
        simp only [mapPMode] at hrec
        constructor
        · intro e he
          obtain ⟨st3, hreal2, htrap2⟩ := hrec.1 e he
          refine ⟨st3, ?_, htrap2⟩
          simp only [parseF, mapPMode, hreal]
          exact hreal2
        · intro e he
          obtain ⟨st3, hreal2, htrap2⟩ := hrec.2 e he
          refine ⟨st3, ?_, htrap2⟩
          simp only [parseF, mapPMode, hreal]
          exact hreal2
    | pterm =>
      simp only [parseF] at h
      split at h
      next h1 => simp at h
      next e2 cs2 t2 h1 =>
        simp only [Option.some.injEq, Prod.mk.injEq] at h
        obtain ⟨hr, hc, ht⟩ := h
        subst hr hc ht
        obtain ⟨st2, hreal, htrap⟩ := (ih _ _ _ _ _ _ _ hst h1).1 e2 rfl
        simp only [mapPMode] at hreal
        refine ⟨?_, (fun e he => nomatch he)⟩
        intro e he
        injection he with he2
        subst he2
        simp only [parseF, mapPMode, hreal]
        exact ⟨st2, rfl, htrap⟩
      next v1 cs2 t2 h1 =>
        obtain ⟨st2, hreal, htrap⟩ := (ih _ _ _ _ _ _ _ hst h1).2 v1 rfl
        simp only [mapPMode] at hreal
        have hrec := ih _ _ _ _ _ _ _ htrap h
        simp only [mapPMode] at hrec
        constructor
        · intro e he
          obtain ⟨st3, hreal2, htrap2⟩ := hrec.1 e he
          refine ⟨st3, ?_, htrap2⟩
          simp only [parseF, mapPMode, hreal]
          exact hreal2
        · intro e he
          obtain ⟨st3, hreal2, htrap2⟩ := hrec.2 e he
          refine ⟨st3, ?_, htrap2⟩
          simp only [parseF, mapPMode, hreal]
          exact hreal2
    | peloop acc =>
      simp only [parseF] at h
      split at h
      next h0 =>
        simp only [Option.some.injEq, Prod.mk.injEq] at h
        obtain ⟨hr, hc, ht⟩ := h
        subst hc ht
        subst hr
        refine ⟨(fun e he => nomatch he), ?_⟩
        intro e he
        injection he with he2
        subst he2
        simp only [parseF, mapPMode, h0]
        exact ⟨st, rfl, hst⟩
      next op rest h0 =>
        split at h
        next hop =>
          split at h
          next h1 => simp at h
          next e2 cs2 t2 h1 =>
            simp only [Option.some.injEq, Prod.mk.injEq] at h
            obtain ⟨hr, hc, ht⟩ := h
            subst hr hc ht
            obtain ⟨st2, hreal, htrap⟩ := (ih _ _ _ _ _ _ _ hst h1).1 e2 rfl
            simp only [mapPMode] at hreal
            refine ⟨?_, (fun e he => nomatch he)⟩
            intro e he
            injection he with he2
            subst he2
            simp only [parseF, mapPMode, h0, hreal]
            rw [if_pos hop]
            exact ⟨st2, rfl, htrap⟩
          next rhs cs2 t2 h1 =>
            simp only [chkB] at h
            obtain ⟨st2, hreal, htrap⟩ := (ih _ _ _ _ _ _ _ hst h1).2 rhs rfl
            simp only [mapPMode] at hreal
            have hst3 : ((realB.buildAdd (absVal acc) (absVal rhs) st2).2).trap = t2 := by
              rw [buildAdd_st]
              exact htrap
            have hrec := ih _ _ _ _ _ _ _ hst3 h
            simp only [mapPMode] at hrec
            constructor
            · intro e he
              obtain ⟨st3, hreal2, htrap2⟩ := hrec.1 e he
              refine ⟨st3, ?_, htrap2⟩
              simp only [parseF, mapPMode, h0, hreal]
              rw [if_pos hop]
              rw [buildAdd_val]
              exact hreal2
            · intro e he
              obtain ⟨st3, hreal2, htrap2⟩ := hrec.2 e he
              refine ⟨st3, ?_, htrap2⟩
              simp only [parseF, mapPMode, h0, hreal]
              rw [if_pos hop]
              rw [buildAdd_val]
              exact hreal2
        next hop =>
          split at h
          next hop2 =>
            split at h
            next h1 => simp at h
            next e2 cs2 t2 h1 =>
              simp only [Option.some.injEq, Prod.mk.injEq] at h
              obtain ⟨hr, hc, ht⟩ := h
              subst hr hc ht
              obtain ⟨st2, hreal, htrap⟩ := (ih _ _ _ _ _ _ _ hst h1).1 e2 rfl
              simp only [mapPMode] at hreal
              refine ⟨?_, (fun e he => nomatch he)⟩
              intro e he
              injection he with he2
              subst he2
              simp only [parseF, mapPMode, h0, hreal]
              rw [if_neg hop, if_pos hop2]
              exact ⟨st2, rfl, htrap⟩
            next rhs cs2 t2 h1 =>
              simp only [chkB] at h
              obtain ⟨st2, hreal, htrap⟩ := (ih _ _ _ _ _ _ _ hst h1).2 rhs rfl
              simp only [mapPMode] at hreal
              have hst3 : ((realB.buildSub (absVal acc) (absVal rhs) st2).2).trap = t2 := by
                rw [buildSub_st]
                exact htrap
              have hrec := ih _ _ _ _ _ _ _ hst3 h
              simp only [mapPMode] at hrec
              constructor
              · intro e he
                obtain ⟨st3, hreal2, htrap2⟩ := hrec.1 e he
                refine ⟨st3, ?_, htrap2⟩
                simp only [parseF, mapPMode, h0, hreal]
                rw [if_neg hop, if_pos hop2]
                rw [buildSub_val]
                exact hreal2
              · intro e he
                obtain ⟨st3, hreal2, htrap2⟩ := hrec.2 e he
                refine ⟨st3, ?_, htrap2⟩
                simp only [parseF, mapPMode, h0, hreal]
                rw [if_neg hop, if_pos hop2]
                rw [buildSub_val]
                exact hreal2
          next hop2 =>
            simp only [Option.some.injEq, Prod.mk.injEq] at h
            obtain ⟨hr, hc, ht⟩ := h
            subst hc ht
            subst hr
            refine ⟨(fun e he => nomatch he), ?_⟩
            intro e he
            injection he with he2
            subst he2
            simp only [parseF, mapPMode, h0]
            rw [if_neg hop, if_neg hop2]
            exact ⟨st, rfl, hst⟩
    | ptloop acc =>
      simp only [parseF] at h
      split at h
      next h0 =>
        simp only [Option.some.injEq, Prod.mk.injEq] at h
        obtain ⟨hr, hc, ht⟩ := h
        subst hc ht
        subst hr
        refine ⟨(fun e he => nomatch he), ?_⟩
        intro e he
        injection he with he2
        subst he2
        simp only [parseF, mapPMode, h0]
        exact ⟨st, rfl, hst⟩
      next op rest h0 =>
        split at h
        next hop =>
          split at h
          next h1 => simp at h
          next e2 cs2 t2 h1 =>
            simp only [Option.some.injEq, Prod.mk.injEq] at h
            obtain ⟨hr, hc, ht⟩ := h
            subst hr hc ht
            obtain ⟨st2, hreal, htrap⟩ := (ih _ _ _ _ _ _ _ hst h1).1 e2 rfl
            simp only [mapPMode] at hreal
            refine ⟨?_, (fun e he => nomatch he)⟩
            intro e he
            injection he with he2
            subst he2
            simp only [parseF, mapPMode, h0, hreal]
            rw [if_pos hop]
            exact ⟨st2, rfl, htrap⟩
          next rhs cs2 t2 h1 =>
            simp only [chkB] at h
            obtain ⟨st2, hreal, htrap⟩ := (ih _ _ _ _ _ _ _ hst h1).2 rhs rfl
            simp only [mapPMode] at hreal
            have hst3 : ((realB.buildMul (absVal acc) (absVal rhs) st2).2).trap = t2 := by
              rw [buildMul_st]
              exact htrap
            have hrec := ih _ _ _ _ _ _ _ hst3 h
            simp only [mapPMode] at hrec
            constructor
            · intro e he
              obtain ⟨st3, hreal2, htrap2⟩ := hrec.1 e he
              refine ⟨st3, ?_, htrap2⟩
              simp only [parseF, mapPMode, h0, hreal]
              rw [if_pos hop]
              rw [buildMul_val]
              exact hreal2
            · intro e he
              obtain ⟨st3, hreal2, htrap2⟩ := hrec.2 e he
              refine ⟨st3, ?_, htrap2⟩
              simp only [parseF, mapPMode, h0, hreal]
              rw [if_pos hop]
              rw [buildMul_val]
              exact hreal2
        next hop =>
          split at h
          next hop2 =>
            split at h
            next h1 => simp at h
            next e2 cs2 t2 h1 =>
              simp only [Option.some.injEq, Prod.mk.injEq] at h
              obtain ⟨hr, hc, ht⟩ := h
              subst hr hc ht
              obtain ⟨st2, hreal, htrap⟩ := (ih _ _ _ _ _ _ _ hst h1).1 e2 rfl
              simp only [mapPMode] at hreal
              refine ⟨?_, (fun e he => nomatch he)⟩
              intro e he
              injection he with he2
              subst he2
              simp only [parseF, mapPMode, h0, hreal]
              rw [if_neg hop, if_pos hop2]
              exact ⟨st2, rfl, htrap⟩
            next rhs cs2 t2 h1 =>
              obtain ⟨st2, hreal, htrap⟩ := (ih _ _ _ _ _ _ _ hst h1).2 rhs rfl
              simp only [mapPMode] at hreal
              split at h
              next hz =>
                simp only [Option.some.injEq, Prod.mk.injEq] at h
                obtain ⟨hr, hc, ht⟩ := h
                subst hc ht
                subst hr
                refine ⟨?_, (fun e he => nomatch he)⟩
                intro e he
                injection he with he2
                subst he2
                simp only [parseF, mapPMode, h0, hreal]
                rw [if_neg hop, if_pos hop2]
                rw [absVal_isConstZero]
                simp only [chkB] at hz
                rw [if_pos hz]
                exact ⟨st2, rfl, htrap⟩
              next hz =>
                simp only [chkB] at h hz
                have hst3 : ((realB.buildDiv (absVal acc) (absVal rhs) st2).2).trap
                    = (t2 || (evalM rhs == 0)) := by
                  rw [buildDiv_st]
                  simp [absVal, htrap]
                have hrec := ih _ _ _ _ _ _ _ hst3 h
                simp only [mapPMode] at hrec
                constructor
                · intro e he
                  obtain ⟨st3, hreal2, htrap2⟩ := hrec.1 e he
                  refine ⟨st3, ?_, htrap2⟩
                  simp only [parseF, mapPMode, h0, hreal]
                  rw [if_neg hop, if_pos hop2]
                  rw [absVal_isConstZero]
                  rw [if_neg hz]
                  rw [buildDiv_val]
                  exact hreal2
                · intro e he
                  obtain ⟨st3, hreal2, htrap2⟩ := hrec.2 e he
                  refine ⟨st3, ?_, htrap2⟩
                  simp only [parseF, mapPMode, h0, hreal]
                  rw [if_neg hop, if_pos hop2]
                  rw [absVal_isConstZero]
                  rw [if_neg hz]
                  rw [buildDiv_val]
                  exact hreal2
          next hop2 =>
            simp only [Option.some.injEq, Prod.mk.injEq] at h
            obtain ⟨hr, hc, ht⟩ := h
            subst hc ht
            subst hr
            refine ⟨(fun e he => nomatch he), ?_⟩
            intro e he
            injection he with he2
            subst he2
            simp only [parseF, mapPMode, h0]
            rw [if_neg hop, if_neg hop2]
            exact ⟨st, rfl, hst⟩
    | pfactor =>
      simp only [parseF] at h
      split at h
      next h0 =>
        simp only [Option.some.injEq, Prod.mk.injEq] at h
        obtain ⟨hr, hc, ht⟩ := h
        subst hc ht
        subst hr
        refine ⟨?_, (fun e he => nomatch he)⟩
        intro e he
        injection he with he2
        subst he2
        simp only [parseF, mapPMode, h0]
        exact ⟨st, rfl, hst⟩
      next c rest h0 =>
        split at h
        next hpar =>
          split at h
          next h1 => simp at h
          next e2 cs2 t2 h1 =>
            simp only [Option.some.injEq, Prod.mk.injEq] at h
            obtain ⟨hr, hc, ht⟩ := h
            subst hr hc ht
            obtain ⟨st2, hreal, htrap⟩ := (ih _ _ _ _ _ _ _ hst h1).1 e2 rfl
            simp only [mapPMode] at hreal
            refine ⟨?_, (fun e he => nomatch he)⟩
            intro e he
            injection he with he2
            subst he2
            simp only [parseF, mapPMode, h0, hreal]
            rw [if_pos hpar]
            exact ⟨st2, rfl, htrap⟩
          next v1 cs2 t2 h1 =>
            obtain ⟨st2, hreal, htrap⟩ := (ih _ _ _ _ _ _ _ hst h1).2 v1 rfl
            simp only [mapPMode] at hreal
            split at h
            next rest2 h3 =>
              simp only [Option.some.injEq, Prod.mk.injEq] at h
              obtain ⟨hr, hc, ht⟩ := h
              subst hc ht
              subst hr
              refine ⟨(fun e he => nomatch he), ?_⟩
              intro e he
              injection he with he2
              subst he2
              simp only [parseF, mapPMode, h0, hreal, h3]
              rw [if_pos hpar]
              exact ⟨st2, rfl, htrap⟩
            next cs3 h3 =>
              simp only [Option.some.injEq, Prod.mk.injEq] at h
              obtain ⟨hr, hc, ht⟩ := h
              subst hr hc ht
              refine ⟨?_, (fun e he => nomatch he)⟩
              intro e he
              injection he with he2
              subst he2
              simp only [parseF, mapPMode, h0, hreal]
              rw [if_pos hpar]
              exact ⟨st2, rfl, htrap⟩
        next hpar =>
          split at h
          next hdig =>
            split at h
            next n h1 =>
              simp only [Option.some.injEq, Prod.mk.injEq] at h
              obtain ⟨hr, hc, ht⟩ := h
              subst hc ht
              subst hr
              refine ⟨(fun e he => nomatch he), ?_⟩
              intro e he
              injection he with he2
              subst he2
              simp only [parseF, mapPMode, h0, h1]
              rw [if_neg hpar, if_pos hdig]
              exact ⟨st, rfl, hst⟩
            next h1 =>
              simp only [Option.some.injEq, Prod.mk.injEq] at h
              obtain ⟨hr, hc, ht⟩ := h
              subst hr hc ht
              refine ⟨?_, (fun e he => nomatch he)⟩
              intro e he
              injection he with he2
              subst he2
              simp only [parseF, mapPMode, h0, h1]
              rw [if_neg hpar, if_pos hdig]
              exact ⟨st, rfl, hst⟩
          next hdig =>
            simp only [Option.some.injEq, Prod.mk.injEq] at h
            obtain ⟨hr, hc, ht⟩ := h
            subst hr hc ht
            refine ⟨?_, (fun e he => nomatch he)⟩
            intro e he
            injection he with he2
            subst he2
            simp only [parseF, mapPMode, h0]
            rw [if_neg hpar, if_neg hdig]
            exact ⟨st, rfl, hst⟩

/-! ### The bare-grammar parse: accumulator containment and the trap flag -/

theorem bool_absorb {a b c : Bool} (h : b = true → c = true) : ((a || b) || c) = (a || c) := by
  cases b
  · simp
  · simp [h rfl]

theorem bool_absorb2 {t y x c : Bool} (hy : y = true → c = true) (hx : x = true → c = true) :
    (((t || y) || x) || c) = (t || c) := by
  cases y
  · cases x
    · simp
    · simp [hx rfl]
  · simp [hy rfl]

/-- A loop whose accumulator already contains a static zero divisor (resp. a
division with zero divisor pattern) returns a tree that still contains one:
loop results extend their accumulator. -/
theorem parse_acc_mono :
    ∀ f (m : PMode Expr) cs t e cs' t', parseF nochkB f m cs t = some (.ok e, cs', t') →
      (accSZ m = true → hasSZ e = true) ∧ (accTrap m = true → dynTrap e = true) := by
  intro f
  induction f with
  | zero => intro m cs t e cs' t' h; simp [parseF] at h
  | succ f ih =>
    intro m cs t e cs' t' h
    cases m with
    | pexpr =>
      exact ⟨by intro hacc; simp [accSZ] at hacc, by intro hacc; simp [accTrap] at hacc⟩
    | pterm =>
      exact ⟨by intro hacc; simp [accSZ] at hacc, by intro hacc; simp [accTrap] at hacc⟩
    | pfactor =>
      exact ⟨by intro hacc; simp [accSZ] at hacc, by intro hacc; simp [accTrap] at hacc⟩
    | peloop acc =>
      simp only [parseF] at h
      split at h
      next h0 =>
        simp only [Option.some.injEq, Prod.mk.injEq, Except.ok.injEq] at h
        obtain ⟨hr, hc, ht⟩ := h
        subst hr
        exact ⟨fun hacc => by simpa [accSZ] using hacc, fun hacc => by simpa [accTrap] using hacc⟩
      next op rest h0 =>
        split at h
        next hop =>
          split at h
          next h1 => simp at h
          next e2 cs2 t2 h1 => simp at h
          next rhs cs2 t2 h1 =>
            simp only [nochkB, chkB] at h
            constructor
            · intro hacc
              refine (ih _ _ _ _ _ _ h).1 ?_
              simp only [accSZ, hasSZ] at hacc ⊢
              simp [hacc]
            · intro hacc
              refine (ih _ _ _ _ _ _ h).2 ?_
              simp only [accTrap, dynTrap] at hacc ⊢
              simp [hacc]
        next hop =>
          split at h
          next hop2 =>
            split at h
            next h1 => simp at h
            next e2 cs2 t2 h1 => simp at h
            next rhs cs2 t2 h1 =>
              simp only [nochkB, chkB] at h
              constructor
              · intro hacc
                refine (ih _ _ _ _ _ _ h).1 ?_
                simp only [accSZ, hasSZ] at hacc ⊢
                simp [hacc]
              · intro hacc
                refine (ih _ _ _ _ _ _ h).2 ?_
                simp only [accTrap, dynTrap] at hacc ⊢
                simp [hacc]
          next hop2 =>
            simp only [Option.some.injEq, Prod.mk.injEq, Except.ok.injEq] at h
            obtain ⟨hr, hc, ht⟩ := h
            subst hr
            exact ⟨fun hacc => by simpa [accSZ] using hacc,
              fun hacc => by simpa [accTrap] using hacc⟩
    | ptloop acc =>
      simp only [parseF] at h
      split at h
      next h0 =>
        simp only [Option.some.injEq, Prod.mk.injEq, Except.ok.injEq] at h
        obtain ⟨hr, hc, ht⟩ := h
        subst hr
        exact ⟨fun hacc => by simpa [accSZ] using hacc, fun hacc => by simpa [accTrap] using hacc⟩
      next op rest h0 =>
        split at h
        next hop =>
          split at h
          next h1 => simp at h
          next e2 cs2 t2 h1 => simp at h
          next rhs cs2 t2 h1 =>
            simp only [nochkB, chkB] at h
            constructor
            · intro hacc
              refine (ih _ _ _ _ _ _ h).1 ?_
              simp only [accSZ, hasSZ] at hacc ⊢
              simp [hacc]
            · intro hacc
              refine (ih _ _ _ _ _ _ h).2 ?_
              simp only [accTrap, dynTrap] at hacc ⊢
              simp [hacc]
        next hop =>
          split at h
          next hop2 =>
            split at h
            next h1 => simp at h
            next e2 cs2 t2 h1 => simp at h
            next rhs cs2 t2 h1 =>
              simp only [nochkB, chkB] at h
              split at h
              next hz => simp at h
              next hz =>
                constructor
                · intro hacc
                  refine (ih _ _ _ _ _ _ h).1 ?_
                  simp only [accSZ, hasSZ] at hacc ⊢
                  simp [hacc]
                · intro hacc
                  refine (ih _ _ _ _ _ _ h).2 ?_
                  simp only [accTrap, dynTrap] at hacc ⊢
                  simp [hacc]
          next hop2 =>
            simp only [Option.some.injEq, Prod.mk.injEq, Except.ok.injEq] at h
            obtain ⟨hr, hc, ht⟩ := h
            subst hr
            exact ⟨fun hacc => by simpa [accSZ] using hacc,
              fun hacc => by simpa [accTrap] using hacc⟩

/-- The trap flag after a successful bare-grammar parse: the incoming flag
joined with "the parsed tree contains a division whose divisor evaluates to
the zero pattern". -/
theorem parse_trap :
    ∀ f (m : PMode Expr) cs t e cs' t', parseF nochkB f m cs t = some (.ok e, cs', t') →
      (accTrap m = true → t = true) → t' = (t || dynTrap e) := by
  intro f
  induction f with
  | zero => intro m cs t e cs' t' h; simp [parseF] at h
  | succ f ih =>
    intro m cs t e cs' t' h hacc
    cases m with
    | pexpr =>
      simp only [parseF] at h
      split at h
      next h1 => simp at h
      next e2 cs2 t2 h1 => simp at h
      next v1 cs2 t2 h1 =>
        have ht1 := ih _ _ _ _ _ _ h1 (by intro hx; simp [accTrap] at hx)
        have ht2 := ih _ _ _ _ _ _ h (by
          intro hx
          simp only [accTrap] at hx
          simp [ht1, hx])
        have hmono := (parse_acc_mono f _ _ _ _ _ _ h).2
        simp only [accTrap] at hmono
        rw [ht2, ht1]
        exact bool_absorb hmono
    | pterm =>
      simp only [parseF] at h
      split at h
      next h1 => simp at h
      next e2 cs2 t2 h1 => simp at h
      next v1 cs2 t2 h1 =>
        have ht1 := ih _ _ _ _ _ _ h1 (by intro hx; simp [accTrap] at hx)
        have ht2 := ih _ _ _ _ _ _ h (by
          intro hx
          simp only [accTrap] at hx
          simp [ht1, hx])
        have hmono := (parse_acc_mono f _ _ _ _ _ _ h).2
        simp only [accTrap] at hmono
        rw [ht2, ht1]
        exact bool_absorb hmono
    | pfactor =>
      simp only [parseF] at h
      split at h
      next h0 => simp at h
      next c rest h0 =>
        split at h
        next hpar =>
          split at h
          next h1 => simp at h
          next e2 cs2 t2 h1 => simp at h
          next v1 cs2 t2 h1 =>
            have ht1 := ih _ _ _ _ _ _ h1 (by intro hx; simp [accTrap] at hx)
            split at h
            next rest2 h3 =>
              simp only [Option.some.injEq, Prod.mk.injEq, Except.ok.injEq] at h
              obtain ⟨hr, hc, ht⟩ := h
              subst hr ht
              exact ht1
            next cs3 h3 => simp at h
        next hpar =>
          split at h
          next hdig =>
            split at h
            next n h1 =>
              simp only [Option.some.injEq, Prod.mk.injEq, Except.ok.injEq] at h
              obtain ⟨hr, hc, ht⟩ := h
              subst hr ht
              simp [nochkB, chkB, dynTrap]
            next h1 => simp at h
          next hdig => simp at h
    | peloop acc =>
      simp only [parseF] at h
      split at h
      next h0 =>
        simp only [Option.some.injEq, Prod.mk.injEq, Except.ok.injEq] at h
        obtain ⟨hr, hc, ht⟩ := h
        subst hr ht
        simp only [accTrap] at hacc
        cases hd : dynTrap acc
        · simp
        · simp [hacc hd]
      next op rest h0 =>
        split at h
        next hop =>
          split at h
          next h1 => simp at h
          next e2 cs2 t2 h1 => simp at h
          next rhs cs2 t2 h1 =>
            simp only [nochkB, chkB] at h
            have ht1 := ih _ _ _ _ _ _ h1 (by intro hx; simp [accTrap] at hx)
            have ht2 := ih _ _ _ _ _ _ h (by
              intro hx
              simp only [accTrap, dynTrap] at hx
              simp only [accTrap] at hacc
              rw [ht1]
              rcases Bool.or_eq_true_iff.mp hx with hx1 | hx1
              · simp [hacc hx1]
              · simp [hx1])
            have hmono := (parse_acc_mono f _ _ _ _ _ _ h).2
            simp only [accTrap, dynTrap] at hmono
            simp only [accTrap] at hacc
            rw [ht2, ht1]
            exact bool_absorb (fun hx => hmono (by simp [hx]))
        next hop =>
          split at h
          next hop2 =>
            split at h
            next h1 => simp at h
            next e2 cs2 t2 h1 => simp at h
            next rhs cs2 t2 h1 =>
              simp only [nochkB, chkB] at h
              have ht1 := ih _ _ _ _ _ _ h1 (by intro hx; simp [accTrap] at hx)
              have ht2 := ih _ _ _ _ _ _ h (by
                intro hx
                simp only [accTrap, dynTrap] at hx
                simp only [accTrap] at hacc
                rw [ht1]
                rcases Bool.or_eq_true_iff.mp hx with hx1 | hx1
                · simp [hacc hx1]
                · simp [hx1])
              have hmono := (parse_acc_mono f _ _ _ _ _ _ h).2
              simp only [accTrap, dynTrap] at hmono
              simp only [accTrap] at hacc
              rw [ht2, ht1]
              exact bool_absorb (fun hx => hmono (by simp [hx]))
          next hop2 =>
            simp only [Option.some.injEq, Prod.mk.injEq, Except.ok.injEq] at h
            obtain ⟨hr, hc, ht⟩ := h
            subst hr ht
            simp only [accTrap] at hacc
            cases hd : dynTrap acc
            · simp
            · simp [hacc hd]
    | ptloop acc =>
      simp only [parseF] at h
      split at h
      next h0 =>
        simp only [Option.some.injEq, Prod.mk.injEq, Except.ok.injEq] at h
        obtain ⟨hr, hc, ht⟩ := h
        subst hr ht
        simp only [accTrap] at hacc
        cases hd : dynTrap acc
        · simp
        · simp [hacc hd]
      next op rest h0 =>
        split at h
        next hop =>
          split at h
          next h1 => simp at h
          next e2 cs2 t2 h1 => simp at h
          next rhs cs2 t2 h1 =>
            simp only [nochkB, chkB] at h
            have ht1 := ih _ _ _ _ _ _ h1 (by intro hx; simp [accTrap] at hx)
            have ht2 := ih _ _ _ _ _ _ h (by
              intro hx
              simp only [accTrap, dynTrap] at hx
              simp only [accTrap] at hacc
              rw [ht1]
              rcases Bool.or_eq_true_iff.mp hx with hx1 | hx1
              · simp [hacc hx1]
              · simp [hx1])
            have hmono := (parse_acc_mono f _ _ _ _ _ _ h).2
            simp only [accTrap, dynTrap] at hmono
            simp only [accTrap] at hacc
            rw [ht2, ht1]
            exact bool_absorb (fun hx => hmono (by simp [hx]))
        next hop =>
          split at h
          next hop2 =>
            split at h
            next h1 => simp at h
            next e2 cs2 t2 h1 => simp at h
            next rhs cs2 t2 h1 =>
              simp only [nochkB, chkB] at h
              split at h
              next hz => simp at h
              next hz =>
                have ht1 := ih _ _ _ _ _ _ h1 (by intro hx; simp [accTrap] at hx)
                have ht2 := ih _ _ _ _ _ _ h (by
                  intro hx
                  simp only [accTrap, dynTrap] at hx
                  simp only [accTrap] at hacc
                  rw [ht1]
                  rcases Bool.or_eq_true_iff.mp hx with hx1 | hx1
                  · rcases Bool.or_eq_true_iff.mp hx1 with hx2 | hx2
                    · simp [hacc hx2]
                    · simp [hx2]
                  · simp [hx1])
                have hmono := (parse_acc_mono f _ _ _ _ _ _ h).2
                simp only [accTrap, dynTrap] at hmono
                simp only [accTrap] at hacc
                rw [ht2, ht1]
                cases hdr : dynTrap rhs
                · cases hdz : (evalM rhs == 0)
                  · simp
                  · simp [hmono (by simp [hdz])]
                · simp [hmono (by simp [hdr])]
          next hop2 =>
            simp only [Option.some.injEq, Prod.mk.injEq, Except.ok.injEq] at h
            obtain ⟨hr, hc, ht⟩ := h
            subst hr ht
            simp only [accTrap] at hacc
            cases hd : dynTrap acc
            · simp
            · simp [hacc hd]

/-- The checked parse (`chkB`, the source's static zero-divisor check)
against the bare-grammar parse (`nochkB`): on a grammar-parseable input the
checked parse returns the same tree and cursor when the tree has no static
zero divisor, and fails with the division-by-zero error exactly when it has
one; a bare-grammar error is reproduced verbatim unless a static zero
divisor is hit first. -/
theorem parse_chk_of_nochk :
    ∀ f (m : PMode Expr) cs t r cs' t', parseF nochkB f m cs t = some (r, cs', t') →
      accSZ m = false →
      (∀ e, r = Except.error e →
        parseF chkB f m cs t = some (.error e, cs', t') ∨
        ∃ cs2 t2, parseF chkB f m cs t = some (.error .zeroDivision, cs2, t2)) ∧
      (∀ e, r = Except.ok e →
        (hasSZ e = false → parseF chkB f m cs t = some (.ok e, cs', t')) ∧
        (hasSZ e = true →
          ∃ cs2 t2, parseF chkB f m cs t = some (.error .zeroDivision, cs2, t2))) := by
  intro f
  induction f with
  | zero => intro m cs t r cs' t' h; simp [parseF] at h
  | succ f ih =>
    intro m cs t r cs' t' h hacc2
    cases m with
    | pexpr =>
      simp only [parseF] at h
      split at h
      next h1 => simp at h
      next e2 cs2 t2 h1 =>
        simp only [Option.some.injEq, Prod.mk.injEq] at h
        obtain ⟨hr, hc, ht⟩ := h
        subst hr hc ht
        refine ⟨?_, (fun e he => nomatch he)⟩
        intro e he
        injection he with he2
        subst he2
        rcases (ih _ _ _ _ _ _ h1 rfl).1 e2 rfl with hchk | ⟨cs3, t3, hchk⟩
        · left
          simp only [parseF, hchk]
        · right
          exact ⟨cs3, t3, by simp only [parseF, hchk]⟩
      next v1 cs2 t2 h1 =>
        cases hsv : hasSZ v1 with
        | false =>
          have hchk := ((ih _ _ _ _ _ _ h1 rfl).2 v1 rfl).1 hsv
          have hrec := ih _ _ _ _ _ _ h (by simp [accSZ, hsv])
          refine ⟨?_, ?_⟩
          · intro e he
            rcases hrec.1 e he with hc2 | ⟨cs3, t3, hc2⟩
            · left
              simp only [parseF, hchk]
              exact hc2
            · right
              exact ⟨cs3, t3, by simp only [parseF, hchk]; exact hc2⟩
          · intro e he
            obtain ⟨hfalse, htrue⟩ := hrec.2 e he
            refine ⟨?_, ?_⟩
            · intro hsz
              simp only [parseF, hchk]
              exact hfalse hsz
            · intro hsz
              obtain ⟨cs3, t3, hc2⟩ := htrue hsz
              exact ⟨cs3, t3, by simp only [parseF, hchk]; exact hc2⟩
        | true =>
          obtain ⟨cs3, t3, hchk⟩ := ((ih _ _ _ _ _ _ h1 rfl).2 v1 rfl).2 hsv
          refine ⟨?_, ?_⟩
          · intro e he
            right
            exact ⟨cs3, t3, by simp only [parseF, hchk]⟩
          · intro e he
            have hse : hasSZ e = true :=
              (parse_acc_mono f _ _ _ _ _ _ (he ▸ h)).1 (by simp [accSZ, hsv])
            refine ⟨?_, ?_⟩
            · intro hcon
              rw [hse] at hcon
              exact absurd hcon (by simp)
            · intro hsz2
              exact ⟨cs3, t3, by simp only [parseF, hchk]⟩
    | pterm =>
      simp only [parseF] at h
      split at h
      next h1 => simp at h
      next e2 cs2 t2 h1 =>
        simp only [Option.some.injEq, Prod.mk.injEq] at h
        obtain ⟨hr, hc, ht⟩ := h
        subst hr hc ht
        refine ⟨?_, (fun e he => nomatch he)⟩
        intro e he
        injection he with he2
        subst he2
        rcases (ih _ _ _ _ _ _ h1 rfl).1 e2 rfl with hchk | ⟨cs3, t3, hchk⟩
        · left
          simp only [parseF, hchk]
        · right
          exact ⟨cs3, t3, by simp only [parseF, hchk]⟩
      next v1 cs2 t2 h1 =>
        cases hsv : hasSZ v1 with
        | false =>
          have hchk := ((ih _ _ _ _ _ _ h1 rfl).2 v1 rfl).1 hsv
          have hrec := ih _ _ _ _ _ _ h (by simp [accSZ, hsv])
          refine ⟨?_, ?_⟩
          · intro e he
            rcases hrec.1 e he with hc2 | ⟨cs3, t3, hc2⟩
            · left
              simp only [parseF, hchk]
              exact hc2
            · right
              exact ⟨cs3, t3, by simp only [parseF, hchk]; exact hc2⟩
          · intro e he
            obtain ⟨hfalse, htrue⟩ := hrec.2 e he
            refine ⟨?_, ?_⟩
            · intro hsz
              simp only [parseF, hchk]
              exact hfalse hsz
            · intro hsz
              obtain ⟨cs3, t3, hc2⟩ := htrue hsz
              exact ⟨cs3, t3, by simp only [parseF, hchk]; exact hc2⟩
        | true =>
          obtain ⟨cs3, t3, hchk⟩ := ((ih _ _ _ _ _ _ h1 rfl).2 v1 rfl).2 hsv
          refine ⟨?_, ?_⟩
          · intro e he
            right
            exact ⟨cs3, t3, by simp only [parseF, hchk]⟩
          · intro e he
            have hse : hasSZ e = true :=
              (parse_acc_mono f _ _ _ _ _ _ (he ▸ h)).1 (by simp [accSZ, hsv])
            refine ⟨?_, ?_⟩
            · intro hcon
              rw [hse] at hcon
              exact absurd hcon (by simp)
            · intro hsz2
              exact ⟨cs3, t3, by simp only [parseF, hchk]⟩
    | peloop acc =>
      simp only [accSZ] at hacc2
      simp only [parseF] at h
      split at h
      next h0 =>
        simp only [Option.some.injEq, Prod.mk.injEq] at h
        obtain ⟨hr, hc, ht⟩ := h
        subst hr hc ht
        refine ⟨(fun e he => nomatch he), ?_⟩
        intro e he
        injection he with he2
        subst he2
        refine ⟨?_, ?_⟩
        · intro hsz
          simp only [parseF, h0]
        · intro hsz
          rw [hsz] at hacc2
          exact absurd hacc2 (by simp)
      next op rest h0 =>
        split at h
        next hop =>
          split at h
          next h1 => simp at h
          next e2 cs2 t2 h1 =>
            simp only [Option.some.injEq, Prod.mk.injEq] at h
            obtain ⟨hr, hc, ht⟩ := h
            subst hr hc ht
            refine ⟨?_, (fun e he => nomatch he)⟩
            intro e he
            injection he with he2
            subst he2
            rcases (ih _ _ _ _ _ _ h1 rfl).1 e2 rfl with hchk | ⟨cs3, t3, hchk⟩
            · left
              simp only [parseF, h0, hchk]
              rw [if_pos hop]
            · right
              refine ⟨cs3, t3, ?_⟩
              simp only [parseF, h0, hchk]
              rw [if_pos hop]
          next rhs cs2 t2 h1 =>
            simp only [nochkB, chkB] at h
            cases hsr : hasSZ rhs with
            | false =>
              have hchk := ((ih _ _ _ _ _ _ h1 rfl).2 rhs rfl).1 hsr
              have hrec := ih _ _ _ _ _ _ h (by simp [accSZ, hasSZ, hacc2, hsr])
              refine ⟨?_, ?_⟩
              · intro e he
                rcases hrec.1 e he with hc2 | ⟨cs3, t3, hc2⟩
                · left
                  simp only [parseF, h0, hchk]
                  rw [if_pos hop]
                  simp only [chkB]
                  exact hc2
                · right
                  refine ⟨cs3, t3, ?_⟩
                  simp only [parseF, h0, hchk]
                  rw [if_pos hop]
                  simp only [chkB]
                  exact hc2
              · intro e he
                obtain ⟨hfalse, htrue⟩ := hrec.2 e he
                refine ⟨?_, ?_⟩
                · intro hsz
                  simp only [parseF, h0, hchk]
                  rw [if_pos hop]
                  simp only [chkB]
                  exact hfalse hsz
                · intro hsz
                  obtain ⟨cs3, t3, hc2⟩ := htrue hsz
                  refine ⟨cs3, t3, ?_⟩
                  simp only [parseF, h0, hchk]
                  rw [if_pos hop]
                  simp only [chkB]
                  exact hc2
            | true =>
              obtain ⟨cs3, t3, hchk⟩ := ((ih _ _ _ _ _ _ h1 rfl).2 rhs rfl).2 hsr
              refine ⟨?_, ?_⟩
              · intro e he
                right
                refine ⟨cs3, t3, ?_⟩
                simp only [parseF, h0, hchk]
                rw [if_pos hop]
              · intro e he
                have hse : hasSZ e = true :=
                  (parse_acc_mono f _ _ _ _ _ _ (he ▸ h)).1 (by simp [accSZ, hasSZ, hsr])
                refine ⟨?_, ?_⟩
                · intro hcon
                  rw [hse] at hcon
                  exact absurd hcon (by simp)
                · intro hsz2
                  refine ⟨cs3, t3, ?_⟩
                  simp only [parseF, h0, hchk]
                  rw [if_pos hop]
        next hop =>
          split at h
          next hop2 =>
            split at h
            next h1 => simp at h
            next e2 cs2 t2 h1 =>
              simp only [Option.some.injEq, Prod.mk.injEq] at h
              obtain ⟨hr, hc, ht⟩ := h
              subst hr hc ht
              refine ⟨?_, (fun e he => nomatch he)⟩
              intro e he
              injection he with he2
              subst he2
              rcases (ih _ _ _ _ _ _ h1 rfl).1 e2 rfl with hchk | ⟨cs3, t3, hchk⟩
              · left
                simp only [parseF, h0, hchk]
                rw [if_neg hop, if_pos hop2]
              · right
                refine ⟨cs3, t3, ?_⟩
                simp only [parseF, h0, hchk]
                rw [if_neg hop, if_pos hop2]
            next rhs cs2 t2 h1 =>
              simp only [nochkB, chkB] at h
              cases hsr : hasSZ rhs with
              | false =>
                have hchk := ((ih _ _ _ _ _ _ h1 rfl).2 rhs rfl).1 hsr
                have hrec := ih _ _ _ _ _ _ h (by simp [accSZ, hasSZ, hacc2, hsr])
                refine ⟨?_, ?_⟩
                · intro e he
                  rcases hrec.1 e he with hc2 | ⟨cs3, t3, hc2⟩
                  · left
                    simp only [parseF, h0, hchk]
                    rw [if_neg hop, if_pos hop2]
                    simp only [chkB]
                    exact hc2
                  · right
                    refine ⟨cs3, t3, ?_⟩
                    simp only [parseF, h0, hchk]
                    rw [if_neg hop, if_pos hop2]
                    simp only [chkB]
                    exact hc2
                · intro e he
                  obtain ⟨hfalse, htrue⟩ := hrec.2 e he
                  refine ⟨?_, ?_⟩
                  · intro hsz
                    simp only [parseF, h0, hchk]
                    rw [if_neg hop, if_pos hop2]
                    simp only [chkB]
                    exact hfalse hsz
                  · intro hsz
                    obtain ⟨cs3, t3, hc2⟩ := htrue hsz
                    refine ⟨cs3, t3, ?_⟩
                    simp only [parseF, h0, hchk]
                    rw [if_neg hop, if_pos hop2]
                    simp only [chkB]
                    exact hc2
              | true =>
                obtain ⟨cs3, t3, hchk⟩ := ((ih _ _ _ _ _ _ h1 rfl).2 rhs rfl).2 hsr
                refine ⟨?_, ?_⟩
                · intro e he
                  right
                  refine ⟨cs3, t3, ?_⟩
                  simp only [parseF, h0, hchk]
                  rw [if_neg hop, if_pos hop2]
                · intro e he
                  have hse : hasSZ e = true :=
                    (parse_acc_mono f _ _ _ _ _ _ (he ▸ h)).1 (by simp [accSZ, hasSZ, hsr])
                  refine ⟨?_, ?_⟩
                  · intro hcon
                    rw [hse] at hcon
                    exact absurd hcon (by simp)
                  · intro hsz2
                    refine ⟨cs3, t3, ?_⟩
                    simp only [parseF, h0, hchk]
                    rw [if_neg hop, if_pos hop2]
          next hop2 =>
            simp only [Option.some.injEq, Prod.mk.injEq] at h
            obtain ⟨hr, hc, ht⟩ := h
            subst hr hc ht
            refine ⟨(fun e he => nomatch he), ?_⟩
            intro e he
            injection he with he2
            subst he2
            refine ⟨?_, ?_⟩
            · intro hsz
              simp only [parseF, h0]
              rw [if_neg hop, if_neg hop2]
            · intro hsz
              rw [hsz] at hacc2
              exact absurd hacc2 (by simp)
    | ptloop acc =>
      simp only [accSZ] at hacc2
      simp only [parseF] at h
      split at h
      next h0 =>
        simp only [Option.some.injEq, Prod.mk.injEq] at h
        obtain ⟨hr, hc, ht⟩ := h
        subst hr hc ht
        refine ⟨(fun e he => nomatch he), ?_⟩
        intro e he
        injection he with he2
        subst he2
        refine ⟨?_, ?_⟩
        · intro hsz
          simp only [parseF, h0]
        · intro hsz
          rw [hsz] at hacc2
          exact absurd hacc2 (by simp)
      next op rest h0 =>
        split at h
        next hop =>
          split at h
          next h1 => simp at h
          next e2 cs2 t2 h1 =>
            simp only [Option.some.injEq, Prod.mk.injEq] at h
            obtain ⟨hr, hc, ht⟩ := h
            subst hr hc ht
            refine ⟨?_, (fun e he => nomatch he)⟩
            intro e he
            injection he with he2
            subst he2
            rcases (ih _ _ _ _ _ _ h1 rfl).1 e2 rfl with hchk | ⟨cs3, t3, hchk⟩
            · left
              simp only [parseF, h0, hchk]
              rw [if_pos hop]
            · right
              refine ⟨cs3, t3, ?_⟩
              simp only [parseF, h0, hchk]
              rw [if_pos hop]
          next rhs cs2 t2 h1 =>
            simp only [nochkB, chkB] at h
            cases hsr : hasSZ rhs with
            | false =>
              have hchk := ((ih _ _ _ _ _ _ h1 rfl).2 rhs rfl).1 hsr
              have hrec := ih _ _ _ _ _ _ h (by simp [accSZ, hasSZ, hacc2, hsr])
              refine ⟨?_, ?_⟩
              · intro e he
                rcases hrec.1 e he with hc2 | ⟨cs3, t3, hc2⟩
                · left
                  simp only [parseF, h0, hchk]
                  rw [if_pos hop]
                  simp only [chkB]
                  exact hc2
                · right
                  refine ⟨cs3, t3, ?_⟩
                  simp only [parseF, h0, hchk]
                  rw [if_pos hop]
                  simp only [chkB]
                  exact hc2
              · intro e he
                obtain ⟨hfalse, htrue⟩ := hrec.2 e he
                refine ⟨?_, ?_⟩
                · intro hsz
                  simp only [parseF, h0, hchk]
                  rw [if_pos hop]
                  simp only [chkB]
                  exact hfalse hsz
                · intro hsz
                  obtain ⟨cs3, t3, hc2⟩ := htrue hsz
                  refine ⟨cs3, t3, ?_⟩
                  simp only [parseF, h0, hchk]
                  rw [if_pos hop]
                  simp only [chkB]
                  exact hc2
            | true =>
              obtain ⟨cs3, t3, hchk⟩ := ((ih _ _ _ _ _ _ h1 rfl).2 rhs rfl).2 hsr
              refine ⟨?_, ?_⟩
              · intro e he
                right
                refine ⟨cs3, t3, ?_⟩
                simp only [parseF, h0, hchk]
                rw [if_pos hop]
              · intro e he
                have hse : hasSZ e = true :=
                  (parse_acc_mono f _ _ _ _ _ _ (he ▸ h)).1 (by simp [accSZ, hasSZ, hsr])
                refine ⟨?_, ?_⟩
                · intro hcon
                  rw [hse] at hcon
                  exact absurd hcon (by simp)
                · intro hsz2
                  refine ⟨cs3, t3, ?_⟩
                  simp only [parseF, h0, hchk]
                  rw [if_pos hop]
        next hop =>
          split at h
          next hop2 =>
            split at h
            next h1 => simp at h
            next e2 cs2 t2 h1 =>
              simp only [Option.some.injEq, Prod.mk.injEq] at h
              obtain ⟨hr, hc, ht⟩ := h
              subst hr hc ht
              refine ⟨?_, (fun e he => nomatch he)⟩
              intro e he
              injection he with he2
              subst he2
              rcases (ih _ _ _ _ _ _ h1 rfl).1 e2 rfl with hchk | ⟨cs3, t3, hchk⟩
              · left
                simp only [parseF, h0, hchk]
                rw [if_neg hop, if_pos hop2]
              · right
                refine ⟨cs3, t3, ?_⟩
                simp only [parseF, h0, hchk]
                rw [if_neg hop, if_pos hop2]
            next rhs cs2 t2 h1 =>
              simp only [nochkB, chkB] at h
              cases hsr : hasSZ rhs with
              | false =>
                have hchk := ((ih _ _ _ _ _ _ h1 rfl).2 rhs rfl).1 hsr
                cases hz : isLitZero rhs with
                | true =>
                  refine ⟨?_, ?_⟩
                  · intro e he
                    right
                    refine ⟨cs2, t2, ?_⟩
                    simp only [parseF, h0, hchk]
                    rw [if_neg hop, if_pos hop2]
                    rw [if_pos (show chkB.isConstZero rhs = true by simp [chkB, hz])]
                  · intro e he
                    have hse : hasSZ e = true :=
                      (parse_acc_mono f _ _ _ _ _ _ (he ▸ h)).1
                        (by simp [accSZ, hasSZ, hz])
                    refine ⟨?_, ?_⟩
                    · intro hcon
                      rw [hse] at hcon
                      exact absurd hcon (by simp)
                    · intro hsz2
                      refine ⟨cs2, t2, ?_⟩
                      simp only [parseF, h0, hchk]
                      rw [if_neg hop, if_pos hop2]
                      rw [if_pos (show chkB.isConstZero rhs = true by simp [chkB, hz])]
                | false =>
                  have hrec := ih _ _ _ _ _ _ h
                    (by simp [accSZ, hasSZ, hacc2, hsr, hz])
                  refine ⟨?_, ?_⟩
                  · intro e he
                    rcases hrec.1 e he with hc2 | ⟨cs3, t3, hc2⟩
                    · left
                      simp only [parseF, h0, hchk]
                      rw [if_neg hop, if_pos hop2]
                      rw [if_neg (show ¬(chkB.isConstZero rhs = true) by simp [chkB, hz])]
                      simp only [chkB]
                      exact hc2
                    · right
                      refine ⟨cs3, t3, ?_⟩
                      simp only [parseF, h0, hchk]
                      rw [if_neg hop, if_pos hop2]
                      rw [if_neg (show ¬(chkB.isConstZero rhs = true) by simp [chkB, hz])]
                      simp only [chkB]
                      exact hc2
                  · intro e he
                    obtain ⟨hfalse, htrue⟩ := hrec.2 e he
                    refine ⟨?_, ?_⟩
                    · intro hsz
                      simp only [parseF, h0, hchk]
                      rw [if_neg hop, if_pos hop2]
                      rw [if_neg (show ¬(chkB.isConstZero rhs = true) by simp [chkB, hz])]
                      simp only [chkB]
                      exact hfalse hsz
                    · intro hsz
                      obtain ⟨cs3, t3, hc2⟩ := htrue hsz
                      refine ⟨cs3, t3, ?_⟩
                      simp only [parseF, h0, hchk]
                      rw [if_neg hop, if_pos hop2]
                      rw [if_neg (show ¬(chkB.isConstZero rhs = true) by simp [chkB, hz])]
                      simp only [chkB]
                      exact hc2
              | true =>
                obtain ⟨cs3, t3, hchk⟩ := ((ih _ _ _ _ _ _ h1 rfl).2 rhs rfl).2 hsr
                refine ⟨?_, ?_⟩
                · intro e he
                  right
                  refine ⟨cs3, t3, ?_⟩
                  simp only [parseF, h0, hchk]
                  rw [if_neg hop, if_pos hop2]
                · intro e he
                  have hse : hasSZ e = true :=
                    (parse_acc_mono f _ _ _ _ _ _ (he ▸ h)).1
                      (by simp [accSZ, hasSZ, hsr])
                  refine ⟨?_, ?_⟩
                  · intro hcon
                    rw [hse] at hcon
                    exact absurd hcon (by simp)
                  · intro hsz2
                    refine ⟨cs3, t3, ?_⟩
                    simp only [parseF, h0, hchk]
                    rw [if_neg hop, if_pos hop2]
          next hop2 =>
            simp only [Option.some.injEq, Prod.mk.injEq] at h
            obtain ⟨hr, hc, ht⟩ := h
            subst hr hc ht
            refine ⟨(fun e he => nomatch he), ?_⟩
            intro e he
            injection he with he2
            subst he2
            refine ⟨?_, ?_⟩
            · intro hsz
              simp only [parseF, h0]
              rw [if_neg hop, if_neg hop2]
            · intro hsz
              rw [hsz] at hacc2
              exact absurd hacc2 (by simp)
    | pfactor =>
      simp only [parseF] at h
      split at h
      next h0 =>
        simp only [Option.some.injEq, Prod.mk.injEq] at h
        obtain ⟨hr, hc, ht⟩ := h
        subst hr hc ht
        refine ⟨?_, (fun e he => nomatch he)⟩
        intro e he
        injection he with he2
        subst he2
        left
        simp only [parseF, h0]
      next c rest h0 =>
        split at h
        next hpar =>
          split at h
          next h1 => simp at h
          next e2 cs2 t2 h1 =>
            simp only [Option.some.injEq, Prod.mk.injEq] at h
            obtain ⟨hr, hc, ht⟩ := h
            subst hr hc ht
            refine ⟨?_, (fun e he => nomatch he)⟩
            intro e he
            injection he with he2
            subst he2
            rcases (ih _ _ _ _ _ _ h1 rfl).1 e2 rfl with hchk | ⟨cs3, t3, hchk⟩
            · left
              simp only [parseF, h0, hchk]
              rw [if_pos hpar]
            · right
              refine ⟨cs3, t3, ?_⟩
              simp only [parseF, h0, hchk]
              rw [if_pos hpar]
          next v1 cs2 t2 h1 =>
            cases hsv : hasSZ v1 with
            | false =>
              have hchk := ((ih _ _ _ _ _ _ h1 rfl).2 v1 rfl).1 hsv
              split at h
              next rest2 h3 =>
                simp only [Option.some.injEq, Prod.mk.injEq] at h
                obtain ⟨hr, hc, ht⟩ := h
                subst hr hc ht
                refine ⟨(fun e he => nomatch he), ?_⟩
                intro e he
                injection he with he2
                subst he2
                refine ⟨?_, ?_⟩
                · intro hsz
                  simp only [parseF, h0, hchk, h3]
                  rw [if_pos hpar]
                · intro hsz
                  rw [hsz] at hsv
                  exact absurd hsv (by simp)
              next cs3 h3 =>
                simp only [Option.some.injEq, Prod.mk.injEq] at h
                obtain ⟨hr, hc, ht⟩ := h
                subst hr hc ht
                refine ⟨?_, (fun e he => nomatch he)⟩
                intro e he
                injection he with he2
                subst he2
                left
                simp only [parseF, h0, hchk]
                rw [if_pos hpar]
            | true =>
              obtain ⟨cs3, t3, hchk⟩ := ((ih _ _ _ _ _ _ h1 rfl).2 v1 rfl).2 hsv
              split at h
              next rest2 h3 =>
                simp only [Option.some.injEq, Prod.mk.injEq] at h
                obtain ⟨hr, hc, ht⟩ := h
                subst hr hc ht
                refine ⟨(fun e he => nomatch he), ?_⟩
                intro e he
                injection he with he2
                subst he2
                refine ⟨?_, ?_⟩
                · intro hcon
                  rw [hsv] at hcon
                  exact absurd hcon (by simp)
                · intro hsz2
                  refine ⟨cs3, t3, ?_⟩
                  simp only [parseF, h0, hchk]
                  rw [if_pos hpar]
              next cs4 h3 =>
                simp only [Option.some.injEq, Prod.mk.injEq] at h
                obtain ⟨hr, hc, ht⟩ := h
                subst hr hc ht
                refine ⟨?_, (fun e he => nomatch he)⟩
                intro e he
                injection he with he2
                subst he2
                right
                refine ⟨cs3, t3, ?_⟩
                simp only [parseF, h0, hchk]
                rw [if_pos hpar]
        next hpar =>
          split at h
          next hdig =>
            split at h
            next n h1 =>
              simp only [nochkB, chkB, Option.some.injEq, Prod.mk.injEq] at h
              obtain ⟨hr, hc, ht⟩ := h
              subst hr hc ht
              refine ⟨(fun e he => nomatch he), ?_⟩
              intro e he
              injection he with he2
              subst he2
              refine ⟨?_, ?_⟩
              · intro hsz
                simp only [parseF, h0, h1]
                rw [if_neg hpar, if_pos hdig]
                rfl
              · intro hsz
                simp [hasSZ] at hsz
            next h1 =>
              simp only [Option.some.injEq, Prod.mk.injEq] at h
              obtain ⟨hr, hc, ht⟩ := h
              subst hr hc ht
              refine ⟨?_, (fun e he => nomatch he)⟩
              intro e he
              injection he with he2
              subst he2
              left
              simp only [parseF, h0, h1]
              rw [if_neg hpar, if_pos hdig]
          next hdig =>
            simp only [Option.some.injEq, Prod.mk.injEq] at h
            obtain ⟨hr, hc, ht⟩ := h
            subst hr hc ht
            refine ⟨?_, (fun e he => nomatch he)⟩
            intro e he
            injection he with he2
            subst he2
            left
            simp only [parseF, h0]
            rw [if_neg hpar, if_neg hdig]

/-! ### Run-level correctness -/

theorem hasSZ_imp_dynTrap : ∀ e : Expr, hasSZ e = true → dynTrap e = true := by
  intro e
  induction e with
  | lit n => simp [hasSZ]
  | add a b iha ihb =>
    simp only [hasSZ, dynTrap, Bool.or_eq_true]
    rintro (h | h)
    · exact Or.inl (iha h)
    · exact Or.inr (ihb h)
  | sub a b iha ihb =>
    simp only [hasSZ, dynTrap, Bool.or_eq_true]
    rintro (h | h)
    · exact Or.inl (iha h)
    · exact Or.inr (ihb h)
  | mul a b iha ihb =>
    simp only [hasSZ, dynTrap, Bool.or_eq_true]
    rintro (h | h)
    · exact Or.inl (iha h)
    · exact Or.inr (ihb h)
  | div a b iha ihb =>
    simp only [hasSZ, dynTrap, Bool.or_eq_true]
    rintro ((h | h) | h)
    · exact Or.inl (Or.inl (iha h))
    · exact Or.inl (Or.inr (ihb h))
    · refine Or.inr ?_
      cases b with
      | lit n => simpa [isLitZero, evalM] using h
      | add x y => simp [isLitZero] at h
      | sub x y => simp [isLitZero] at h
      | mul x y => simp [isLitZero] at h
      | div x y => simp [isLitZero] at h

theorem refParse_inv {s : String} {e : Expr} (h : refParse s = some e) :
    ∃ rest t', refParseRes s = some (.ok e, rest, t') ∧ skip_whitespace rest = [] := by
  unfold refParse at h
  split at h
  next e2 rest t2 hres =>
    split at h
    next hskip =>
      injection h with h2
      subst h2
      exact ⟨rest, t2, hres, hskip⟩
    next hskip => simp at h
  next hres => simp at h

/-- C1: on every line whose standard (left-associative, precedence-respecting)
parse succeeds and evaluates without any zero divisor, `run` returns `Ok`
of exactly the standard evaluation of the tree, where every arithmetic
instruction acts on 64-bit patterns and `/` is the unsigned 64-bit
division — in particular "2 + 3 * 4" gives 14 and "(2 + 3) * 4" gives 20
(see the witness). -/
theorem c1_correct_evaluation :
    ∀ (s : String) (e : Expr), refParse s = some e → dynTrap e = false →
      run s = .ok (toSigned (evalM e)) := by
  intro s e h hdyn
  obtain ⟨rest, t2, hres, hskip⟩ := refParse_inv h
  have hsz : hasSZ e = false := by
    cases hcon : hasSZ e
    · rfl
    · rw [hasSZ_imp_dynTrap e hcon] at hdyn
      exact absurd hdyn (by simp)
  unfold refParseRes at hres
  have hchk := ((parse_chk_of_nochk _ _ _ _ _ _ _ hres rfl).2 e rfl).1 hsz
  have ht2 : t2 = false := by
    have := parse_trap _ _ _ _ _ _ _ hres (by intro hx; simp [accTrap] at hx)
    rw [this, hdyn]
    simp
  rw [ht2] at hchk
  obtain ⟨st2, hreal, htrap⟩ :=
    (parse_absSim _ _ _ _ initSt _ _ _ rfl hchk).2 e rfl
  simp only [mapPMode] at hreal
  unfold run runP
  simp only [hreal, hskip]
  simp [htrap, absVal]

theorem c1_correct_evaluation_witness :
    refParse "2 + 3 * 4" = some (.add (.lit 2) (.mul (.lit 3) (.lit 4))) ∧
    run "2 + 3 * 4" = .ok 14 ∧
    refParse "(2 + 3) * 4" = some (.mul (.add (.lit 2) (.lit 3)) (.lit 4)) ∧
    run "(2 + 3) * 4" = .ok 20 := by
  refine ⟨by decide, ?_, by decide, ?_⟩
  · have h := c1_correct_evaluation "2 + 3 * 4"
      (.add (.lit 2) (.mul (.lit 3) (.lit 4))) (by decide) (by decide)
    rw [h]
    decide
  · have h := c1_correct_evaluation "(2 + 3) * 4"
      (.mul (.add (.lit 2) (.lit 3)) (.lit 4)) (by decide) (by decide)
    rw [h]
    decide

/-- C2: on every line with a standard parse, `run` fails with the
division-by-zero error exactly when some `/` of the tree has a
compile-time-constant zero divisor (a literal `0`, possibly in redundant
parentheses); a zero produced only by a runtime sub-expression such as
`2 - 2` is not caught by the static check. -/
theorem c2_static_zero_division :
    ∀ (s : String) (e : Expr), refParse s = some e →
      (run s = .err .zeroDivision ↔ hasSZ e = true) := by
  intro s e h
  obtain ⟨rest, t2, hres, hskip⟩ := refParse_inv h
  unfold refParseRes at hres
  constructor
  · intro hrun
    cases hsz : hasSZ e
    · exfalso
      have hchk := ((parse_chk_of_nochk _ _ _ _ _ _ _ hres rfl).2 e rfl).1 hsz
      obtain ⟨st2, hreal, htrap⟩ :=
        (parse_absSim _ _ _ _ initSt _ _ _ rfl hchk).2 e rfl
      simp only [mapPMode] at hreal
      unfold run runP at hrun
      simp only [hreal, hskip] at hrun
      cases htr : st2.trap <;> simp [htr] at hrun
    · rfl
  · intro hsz
    obtain ⟨cs2, t3, hchk⟩ := ((parse_chk_of_nochk _ _ _ _ _ _ _ hres rfl).2 e rfl).2 hsz
    obtain ⟨st2, hreal, htrap⟩ :=
      (parse_absSim _ _ _ _ initSt _ _ _ rfl hchk).1 .zeroDivision rfl
    simp only [mapPMode] at hreal
    unfold run runP
    simp only [hreal]
    simp

theorem c2_static_zero_division_witness :
    refParse "5 / 0" = some (.div (.lit 5) (.lit 0)) ∧
    run "5 / 0" = .err .zeroDivision ∧
    refParse "5 / (2 - 2)" = some (.div (.lit 5) (.sub (.lit 2) (.lit 2))) ∧
    hasSZ (.div (.lit 5) (.sub (.lit 2) (.lit 2))) = false ∧
    run "5 / (2 - 2)" ≠ .err .zeroDivision := by
  refine ⟨by decide, ?_, by decide, by decide, ?_⟩
  · exact (c2_static_zero_division "5 / 0" (.div (.lit 5) (.lit 0)) (by decide)).mpr
      (by decide)
  · intro hcon
    exact absurd
      ((c2_static_zero_division "5 / (2 - 2)"
        (.div (.lit 5) (.sub (.lit 2) (.lit 2))) (by decide)).mp hcon)
      (by decide)

/-- C3: every division is compiled as an unsigned 64-bit division on bit
patterns: the emitted instruction's value is `⌊a/b⌋` of the operand
patterns; on in-range non-negative operands this is ordinary truncating
division ("10 / 3" gives 3), but on a negative (wrapped) operand the result
is the signed reinterpretation of the pattern quotient, not mathematical
signed division: "(0 - 4) / 2" yields 2^63 - 2, not -2. -/
theorem c3_unsigned_division :
    (∀ (x y : IRValue) (st : BuildSt), ((realB.buildDiv x y st).1).val = wdiv x.val y.val) ∧
    (∀ a b : Expr, evalM (.div a b) = wdiv (evalM a) (evalM b)) ∧
    (∀ a b : Nat, 0 < b → b ≤ maxI64 → a ≤ maxI64 →
      toSigned (wdiv a b) = (a : Int) / (b : Int)) ∧
    run "10 / 3" = .ok 3 ∧
    run "(0 - 4) / 2" = .ok (2 ^ 63 - 2) ∧
    toSigned (evalM (.div (.sub (.lit 0) (.lit 4)) (.lit 2)))
      ≠ toSigned (evalM (.sub (.lit 0) (.lit 4))) / toSigned (evalM (.lit 2)) := by
  refine ⟨fun x y st => rfl, fun a b => rfl, ?_, by decide, by decide, by decide⟩
  intro a b hb hbm ham
  have hdivle : wdiv a b ≤ a := Nat.div_le_self a b
  have hlt : wdiv a b < 2 ^ 63 := by
    have : maxI64 < 2 ^ 63 := by decide
    omega
  unfold toSigned
  rw [if_pos hlt]
  exact_mod_cast (Int.natCast_div a b).symm

theorem c3_unsigned_division_witness :
    toSigned (wdiv 10 3) = (10 : Int) / (3 : Int) :=
  c3_unsigned_division.2.2.1 10 3 (by decide) (by decide) (by decide)

/-- C7: one `run` call either fully succeeds — every stage (engine creation,
parse, trailing check, return emission, verification, JIT resolution) passes
and the compiled function is invoked exactly once, producing its outcome —
or fully fails: the first stage error makes `run` return that `Err`
immediately and the compiled function is never invoked. -/
theorem c7_all_or_nothing :
    ∀ (j r v q : Bool) (s : String),
      ((runP j r v q s).2 = true ↔
        (runP j r v q s).1 = .trap ∨ ∃ n, (runP j r v q s).1 = .ok n) ∧
      ((∃ e, (runP j r v q s).1 = .err e) → (runP j r v q s).2 = false) ∧
      ((runP j r v q s).2 = true → j = true ∧ r = true ∧ v = true ∧ q = true) := by
  intro j r v q s
  cases j with
  | false => simp [runP]
  | true =>
    cases hp : parseF realB (3 * (trimChars s.data).length + 5) .pexpr (trimChars s.data)
        initSt with
    | none => simp [runP, hp]
    | some x =>
      obtain ⟨r1, rest, st1⟩ := x
      cases r1 with
      | error e => simp [runP, hp]
      | ok v1 =>
        cases hsw : skip_whitespace rest with
        | cons c cs2 =>
          by_cases hvc : is_valid_char c = false <;> simp [runP, hp, hsw, hvc]
        | nil =>
          cases r <;> cases v <;> cases q <;> cases htr : st1.trap <;>
            simp [runP, hp, hsw, htr]

theorem c7_all_or_nothing_witness : (runP true false true true "1+1").2 = false :=
  (c7_all_or_nothing true false true true "1+1").2.1 ⟨.retEmitError, by decide⟩

/-! ### Whitespace-insensitive rendering -/

theorem ws_not_digit {c : Char} (h : isWsC c = true) : c.isDigit = false := by
  cases hd : c.isDigit
  · rfl
  · exfalso
    have hb := isDigit_toNat hd
    simp [isWsC] at h
    omega

theorem digit_not_op {c : Char} (h : c.isDigit = true) :
    c ≠ '+' ∧ c ≠ '-' ∧ c ≠ '*' ∧ c ≠ '/' ∧ c ≠ '(' ∧ c ≠ ')' := by
  refine ⟨?_, ?_, ?_, ?_, ?_, ?_⟩ <;> (intro hc; subst hc; exact absurd h (by decide))

theorem sym_not_ws {c : Char} (h : tokOK (.sym c) = true) : isWsC c = false := by
  simp [tokOK] at h
  rcases h with ((((h | h) | h) | h) | h) | h <;> subst h <;> decide

theorem sym_not_digit {c : Char} (h : tokOK (.sym c) = true) : c.isDigit = false := by
  simp [tokOK] at h
  rcases h with ((((h | h) | h) | h) | h) | h <;> subst h <;> decide

theorem skip_append_ws {w x : List Char} (hw : w.all isWsC = true) :
    skip_whitespace (w ++ x) = skip_whitespace x := by
  induction w with
  | nil => simp
  | cons c w ih =>
    simp only [List.all_cons, Bool.and_eq_true] at hw
    simp only [List.cons_append, skip_whitespace, List.dropWhile_cons, hw.1, if_pos]
    exact ih hw.2

theorem num_shape {ds : List Char} (h : tokOK (Tok.num ds) = true) :
    ∃ d ds2, ds = d :: ds2 ∧ ∀ c ∈ ds, c.isDigit = true := by
  simp only [tokOK, Bool.and_eq_true] at h
  obtain ⟨hne, hall⟩ := h
  cases ds with
  | nil => simp at hne
  | cons d ds2 =>
    refine ⟨d, ds2, rfl, ?_⟩
    intro c hc
    exact List.all_eq_true.mp hall c hc

theorem psOK_cons {t : Tok} {w : List Char} {ps : List (Tok × List Char)}
    (h : psOK ((t, w) :: ps) = true) :
    tokOK t = true ∧ w.all isWsC = true ∧ psOK ps = true := by
  simp only [psOK, Bool.and_eq_true] at h
  exact ⟨h.1.1.1, h.1.1.2, h.2⟩

theorem psOK_sep {t t2 : Tok} {w w2 : List Char} {ps : List (Tok × List Char)}
    (h : psOK ((t, w) :: (t2, w2) :: ps) = true) (hw : w = []) :
    numNum t t2 = false := by
  subst hw
  simp only [psOK, Bool.and_eq_true] at h
  have h2 := h.1.2
  simpa using h2

theorem skip_renderPs {ps : List (Tok × List Char)} (hps : psOK ps = true) :
    skip_whitespace (renderPs ps) = renderPs ps := by
  cases ps with
  | nil => simp [renderPs, skip_whitespace]
  | cons p ps2 =>
    obtain ⟨t, w⟩ := p
    obtain ⟨ht, hw, hp2⟩ := psOK_cons hps
    cases t with
    | num ds =>
      obtain ⟨d, ds2, rfl, hall⟩ := num_shape ht
      have hd : d.isDigit = true := hall d (by simp)
      simp only [renderPs, tokChars, List.cons_append, skip_whitespace, List.dropWhile_cons,
        digit_not_ws hd]
      simp
    | sym c =>
      simp only [renderPs, tokChars, List.cons_append, skip_whitespace, List.dropWhile_cons,
        sym_not_ws ht]
      simp

theorem RendW_skip {l : List Tok} {cs : List Char} (h : RendW l cs) :
    ∃ ps, psOK ps = true ∧ ps.map Prod.fst = l ∧ skip_whitespace cs = renderPs ps := by
  obtain ⟨w, ps, hw, hps, hmap, rfl⟩ := h
  exact ⟨ps, hps, hmap, by rw [skip_append_ws hw, skip_renderPs hps]⟩

theorem num_run_boundary {ds : List Char} {w : List Char} {ps : List (Tok × List Char)}
    (h : psOK ((Tok.num ds, w) :: ps) = true) :
    ∀ c, (w ++ renderPs ps).head? = some c → c.isDigit = false := by
  intro c hc
  cases w with
  | cons cw w2 =>
    obtain ⟨ht, hw, hps2⟩ := psOK_cons h
    simp only [List.cons_append, List.head?_cons, Option.some.injEq] at hc
    subst hc
    have hwsc : isWsC cw = true := by
      simp only [List.all_cons, Bool.and_eq_true] at hw
      exact hw.1
    exact ws_not_digit hwsc
  | nil =>
    simp only [List.nil_append] at hc
    cases ps with
    | nil => simp [renderPs] at hc
    | cons p2 ps2 =>
      obtain ⟨t2, w2⟩ := p2
      have hsep := psOK_sep h rfl
      obtain ⟨ht2, hw2, hps3⟩ := psOK_cons (psOK_cons h).2.2
      cases t2 with
      | num ds2 => simp [numNum] at hsep
      | sym c2 =>
        simp only [renderPs, tokChars, List.cons_append, List.head?_cons,
          Option.some.injEq] at hc
        subst hc
        exact sym_not_digit ht2


/-- The empty rendering. -/
theorem RendW_nil : RendW [] [] :=
  ⟨[], [], rfl, rfl, rfl, rfl⟩

/-- A rendered separated token list is a rendering of its tokens. -/
theorem RendW_render {ps : List (Tok × List Char)} {l : List Tok}
    (hps : psOK ps = true) (hmap : ps.map Prod.fst = l) : RendW l (renderPs ps) :=
  ⟨[], ps, rfl, hps, hmap, rfl⟩

/-- A rendering of the empty token list skips to nothing. -/
theorem RendW_of_map_nil {l : List Tok} {cs : List Char} (h : RendW l cs)
    (hl : l = []) : skip_whitespace cs = [] := by
  obtain ⟨ps, hps, hmap, hsk⟩ := RendW_skip h
  subst hl
  rw [List.map_eq_nil_iff] at hmap
  subst hmap
  rw [hsk]
  exact rfl

/-- A separated list whose tokens start with `t` starts with a `(t, w)` pair. -/
theorem rend_cons_shape {t : Tok} {l2 : List Tok} {ps : List (Tok × List Char)}
    (hps : psOK ps = true) (hmap : ps.map Prod.fst = t :: l2) :
    ∃ w pst, ps = (t, w) :: pst ∧ w.all isWsC = true ∧ tokOK t = true ∧
      psOK pst = true ∧ pst.map Prod.fst = l2 := by
  cases ps with
  | nil => simp at hmap
  | cons p pst =>
    obtain ⟨t1, w⟩ := p
    simp only [List.map_cons, List.cons.injEq] at hmap
    obtain ⟨h1, h2⟩ := hmap
    subst h1
    obtain ⟨ht, hw, hpst⟩ := psOK_cons hps
    exact ⟨w, pst, rfl, hw, ht, hpst, h2⟩

/-- Renderings of the same token list expose the same head character after
whitespace skipping. -/
theorem render_head {l : List Tok} {cs1 cs2 : List Char}
    (h1 : RendW l cs1) (h2 : RendW l cs2) :
    ∀ c r1, skip_whitespace cs1 = c :: r1 → ∃ r2, skip_whitespace cs2 = c :: r2 := by
  intro c r1 hc
  obtain ⟨ps1, hps1, hmap1, hsk1⟩ := RendW_skip h1
  obtain ⟨ps2, hps2, hmap2, hsk2⟩ := RendW_skip h2
  cases l with
  | nil =>
    rw [List.map_eq_nil_iff] at hmap1
    subst hmap1
    rw [hsk1] at hc
    simp [renderPs] at hc
  | cons t l2 =>
    obtain ⟨w1, ps1t, hE1, hw1, ht1, hp1t, hmap1t⟩ := rend_cons_shape hps1 hmap1
    obtain ⟨w2, ps2t, hE2, hw2, ht2, hp2t, hmap2t⟩ := rend_cons_shape hps2 hmap2
    subst hE1
    subst hE2
    cases t with
    | sym c0 =>
      have hsk1p : skip_whitespace cs1 = c0 :: (w1 ++ renderPs ps1t) := by rw [hsk1]; simp [renderPs, tokChars]
      rw [hsk1p] at hc
      simp only [List.cons.injEq] at hc
      refine ⟨w2 ++ renderPs ps2t, ?_⟩
      rw [hsk2, ← hc.1]
      simp [renderPs, tokChars]
    | num ds =>
      obtain ⟨d, ds2, hds, hall⟩ := num_shape ht1
      subst hds
      have hsk1p : skip_whitespace cs1 = d :: (ds2 ++ (w1 ++ renderPs ps1t)) := by
        rw [hsk1]; simp [renderPs, tokChars]
      rw [hsk1p] at hc
      simp only [List.cons.injEq] at hc
      refine ⟨ds2 ++ (w2 ++ renderPs ps2t), ?_⟩
      rw [hsk2, ← hc.1]
      simp [renderPs, tokChars]

/-- The first character after skipping whitespace in a rendering of a
nonempty token list is the head token's first character. -/
theorem rend_head_shape {t : Tok} {l3 : List Tok} {cs : List Char}
    (R : RendW (t :: l3) cs) : ∃ r, skip_whitespace cs = tokHead t :: r := by
  obtain ⟨ps1, hps1, hmap1, hsk1⟩ := RendW_skip R
  obtain ⟨w1, ps1t, hE1, hw1, ht1, hp1t, hmap1t⟩ := rend_cons_shape hps1 hmap1
  subst hE1
  cases t with
  | sym c0 => exact ⟨w1 ++ renderPs ps1t, by rw [hsk1]; simp [renderPs, tokChars, tokHead]⟩
  | num ds =>
    obtain ⟨d, ds2, hds, hall⟩ := num_shape ht1
    subst hds
    exact ⟨ds2 ++ (w1 ++ renderPs ps1t), by rw [hsk1]; simp [renderPs, tokChars, tokHead]⟩

/-- Stepping two renderings of the same token list over a closing
parenthesis: the remainders again render a common token list. -/
theorem rend_rparen {l3 : List Tok} {csx cs2x : List Char}
    (R1 : RendW l3 csx) (R2 : RendW l3 cs2x)
    {r1 : List Char} (heq : skip_whitespace csx = ')' :: r1) :
    ∃ l4 r2, skip_whitespace cs2x = ')' :: r2 ∧
      RendW l4 (skip_whitespace r1) ∧ RendW l4 (skip_whitespace r2) := by
  obtain ⟨ps1, hps1, hmap1, hsk1⟩ := RendW_skip R1
  obtain ⟨ps2, hps2, hmap2, hsk2⟩ := RendW_skip R2
  cases l3 with
  | nil =>
    rw [List.map_eq_nil_iff] at hmap1
    subst hmap1
    rw [hsk1] at heq
    simp [renderPs] at heq
  | cons t l4 =>
    obtain ⟨w1, ps1t, hE1, hw1, ht1, hp1t, hmap1t⟩ := rend_cons_shape hps1 hmap1
    obtain ⟨w2, ps2t, hE2, hw2, ht2, hp2t, hmap2t⟩ := rend_cons_shape hps2 hmap2
    subst hE1
    subst hE2
    cases t with
    | num ds =>
      obtain ⟨d, ds2, hds, hall⟩ := num_shape ht1
      subst hds
      have hsk1p : skip_whitespace csx = d :: (ds2 ++ (w1 ++ renderPs ps1t)) := by
        rw [hsk1]; simp [renderPs, tokChars]
      rw [hsk1p] at heq
      simp only [List.cons.injEq] at heq
      have hd : d.isDigit = true := hall d (by simp)
      rw [heq.1] at hd
      exact absurd hd (by decide)
    | sym c0 =>
      have hsk1p : skip_whitespace csx = c0 :: (w1 ++ renderPs ps1t) := by
        rw [hsk1]; simp [renderPs, tokChars]
      rw [hsk1p] at heq
      simp only [List.cons.injEq] at heq
      obtain ⟨hc0, hr1⟩ := heq
      subst hc0
      subst hr1
      refine ⟨l4, w2 ++ renderPs ps2t, ?_, ?_, ?_⟩
      · rw [hsk2]; simp [renderPs, tokChars]
      · have hx : skip_whitespace (w1 ++ renderPs ps1t) = renderPs ps1t := by
          rw [skip_append_ws hw1, skip_renderPs hp1t]
        rw [hx]
        exact RendW_render hp1t hmap1t
      · have hx : skip_whitespace (w2 ++ renderPs ps2t) = renderPs ps2t := by
          rw [skip_append_ws hw2, skip_renderPs hp2t]
        rw [hx]
        exact RendW_render hp2t hmap2t

/-- Two whitespace-interleavings of the same token list drive the parser
through the same control flow: same result value/error and same final state,
with the remainders again rendering a common token list on success. -/
theorem parse_rend (B : Backend V S) :
    ∀ f (l : List Tok) (m : PMode V) (cs1 cs2 : List Char) (st : S),
      RendW l cs1 → RendW l cs2 →
      (∀ e cs1f stf, parseF B f m cs1 st = some (.error e, cs1f, stf) →
        ∃ cs2f, parseF B f m cs2 st = some (.error e, cs2f, stf)) ∧
      (∀ v cs1f stf, parseF B f m cs1 st = some (.ok v, cs1f, stf) →
        ∃ cs2f l2, parseF B f m cs2 st = some (.ok v, cs2f, stf) ∧
          RendW l2 cs1f ∧ RendW l2 cs2f) := by
  intro f
  induction f with
  | zero =>
    intro l m cs1 cs2 st R1 R2
    exact ⟨fun e c s hh => by simp [parseF] at hh,
      fun v c s hh => by simp [parseF] at hh⟩
  | succ f ih =>
    intro l m cs1 cs2 st R1 R2
    cases m with
    | pexpr =>
      refine ⟨?_, ?_⟩
      · intro e cs1f stf h
        simp only [parseF] at h
        split at h
        next h1 => simp at h
        next e2 csx stx h1 =>
          simp only [Option.some.injEq, Prod.mk.injEq] at h
          obtain ⟨hr, hc, hs2⟩ := h
          obtain ⟨cs2x, hin2⟩ := (ih l .pterm cs1 cs2 st R1 R2).1 e2 csx stx h1
          refine ⟨cs2x, ?_⟩
          simp only [parseF, hin2]
          rw [← hr, ← hs2]
        next v1 csx stx h1 =>
          obtain ⟨cs2x, l3, hin2, R1x, R2x⟩ := (ih l .pterm cs1 cs2 st R1 R2).2 v1 csx stx h1
          obtain ⟨cs2f, hfin⟩ := (ih l3 (.peloop v1) csx cs2x stx R1x R2x).1 e cs1f stf h
          refine ⟨cs2f, ?_⟩
          simp only [parseF, hin2]
          exact hfin
      · intro v cs1f stf h
        simp only [parseF] at h
        split at h
        next h1 => simp at h
        next e2 csx stx h1 => simp at h
        next v1 csx stx h1 =>
          obtain ⟨cs2x, l3, hin2, R1x, R2x⟩ := (ih l .pterm cs1 cs2 st R1 R2).2 v1 csx stx h1
          obtain ⟨cs2f, l4, hfin, R1f, R2f⟩ := (ih l3 (.peloop v1) csx cs2x stx R1x R2x).2 v cs1f stf h
          refine ⟨cs2f, l4, ?_, R1f, R2f⟩
          simp only [parseF, hin2]
          exact hfin
    | pterm =>
      refine ⟨?_, ?_⟩
      · intro e cs1f stf h
        simp only [parseF] at h
        split at h
        next h1 => simp at h
        next e2 csx stx h1 =>
          simp only [Option.some.injEq, Prod.mk.injEq] at h
          obtain ⟨hr, hc, hs2⟩ := h
          obtain ⟨cs2x, hin2⟩ := (ih l .pfactor cs1 cs2 st R1 R2).1 e2 csx stx h1
          refine ⟨cs2x, ?_⟩
          simp only [parseF, hin2]
          rw [← hr, ← hs2]
        next v1 csx stx h1 =>
          obtain ⟨cs2x, l3, hin2, R1x, R2x⟩ := (ih l .pfactor cs1 cs2 st R1 R2).2 v1 csx stx h1
          obtain ⟨cs2f, hfin⟩ := (ih l3 (.ptloop v1) csx cs2x stx R1x R2x).1 e cs1f stf h
          refine ⟨cs2f, ?_⟩
          simp only [parseF, hin2]
          exact hfin
      · intro v cs1f stf h
        simp only [parseF] at h
        split at h
        next h1 => simp at h
        next e2 csx stx h1 => simp at h
        next v1 csx stx h1 =>
          obtain ⟨cs2x, l3, hin2, R1x, R2x⟩ := (ih l .pfactor cs1 cs2 st R1 R2).2 v1 csx stx h1
          obtain ⟨cs2f, l4, hfin, R1f, R2f⟩ := (ih l3 (.ptloop v1) csx cs2x stx R1x R2x).2 v cs1f stf h
          refine ⟨cs2f, l4, ?_, R1f, R2f⟩
          simp only [parseF, hin2]
          exact hfin
    | pfactor =>
      refine ⟨?_, ?_⟩
      · intro e cs1f stf h
        obtain ⟨ps1, hps1, hmap1, hsk1⟩ := RendW_skip R1
        obtain ⟨ps2, hps2, hmap2, hsk2⟩ := RendW_skip R2
        simp only [parseF] at h
        cases l with
        | nil =>
          rw [List.map_eq_nil_iff] at hmap1
          subst hmap1
          rw [List.map_eq_nil_iff] at hmap2
          subst hmap2
          have hn1 : skip_whitespace cs1 = [] := by rw [hsk1]; simp [renderPs, tokChars]
          have hn2 : skip_whitespace cs2 = [] := by rw [hsk2]; simp [renderPs, tokChars]
          simp only [hn1] at h
          simp only [Option.some.injEq, Prod.mk.injEq] at h
          obtain ⟨hr, hc, hs2⟩ := h
          refine ⟨[], ?_⟩
          simp only [parseF, hn2]
          rw [← hr, ← hs2]
        | cons t l2 =>
          obtain ⟨w1, ps1t, hE1, hw1, ht1, hp1t, hmap1t⟩ := rend_cons_shape hps1 hmap1
          obtain ⟨w2, ps2t, hE2, hw2, ht2, hp2t, hmap2t⟩ := rend_cons_shape hps2 hmap2
          subst hE1
          subst hE2
          have Rt1 : RendW l2 (w1 ++ renderPs ps1t) := ⟨w1, ps1t, hw1, hp1t, hmap1t, rfl⟩
          have Rt2 : RendW l2 (w2 ++ renderPs ps2t) := ⟨w2, ps2t, hw2, hp2t, hmap2t, rfl⟩
          cases t with
          | sym c =>
            have hsk1p : skip_whitespace cs1 = c :: (w1 ++ renderPs ps1t) := by
              rw [hsk1]; simp [renderPs, tokChars]
            have hsk2p : skip_whitespace cs2 = c :: (w2 ++ renderPs ps2t) := by
              rw [hsk2]; simp [renderPs, tokChars]
            simp only [hsk1p] at h
            by_cases hpar : c = '('
            · rw [if_pos hpar] at h
              split at h
              next h1 => simp at h
              next e2 csx stx h1 =>
                simp only [Option.some.injEq, Prod.mk.injEq] at h
                obtain ⟨hr, hc, hs2⟩ := h
                obtain ⟨cs2x, hin2⟩ :=
                  (ih l2 .pexpr (w1 ++ renderPs ps1t) (w2 ++ renderPs ps2t) st Rt1 Rt2).1
                    e2 csx stx h1
                refine ⟨cs2x, ?_⟩
                simp only [parseF, hsk2p]
                rw [if_pos hpar]
                simp only [hin2]
                rw [← hr, ← hs2]
              next v1 csx stx h1 =>
                obtain ⟨cs2x, l3, hin2, R1x, R2x⟩ :=
                  (ih l2 .pexpr (w1 ++ renderPs ps1t) (w2 ++ renderPs ps2t) st Rt1 Rt2).2
                    v1 csx stx h1
                split at h
                next rst heq => simp at h
                next x hno =>
                  simp only [Option.some.injEq, Prod.mk.injEq] at h
                  obtain ⟨hr, hc, hs2⟩ := h
                  refine ⟨skip_whitespace cs2x, ?_⟩
                  simp only [parseF, hsk2p]
                  rw [if_pos hpar]
                  simp only [hin2]
                  split
                  next rst2 heq2 =>
                    exfalso
                    obtain ⟨rx, hrx⟩ := render_head R2x R1x ')' rst2 heq2
                    exact hno rx hrx
                  next x2 hno2 =>
                    rw [← hr, ← hs2]
            · rw [if_neg hpar] at h
              have hdig : ¬(c.isDigit = true) := by simp [sym_not_digit ht1]
              rw [if_neg hdig] at h
              simp only [Option.some.injEq, Prod.mk.injEq] at h
              obtain ⟨hr, hc, hs2⟩ := h
              refine ⟨c :: (w2 ++ renderPs ps2t), ?_⟩
              simp only [parseF, hsk2p]
              rw [if_neg hpar, if_neg hdig]
              rw [← hr, ← hs2]
          | num ds =>
            obtain ⟨d, ds2, hds, hall⟩ := num_shape ht1
            subst hds
            have hd : d.isDigit = true := hall d (by simp)
            have hsk1p : skip_whitespace cs1 = d :: (ds2 ++ (w1 ++ renderPs ps1t)) := by
              rw [hsk1]; simp [renderPs, tokChars]
            have hsk2p : skip_whitespace cs2 = d :: (ds2 ++ (w2 ++ renderPs ps2t)) := by
              rw [hsk2]; simp [renderPs, tokChars]
            have hb1 : ∀ c, (w1 ++ renderPs ps1t).head? = some c → c.isDigit = false :=
              num_run_boundary hps1
            have hb2 : ∀ c, (w2 ++ renderPs ps2t).head? = some c → c.isDigit = false :=
              num_run_boundary hps2
            have htk1 : List.takeWhile Char.isDigit (d :: (ds2 ++ (w1 ++ renderPs ps1t))) =
                d :: ds2 := (takeWhile_digits hall hb1).1
            have hdr1 : List.dropWhile Char.isDigit (d :: (ds2 ++ (w1 ++ renderPs ps1t))) =
                w1 ++ renderPs ps1t := (takeWhile_digits hall hb1).2
            have htk2 : List.takeWhile Char.isDigit (d :: (ds2 ++ (w2 ++ renderPs ps2t))) =
                d :: ds2 := (takeWhile_digits hall hb2).1
            have hdr2 : List.dropWhile Char.isDigit (d :: (ds2 ++ (w2 ++ renderPs ps2t))) =
                w2 ++ renderPs ps2t := (takeWhile_digits hall hb2).2
            simp only [hsk1p] at h
            rw [if_neg (digit_not_lparen hd), if_pos hd, htk1, hdr1] at h
            cases hp : parseI64 (d :: ds2) with
            | some n =>
              simp only [hp] at h
              simp at h
            | none =>
              simp only [hp] at h
              simp only [Option.some.injEq, Prod.mk.injEq] at h
              obtain ⟨hr, hc, hs2⟩ := h
              refine ⟨w2 ++ renderPs ps2t, ?_⟩
              simp only [parseF, hsk2p]
              rw [if_neg (digit_not_lparen hd), if_pos hd, htk2, hdr2]
              simp only [hp]
              rw [← hr, ← hs2]
      · intro v cs1f stf h
        obtain ⟨ps1, hps1, hmap1, hsk1⟩ := RendW_skip R1
        obtain ⟨ps2, hps2, hmap2, hsk2⟩ := RendW_skip R2
        simp only [parseF] at h
        cases l with
        | nil =>
          rw [List.map_eq_nil_iff] at hmap1
          subst hmap1
          have hn1 : skip_whitespace cs1 = [] := by rw [hsk1]; simp [renderPs, tokChars]
          simp only [hn1] at h
          simp at h
        | cons t l2 =>
          obtain ⟨w1, ps1t, hE1, hw1, ht1, hp1t, hmap1t⟩ := rend_cons_shape hps1 hmap1
          obtain ⟨w2, ps2t, hE2, hw2, ht2, hp2t, hmap2t⟩ := rend_cons_shape hps2 hmap2
          subst hE1
          subst hE2
          have Rt1 : RendW l2 (w1 ++ renderPs ps1t) := ⟨w1, ps1t, hw1, hp1t, hmap1t, rfl⟩
          have Rt2 : RendW l2 (w2 ++ renderPs ps2t) := ⟨w2, ps2t, hw2, hp2t, hmap2t, rfl⟩
          cases t with
          | sym c =>
            have hsk1p : skip_whitespace cs1 = c :: (w1 ++ renderPs ps1t) := by
              rw [hsk1]; simp [renderPs, tokChars]
            have hsk2p : skip_whitespace cs2 = c :: (w2 ++ renderPs ps2t) := by
              rw [hsk2]; simp [renderPs, tokChars]
            simp only [hsk1p] at h
            by_cases hpar : c = '('
            · rw [if_pos hpar] at h
              split at h
              next h1 => simp at h
              next e2 csx stx h1 => simp at h
              next v1 csx stx h1 =>
                obtain ⟨cs2x, l3, hin2, R1x, R2x⟩ :=
                  (ih l2 .pexpr (w1 ++ renderPs ps1t) (w2 ++ renderPs ps2t) st Rt1 Rt2).2
                    v1 csx stx h1
                split at h
                next rst heq =>
                  simp only [Option.some.injEq, Prod.mk.injEq] at h
                  obtain ⟨hr, hc, hs2⟩ := h
                  obtain ⟨l4, rst2, hrp2, Rr1, Rr2⟩ := rend_rparen R1x R2x heq
                  refine ⟨skip_whitespace rst2, l4, ?_, ?_, Rr2⟩
                  · simp only [parseF, hsk2p]
                    rw [if_pos hpar]
                    simp only [hin2]
                    split
                    next rst3 heq3 =>
                      rw [hrp2] at heq3
                      simp only [List.cons.injEq, true_and] at heq3
                      rw [← heq3, ← hr, ← hs2]
                    next x2 hno2 =>
                      exact absurd hrp2 (hno2 rst2)
                  · rw [← hc]
                    exact Rr1
                next x hno => simp at h
            · rw [if_neg hpar] at h
              have hdig : ¬(c.isDigit = true) := by simp [sym_not_digit ht1]
              rw [if_neg hdig] at h
              simp at h
          | num ds =>
            obtain ⟨d, ds2, hds, hall⟩ := num_shape ht1
            subst hds
            have hd : d.isDigit = true := hall d (by simp)
            have hsk1p : skip_whitespace cs1 = d :: (ds2 ++ (w1 ++ renderPs ps1t)) := by
              rw [hsk1]; simp [renderPs, tokChars]
            have hsk2p : skip_whitespace cs2 = d :: (ds2 ++ (w2 ++ renderPs ps2t)) := by
              rw [hsk2]; simp [renderPs, tokChars]
            have hb1 : ∀ c, (w1 ++ renderPs ps1t).head? = some c → c.isDigit = false :=
              num_run_boundary hps1
            have hb2 : ∀ c, (w2 ++ renderPs ps2t).head? = some c → c.isDigit = false :=
              num_run_boundary hps2
            have htk1 : List.takeWhile Char.isDigit (d :: (ds2 ++ (w1 ++ renderPs ps1t))) =
                d :: ds2 := (takeWhile_digits hall hb1).1
            have hdr1 : List.dropWhile Char.isDigit (d :: (ds2 ++ (w1 ++ renderPs ps1t))) =
                w1 ++ renderPs ps1t := (takeWhile_digits hall hb1).2
            have htk2 : List.takeWhile Char.isDigit (d :: (ds2 ++ (w2 ++ renderPs ps2t))) =
                d :: ds2 := (takeWhile_digits hall hb2).1
            have hdr2 : List.dropWhile Char.isDigit (d :: (ds2 ++ (w2 ++ renderPs ps2t))) =
                w2 ++ renderPs ps2t := (takeWhile_digits hall hb2).2
            simp only [hsk1p] at h
            rw [if_neg (digit_not_lparen hd), if_pos hd, htk1, hdr1] at h
            cases hp : parseI64 (d :: ds2) with
            | some n =>
              simp only [hp] at h
              simp only [Option.some.injEq, Prod.mk.injEq] at h
              obtain ⟨hr, hc, hs2⟩ := h
              refine ⟨w2 ++ renderPs ps2t, l2, ?_, ?_, Rt2⟩
              · simp only [parseF, hsk2p]
                rw [if_neg (digit_not_lparen hd), if_pos hd, htk2, hdr2]
                simp only [hp]
                rw [← hr, ← hs2]
              · rw [← hc]
                exact Rt1
            | none =>
              simp only [hp] at h
              simp at h
    | peloop acc =>
      refine ⟨?_, ?_⟩
      · intro e cs1f stf h
        obtain ⟨ps1, hps1, hmap1, hsk1⟩ := RendW_skip R1
        obtain ⟨ps2, hps2, hmap2, hsk2⟩ := RendW_skip R2
        simp only [parseF] at h
        cases l with
        | nil =>
          rw [List.map_eq_nil_iff] at hmap1
          subst hmap1
          have hn1 : skip_whitespace cs1 = [] := by rw [hsk1]; simp [renderPs, tokChars]
          simp only [hn1] at h
          simp at h
        | cons t l2 =>
          obtain ⟨w1, ps1t, hE1, hw1, ht1, hp1t, hmap1t⟩ := rend_cons_shape hps1 hmap1
          obtain ⟨w2, ps2t, hE2, hw2, ht2, hp2t, hmap2t⟩ := rend_cons_shape hps2 hmap2
          subst hE1
          subst hE2
          have Rt1 : RendW l2 (w1 ++ renderPs ps1t) := ⟨w1, ps1t, hw1, hp1t, hmap1t, rfl⟩
          have Rt2 : RendW l2 (w2 ++ renderPs ps2t) := ⟨w2, ps2t, hw2, hp2t, hmap2t, rfl⟩
          cases t with
          | sym c =>
            have hsk1p : skip_whitespace cs1 = c :: (w1 ++ renderPs ps1t) := by
              rw [hsk1]; simp [renderPs, tokChars]
            have hsk2p : skip_whitespace cs2 = c :: (w2 ++ renderPs ps2t) := by
              rw [hsk2]; simp [renderPs, tokChars]
            simp only [hsk1p] at h
            by_cases hc1 : c = '+'
            · rw [if_pos hc1] at h
              split at h
              next h1 => simp at h
              next e2 csx stx h1 =>
                simp only [Option.some.injEq, Prod.mk.injEq] at h
                obtain ⟨hr, hc, hs2⟩ := h
                obtain ⟨cs2x, hin2⟩ :=
                  (ih l2 .pterm (w1 ++ renderPs ps1t) (w2 ++ renderPs ps2t) st Rt1 Rt2).1
                    e2 csx stx h1
                refine ⟨cs2x, ?_⟩
                simp only [parseF, hsk2p]
                rw [if_pos hc1]
                simp only [hin2]
                rw [← hr, ← hs2]
              next rhs csx stx h1 =>
                obtain ⟨cs2x, l3, hin2, R1x, R2x⟩ :=
                  (ih l2 .pterm (w1 ++ renderPs ps1t) (w2 ++ renderPs ps2t) st Rt1 Rt2).2
                    rhs csx stx h1
                obtain ⟨cs2f, hfin⟩ :=
                  (ih l3 (.peloop (B.buildAdd acc rhs stx).1) csx cs2x
                    (B.buildAdd acc rhs stx).2 R1x R2x).1 e cs1f stf h
                refine ⟨cs2f, ?_⟩
                simp only [parseF, hsk2p]
                rw [if_pos hc1]
                simp only [hin2]
                exact hfin
            · rw [if_neg hc1] at h
              by_cases hc2 : c = '-'
              · rw [if_pos hc2] at h
                split at h
                next h1 => simp at h
                next e2 csx stx h1 =>
                  simp only [Option.some.injEq, Prod.mk.injEq] at h
                  obtain ⟨hr, hc, hs2⟩ := h
                  obtain ⟨cs2x, hin2⟩ :=
                    (ih l2 .pterm (w1 ++ renderPs ps1t) (w2 ++ renderPs ps2t) st Rt1 Rt2).1
                      e2 csx stx h1
                  refine ⟨cs2x, ?_⟩
                  simp only [parseF, hsk2p]
                  rw [if_neg hc1, if_pos hc2]
                  simp only [hin2]
                  rw [← hr, ← hs2]
                next rhs csx stx h1 =>
                  obtain ⟨cs2x, l3, hin2, R1x, R2x⟩ :=
                    (ih l2 .pterm (w1 ++ renderPs ps1t) (w2 ++ renderPs ps2t) st Rt1 Rt2).2
                      rhs csx stx h1
                  obtain ⟨cs2f, hfin⟩ :=
                    (ih l3 (.peloop (B.buildSub acc rhs stx).1) csx cs2x
                      (B.buildSub acc rhs stx).2 R1x R2x).1 e cs1f stf h
                  refine ⟨cs2f, ?_⟩
                  simp only [parseF, hsk2p]
                  rw [if_neg hc1, if_pos hc2]
                  simp only [hin2]
                  exact hfin
              · rw [if_neg hc2] at h
                simp at h
          | num ds =>
            obtain ⟨d, ds2, hds, hall⟩ := num_shape ht1
            subst hds
            have hd : d.isDigit = true := hall d (by simp)
            have hsk1p : skip_whitespace cs1 = d :: (ds2 ++ (w1 ++ renderPs ps1t)) := by
              rw [hsk1]; simp [renderPs, tokChars]
            simp only [hsk1p] at h
            rw [if_neg (digit_not_op hd).1, if_neg (digit_not_op hd).2.1] at h
            simp at h
      · intro v cs1f stf h
        obtain ⟨ps1, hps1, hmap1, hsk1⟩ := RendW_skip R1
        obtain ⟨ps2, hps2, hmap2, hsk2⟩ := RendW_skip R2
        simp only [parseF] at h
        cases l with
        | nil =>
          rw [List.map_eq_nil_iff] at hmap1
          subst hmap1
          rw [List.map_eq_nil_iff] at hmap2
          subst hmap2
          have hn1 : skip_whitespace cs1 = [] := by rw [hsk1]; simp [renderPs, tokChars]
          have hn2 : skip_whitespace cs2 = [] := by rw [hsk2]; simp [renderPs, tokChars]
          simp only [hn1] at h
          simp only [Option.some.injEq, Prod.mk.injEq] at h
          obtain ⟨hr, hc, hs2⟩ := h
          refine ⟨[], [], ?_, ?_, RendW_nil⟩
          · simp only [parseF, hn2]
            rw [← hr, ← hs2]
          · rw [← hc]
            exact RendW_nil
        | cons t l2 =>
          obtain ⟨w1, ps1t, hE1, hw1, ht1, hp1t, hmap1t⟩ := rend_cons_shape hps1 hmap1
          obtain ⟨w2, ps2t, hE2, hw2, ht2, hp2t, hmap2t⟩ := rend_cons_shape hps2 hmap2
          subst hE1
          subst hE2
          have Rt1 : RendW l2 (w1 ++ renderPs ps1t) := ⟨w1, ps1t, hw1, hp1t, hmap1t, rfl⟩
          have Rt2 : RendW l2 (w2 ++ renderPs ps2t) := ⟨w2, ps2t, hw2, hp2t, hmap2t, rfl⟩
          cases t with
          | sym c =>
            have hsk1p : skip_whitespace cs1 = c :: (w1 ++ renderPs ps1t) := by
              rw [hsk1]; simp [renderPs, tokChars]
            have hsk2p : skip_whitespace cs2 = c :: (w2 ++ renderPs ps2t) := by
              rw [hsk2]; simp [renderPs, tokChars]
            simp only [hsk1p] at h
            by_cases hc1 : c = '+'
            · rw [if_pos hc1] at h
              split at h
              next h1 => simp at h
              next e2 csx stx h1 => simp at h
              next rhs csx stx h1 =>
                obtain ⟨cs2x, l3, hin2, R1x, R2x⟩ :=
                  (ih l2 .pterm (w1 ++ renderPs ps1t) (w2 ++ renderPs ps2t) st Rt1 Rt2).2
                    rhs csx stx h1
                obtain ⟨cs2f, l4, hfin, R1f, R2f⟩ :=
                  (ih l3 (.peloop (B.buildAdd acc rhs stx).1) csx cs2x
                    (B.buildAdd acc rhs stx).2 R1x R2x).2 v cs1f stf h
                refine ⟨cs2f, l4, ?_, R1f, R2f⟩
                simp only [parseF, hsk2p]
                rw [if_pos hc1]
                simp only [hin2]
                exact hfin
            · rw [if_neg hc1] at h
              by_cases hc2 : c = '-'
              · rw [if_pos hc2] at h
                split at h
                next h1 => simp at h
                next e2 csx stx h1 => simp at h
                next rhs csx stx h1 =>
                  obtain ⟨cs2x, l3, hin2, R1x, R2x⟩ :=
                    (ih l2 .pterm (w1 ++ renderPs ps1t) (w2 ++ renderPs ps2t) st Rt1 Rt2).2
                      rhs csx stx h1
                  obtain ⟨cs2f, l4, hfin, R1f, R2f⟩ :=
                    (ih l3 (.peloop (B.buildSub acc rhs stx).1) csx cs2x
                      (B.buildSub acc rhs stx).2 R1x R2x).2 v cs1f stf h
                  refine ⟨cs2f, l4, ?_, R1f, R2f⟩
                  simp only [parseF, hsk2p]
                  rw [if_neg hc1, if_pos hc2]
                  simp only [hin2]
                  exact hfin
              · rw [if_neg hc2] at h
                simp only [Option.some.injEq, Prod.mk.injEq] at h
                obtain ⟨hr, hc, hs2⟩ := h
                refine ⟨c :: (w2 ++ renderPs ps2t), Tok.sym c :: l2, ?_, ?_, ?_⟩
                · simp only [parseF, hsk2p]
                  rw [if_neg hc1, if_neg hc2]
                  rw [← hr, ← hs2]
                · rw [← hc]
                  have hm1 : List.map Prod.fst ((Tok.sym c, w1) :: ps1t) =
                      Tok.sym c :: l2 := by simp [hmap1t]
                  exact RendW_render hps1 hm1
                · have hm2 : List.map Prod.fst ((Tok.sym c, w2) :: ps2t) =
                      Tok.sym c :: l2 := by simp [hmap2t]
                  exact RendW_render hps2 hm2
          | num ds =>
            obtain ⟨d, ds2, hds, hall⟩ := num_shape ht1
            subst hds
            have hd : d.isDigit = true := hall d (by simp)
            have hsk1p : skip_whitespace cs1 = d :: (ds2 ++ (w1 ++ renderPs ps1t)) := by
              rw [hsk1]; simp [renderPs, tokChars]
            have hsk2p : skip_whitespace cs2 = d :: (ds2 ++ (w2 ++ renderPs ps2t)) := by
              rw [hsk2]; simp [renderPs, tokChars]
            simp only [hsk1p] at h
            rw [if_neg (digit_not_op hd).1, if_neg (digit_not_op hd).2.1] at h
            simp only [Option.some.injEq, Prod.mk.injEq] at h
            obtain ⟨hr, hc, hs2⟩ := h
            refine ⟨d :: (ds2 ++ (w2 ++ renderPs ps2t)), Tok.num (d :: ds2) :: l2, ?_, ?_, ?_⟩
            · simp only [parseF, hsk2p]
              rw [if_neg (digit_not_op hd).1, if_neg (digit_not_op hd).2.1]
              rw [← hr, ← hs2]
            · rw [← hc]
              have hm1 : List.map Prod.fst ((Tok.num (d :: ds2), w1) :: ps1t) =
                  Tok.num (d :: ds2) :: l2 := by simp [hmap1t]
              exact ⟨[], (Tok.num (d :: ds2), w1) :: ps1t, rfl, hps1, hm1,
                by simp [renderPs, tokChars]⟩
            · have hm2 : List.map Prod.fst ((Tok.num (d :: ds2), w2) :: ps2t) =
                  Tok.num (d :: ds2) :: l2 := by simp [hmap2t]
              exact ⟨[], (Tok.num (d :: ds2), w2) :: ps2t, rfl, hps2, hm2,
                by simp [renderPs, tokChars]⟩
    | ptloop acc =>
      refine ⟨?_, ?_⟩
      · intro e cs1f stf h
        obtain ⟨ps1, hps1, hmap1, hsk1⟩ := RendW_skip R1
        obtain ⟨ps2, hps2, hmap2, hsk2⟩ := RendW_skip R2
        simp only [parseF] at h
        cases l with
        | nil =>
          rw [List.map_eq_nil_iff] at hmap1
          subst hmap1
          have hn1 : skip_whitespace cs1 = [] := by rw [hsk1]; simp [renderPs, tokChars]
          simp only [hn1] at h
          simp at h
        | cons t l2 =>
          obtain ⟨w1, ps1t, hE1, hw1, ht1, hp1t, hmap1t⟩ := rend_cons_shape hps1 hmap1
          obtain ⟨w2, ps2t, hE2, hw2, ht2, hp2t, hmap2t⟩ := rend_cons_shape hps2 hmap2
          subst hE1
          subst hE2
          have Rt1 : RendW l2 (w1 ++ renderPs ps1t) := ⟨w1, ps1t, hw1, hp1t, hmap1t, rfl⟩
          have Rt2 : RendW l2 (w2 ++ renderPs ps2t) := ⟨w2, ps2t, hw2, hp2t, hmap2t, rfl⟩
          cases t with
          | sym c =>
            have hsk1p : skip_whitespace cs1 = c :: (w1 ++ renderPs ps1t) := by
              rw [hsk1]; simp [renderPs, tokChars]
            have hsk2p : skip_whitespace cs2 = c :: (w2 ++ renderPs ps2t) := by
              rw [hsk2]; simp [renderPs, tokChars]
            simp only [hsk1p] at h
            by_cases hc1 : c = '*'
            · rw [if_pos hc1] at h
              split at h
              next h1 => simp at h
              next e2 csx stx h1 =>
                simp only [Option.some.injEq, Prod.mk.injEq] at h
                obtain ⟨hr, hc, hs2⟩ := h
                obtain ⟨cs2x, hin2⟩ :=
                  (ih l2 .pfactor (w1 ++ renderPs ps1t) (w2 ++ renderPs ps2t) st Rt1 Rt2).1
                    e2 csx stx h1
                refine ⟨cs2x, ?_⟩
                simp only [parseF, hsk2p]
                rw [if_pos hc1]
                simp only [hin2]
                rw [← hr, ← hs2]
              next rhs csx stx h1 =>
                obtain ⟨cs2x, l3, hin2, R1x, R2x⟩ :=
                  (ih l2 .pfactor (w1 ++ renderPs ps1t) (w2 ++ renderPs ps2t) st Rt1 Rt2).2
                    rhs csx stx h1
                obtain ⟨cs2f, hfin⟩ :=
                  (ih l3 (.ptloop (B.buildMul acc rhs stx).1) csx cs2x
                    (B.buildMul acc rhs stx).2 R1x R2x).1 e cs1f stf h
                refine ⟨cs2f, ?_⟩
                simp only [parseF, hsk2p]
                rw [if_pos hc1]
                simp only [hin2]
                exact hfin
            · rw [if_neg hc1] at h
              by_cases hc2 : c = '/'
              · rw [if_pos hc2] at h
                split at h
                next h1 => simp at h
                next e2 csx stx h1 =>
                  simp only [Option.some.injEq, Prod.mk.injEq] at h
                  obtain ⟨hr, hc, hs2⟩ := h
                  obtain ⟨cs2x, hin2⟩ :=
                    (ih l2 .pfactor (w1 ++ renderPs ps1t) (w2 ++ renderPs ps2t) st Rt1 Rt2).1
                      e2 csx stx h1
                  refine ⟨cs2x, ?_⟩
                  simp only [parseF, hsk2p]
                  rw [if_neg hc1, if_pos hc2]
                  simp only [hin2]
                  rw [← hr, ← hs2]
                next rhs csx stx h1 =>
                  obtain ⟨cs2x, l3, hin2, R1x, R2x⟩ :=
                    (ih l2 .pfactor (w1 ++ renderPs ps1t) (w2 ++ renderPs ps2t) st Rt1 Rt2).2
                      rhs csx stx h1
                  split at h
                  next hz =>
                    simp only [Option.some.injEq, Prod.mk.injEq] at h
                    obtain ⟨hr, hc, hs2⟩ := h
                    refine ⟨cs2x, ?_⟩
                    simp only [parseF, hsk2p]
                    rw [if_neg hc1, if_pos hc2]
                    simp only [hin2]
                    rw [if_pos hz]
                    rw [← hr, ← hs2]
                  next hz =>
                    obtain ⟨cs2f, hfin⟩ :=
                      (ih l3 (.ptloop (B.buildDiv acc rhs stx).1) csx cs2x
                        (B.buildDiv acc rhs stx).2 R1x R2x).1 e cs1f stf h
                    refine ⟨cs2f, ?_⟩
                    simp only [parseF, hsk2p]
                    rw [if_neg hc1, if_pos hc2]
                    simp only [hin2]
                    rw [if_neg hz]
                    exact hfin
              · rw [if_neg hc2] at h
                simp at h
          | num ds =>
            obtain ⟨d, ds2, hds, hall⟩ := num_shape ht1
            subst hds
            have hd : d.isDigit = true := hall d (by simp)
            have hsk1p : skip_whitespace cs1 = d :: (ds2 ++ (w1 ++ renderPs ps1t)) := by
              rw [hsk1]; simp [renderPs, tokChars]
            simp only [hsk1p] at h
            rw [if_neg (digit_not_op hd).2.2.1, if_neg (digit_not_op hd).2.2.2.1] at h
            simp at h
      · intro v cs1f stf h
        obtain ⟨ps1, hps1, hmap1, hsk1⟩ := RendW_skip R1
        obtain ⟨ps2, hps2, hmap2, hsk2⟩ := RendW_skip R2
        simp only [parseF] at h
        cases l with
        | nil =>
          rw [List.map_eq_nil_iff] at hmap1
          subst hmap1
          rw [List.map_eq_nil_iff] at hmap2
          subst hmap2
          have hn1 : skip_whitespace cs1 = [] := by rw [hsk1]; simp [renderPs, tokChars]
          have hn2 : skip_whitespace cs2 = [] := by rw [hsk2]; simp [renderPs, tokChars]
          simp only [hn1] at h
          simp only [Option.some.injEq, Prod.mk.injEq] at h
          obtain ⟨hr, hc, hs2⟩ := h
          refine ⟨[], [], ?_, ?_, RendW_nil⟩
          · simp only [parseF, hn2]
            rw [← hr, ← hs2]
          · rw [← hc]
            exact RendW_nil
        | cons t l2 =>
          obtain ⟨w1, ps1t, hE1, hw1, ht1, hp1t, hmap1t⟩ := rend_cons_shape hps1 hmap1
          obtain ⟨w2, ps2t, hE2, hw2, ht2, hp2t, hmap2t⟩ := rend_cons_shape hps2 hmap2
          subst hE1
          subst hE2
          have Rt1 : RendW l2 (w1 ++ renderPs ps1t) := ⟨w1, ps1t, hw1, hp1t, hmap1t, rfl⟩
          have Rt2 : RendW l2 (w2 ++ renderPs ps2t) := ⟨w2, ps2t, hw2, hp2t, hmap2t, rfl⟩
          cases t with
          | sym c =>
            have hsk1p : skip_whitespace cs1 = c :: (w1 ++ renderPs ps1t) := by
              rw [hsk1]; simp [renderPs, tokChars]
            have hsk2p : skip_whitespace cs2 = c :: (w2 ++ renderPs ps2t) := by
              rw [hsk2]; simp [renderPs, tokChars]
            simp only [hsk1p] at h
            by_cases hc1 : c = '*'
            · rw [if_pos hc1] at h
              split at h
              next h1 => simp at h
              next e2 csx stx h1 => simp at h
              next rhs csx stx h1 =>
                obtain ⟨cs2x, l3, hin2, R1x, R2x⟩ :=
                  (ih l2 .pfactor (w1 ++ renderPs ps1t) (w2 ++ renderPs ps2t) st Rt1 Rt2).2
                    rhs csx stx h1
                obtain ⟨cs2f, l4, hfin, R1f, R2f⟩ :=
                  (ih l3 (.ptloop (B.buildMul acc rhs stx).1) csx cs2x
                    (B.buildMul acc rhs stx).2 R1x R2x).2 v cs1f stf h
                refine ⟨cs2f, l4, ?_, R1f, R2f⟩
                simp only [parseF, hsk2p]
                rw [if_pos hc1]
                simp only [hin2]
                exact hfin
            · rw [if_neg hc1] at h
              by_cases hc2 : c = '/'
              · rw [if_pos hc2] at h
                split at h
                next h1 => simp at h
                next e2 csx stx h1 => simp at h
                next rhs csx stx h1 =>
                  obtain ⟨cs2x, l3, hin2, R1x, R2x⟩ :=
                    (ih l2 .pfactor (w1 ++ renderPs ps1t) (w2 ++ renderPs ps2t) st Rt1 Rt2).2
                      rhs csx stx h1
                  split at h
                  next hz => simp at h
                  next hz =>
                    obtain ⟨cs2f, l4, hfin, R1f, R2f⟩ :=
                      (ih l3 (.ptloop (B.buildDiv acc rhs stx).1) csx cs2x
                        (B.buildDiv acc rhs stx).2 R1x R2x).2 v cs1f stf h
                    refine ⟨cs2f, l4, ?_, R1f, R2f⟩
                    simp only [parseF, hsk2p]
                    rw [if_neg hc1, if_pos hc2]
                    simp only [hin2]
                    rw [if_neg hz]
                    exact hfin
              · rw [if_neg hc2] at h
                simp only [Option.some.injEq, Prod.mk.injEq] at h
                obtain ⟨hr, hc, hs2⟩ := h
                refine ⟨c :: (w2 ++ renderPs ps2t), Tok.sym c :: l2, ?_, ?_, ?_⟩
                · simp only [parseF, hsk2p]
                  rw [if_neg hc1, if_neg hc2]
                  rw [← hr, ← hs2]
                · rw [← hc]
                  have hm1 : List.map Prod.fst ((Tok.sym c, w1) :: ps1t) =
                      Tok.sym c :: l2 := by simp [hmap1t]
                  exact RendW_render hps1 hm1
                · have hm2 : List.map Prod.fst ((Tok.sym c, w2) :: ps2t) =
                      Tok.sym c :: l2 := by simp [hmap2t]
                  exact RendW_render hps2 hm2
          | num ds =>
            obtain ⟨d, ds2, hds, hall⟩ := num_shape ht1
            subst hds
            have hd : d.isDigit = true := hall d (by simp)
            have hsk1p : skip_whitespace cs1 = d :: (ds2 ++ (w1 ++ renderPs ps1t)) := by
              rw [hsk1]; simp [renderPs, tokChars]
            have hsk2p : skip_whitespace cs2 = d :: (ds2 ++ (w2 ++ renderPs ps2t)) := by
              rw [hsk2]; simp [renderPs, tokChars]
            simp only [hsk1p] at h
            rw [if_neg (digit_not_op hd).2.2.1, if_neg (digit_not_op hd).2.2.2.1] at h
            simp only [Option.some.injEq, Prod.mk.injEq] at h
            obtain ⟨hr, hc, hs2⟩ := h
            refine ⟨d :: (ds2 ++ (w2 ++ renderPs ps2t)), Tok.num (d :: ds2) :: l2, ?_, ?_, ?_⟩
            · simp only [parseF, hsk2p]
              rw [if_neg (digit_not_op hd).2.2.1, if_neg (digit_not_op hd).2.2.2.1]
              rw [← hr, ← hs2]
            · rw [← hc]
              have hm1 : List.map Prod.fst ((Tok.num (d :: ds2), w1) :: ps1t) =
                  Tok.num (d :: ds2) :: l2 := by simp [hmap1t]
              exact ⟨[], (Tok.num (d :: ds2), w1) :: ps1t, rfl, hps1, hm1,
                by simp [renderPs, tokChars]⟩
            · have hm2 : List.map Prod.fst ((Tok.num (d :: ds2), w2) :: ps2t) =
                  Tok.num (d :: ds2) :: l2 := by simp [hmap2t]
              exact ⟨[], (Tok.num (d :: ds2), w2) :: ps2t, rfl, hps2, hm2,
                by simp [renderPs, tokChars]⟩

/-- Characters that are all non-whitespace are untouched by `dropWhile`. -/
theorem dropWhile_all_false {l : List Char} (h : ∀ c ∈ l, isWsC c = false) :
    l.dropWhile isWsC = l := by
  cases l with
  | nil => rfl
  | cons c l2 =>
    rw [List.dropWhile_cons, h c (by simp)]
    simp

/-- A valid token renders to at least one character. -/
theorem tokChars_ne_nil {t : Tok} (ht : tokOK t = true) : tokChars t ≠ [] := by
  cases t with
  | sym c => simp [tokChars]
  | num ds =>
    obtain ⟨d, ds2, hds, hall⟩ := num_shape ht
    subst hds
    simp [tokChars]

/-- A valid nonempty separated list renders to a nonempty string. -/
theorem renderPs_ne_nil {p : Tok × List Char} {ps : List (Tok × List Char)}
    (hps : psOK (p :: ps) = true) : renderPs (p :: ps) ≠ [] := by
  obtain ⟨t, w⟩ := p
  obtain ⟨ht, hw, hps2⟩ := psOK_cons hps
  intro hcon
  simp only [renderPs, List.append_eq_nil] at hcon
  exact tokChars_ne_nil ht hcon.1.1

/-- Right-trimming a rendered token list yields a rendering of the same
tokens (the final separator loses its whitespace). -/
theorem rstrip_renderPs {ps : List (Tok × List Char)} (hps : psOK ps = true) :
    ∃ ps2, psOK ps2 = true ∧ ps2.map Prod.fst = ps.map Prod.fst ∧
      ((renderPs ps).reverse.dropWhile isWsC).reverse = renderPs ps2 := by
  induction ps with
  | nil => exact ⟨[], rfl, rfl, rfl⟩
  | cons p ps ih =>
    obtain ⟨t, w⟩ := p
    obtain ⟨ht, hw, hps2⟩ := psOK_cons hps
    cases ps with
    | nil =>
      have hwrev : w.reverse.all isWsC = true := by
        simp only [List.all_eq_true, List.mem_reverse]
        exact fun c hc => List.all_eq_true.mp hw c hc
      have hnws : ∀ c ∈ (tokChars t).reverse, isWsC c = false := by
        intro c hcmem
        rw [List.mem_reverse] at hcmem
        cases t with
        | sym c0 =>
          simp only [tokChars, List.mem_singleton] at hcmem
          subst hcmem
          exact sym_not_ws ht
        | num ds =>
          have hcd : c.isDigit = true := by
            simp only [tokOK, Bool.and_eq_true, List.all_eq_true] at ht
            exact ht.2 c hcmem
          exact digit_not_ws hcd
      refine ⟨[(t, [])], ?_, rfl, ?_⟩
      · simp [psOK, ht]
      · have hrw : renderPs [(t, w)] = tokChars t ++ w := by
          simp [renderPs]
        have hrw2 : renderPs [(t, [])] = tokChars t := by
          simp [renderPs]
        rw [hrw, hrw2, List.reverse_append]
        have hstep : List.dropWhile isWsC (w.reverse ++ (tokChars t).reverse) =
            List.dropWhile isWsC ((tokChars t).reverse) := skip_append_ws hwrev
        rw [hstep, dropWhile_all_false hnws, List.reverse_reverse]
    | cons p2 ps3 =>
      obtain ⟨p2t, p2w⟩ := p2
      obtain ⟨ps2', hps2', hmap2', hrw'⟩ := ih hps2
      have hne : renderPs ps2' ≠ [] := by
        cases ps2' with
        | nil => simp at hmap2'
        | cons q qs => exact renderPs_ne_nil hps2'
      have hYne : (renderPs ((p2t, p2w) :: ps3)).reverse.dropWhile isWsC ≠ [] := by
        intro hcon
        have h5 := hrw'
        rw [hcon] at h5
        simp only [List.reverse_nil] at h5
        exact hne h5.symm
      refine ⟨(t, w) :: ps2', ?_, ?_, ?_⟩
      · cases ps2' with
        | nil => simp at hmap2'
        | cons q qs =>
          obtain ⟨t2, w2⟩ := q
          simp only [List.map_cons, List.cons.injEq] at hmap2'
          obtain ⟨hteq, htl⟩ := hmap2'
          have hsep : (!numNum t p2t || !w.isEmpty) = true := by
            have h0 := hps
            simp only [psOK, Bool.and_eq_true] at h0
            exact h0.1.2
          have h9 := hps2'
          simp only [psOK, Bool.and_eq_true] at h9
          simp only [psOK, Bool.and_eq_true]
          refine ⟨⟨⟨ht, hw⟩, ?_⟩, h9⟩
          rw [hteq]
          exact hsep
      · simp [hmap2']
      · have hsplit : (renderPs ((t, w) :: (p2t, p2w) :: ps3)).reverse =
            (renderPs ((p2t, p2w) :: ps3)).reverse ++ (tokChars t ++ w).reverse := by
          have hx : renderPs ((t, w) :: (p2t, p2w) :: ps3) =
              (tokChars t ++ w) ++ renderPs ((p2t, p2w) :: ps3) := by
            simp [renderPs, List.append_assoc]
          rw [hx, List.reverse_append]
        rw [hsplit, List.dropWhile_append]
        rw [if_neg (by simp only [List.isEmpty_iff]; exact hYne)]
        rw [List.reverse_append, hrw', List.reverse_reverse]
        simp [renderPs, List.append_assoc]

/-- Trimming both ends of a rendering leaves a rendering of the same tokens. -/
theorem RendW_trim {l : List Tok} {cs : List Char} (h : RendW l cs) :
    RendW l (trimChars cs) := by
  obtain ⟨ps, hps, hmap, hsk⟩ := RendW_skip h
  obtain ⟨ps2, hps2, hmap2, hrw⟩ := rstrip_renderPs hps
  have hx : trimChars cs = renderPs ps2 := by
    simp only [trimChars]
    rw [show cs.dropWhile isWsC = renderPs ps from hsk]
    exact hrw
  rw [hx]
  exact RendW_render hps2 (hmap2.trans hmap)

/-- `run` computes `runBody` of the trimmed input. -/
theorem run_eq_runBody (s : String) : run s = runBody (trimChars s.data) := by
  show (runP true true true true s).1 = _
  simp only [runP, runBody]
  cases hp : parseF realB (3 * (trimChars s.data).length + 5) .pexpr (trimChars s.data)
      initSt with
  | none => rfl
  | some r =>
    obtain ⟨res, rest, st⟩ := r
    cases res with
    | error e => rfl
    | ok v =>
      simp only [reduceCtorEq]
      cases hs : skip_whitespace rest with
      | nil =>
        simp only [reduceCtorEq]
        cases hst : st.trap <;> rfl
      | cons c rest2 =>
        simp only [reduceCtorEq]
        cases hv : is_valid_char c <;> rfl

/-- `runBody` is the same on any two renderings of the same token list. -/
theorem runBody_rend {l : List Tok} {cs1 cs2 : List Char}
    (t1 : RendW l cs1) (t2 : RendW l cs2) : runBody cs1 = runBody cs2 := by
  have hle1 : 3 * cs1.length + 5 ≤ max (3 * cs1.length + 5) (3 * cs2.length + 5) :=
    Nat.le_max_left _ _
  have hle2 : 3 * cs2.length + 5 ≤ max (3 * cs1.length + 5) (3 * cs2.length + 5) :=
    Nat.le_max_right _ _
  cases hp1 : parseF realB (3 * cs1.length + 5) .pexpr cs1 initSt with
  | none =>
    exact absurd hp1
      (parse_fuel_sufficient realB (3 * cs1.length + 5) .pexpr cs1 initSt (by simp [fuelNeed]))
  | some r1 =>
    obtain ⟨res1, rest1, st1⟩ := r1
    cases hp2 : parseF realB (3 * cs2.length + 5) .pexpr cs2 initSt with
    | none =>
      exact absurd hp2
        (parse_fuel_sufficient realB (3 * cs2.length + 5) .pexpr cs2 initSt
          (by simp [fuelNeed]))
    | some r2 =>
      obtain ⟨res2, rest2, st2⟩ := r2
      have hp1F := parse_mono realB (3 * cs1.length + 5)
        (max (3 * cs1.length + 5) (3 * cs2.length + 5)) hle1 .pexpr cs1 initSt _ hp1
      have hp2F := parse_mono realB (3 * cs2.length + 5)
        (max (3 * cs1.length + 5) (3 * cs2.length + 5)) hle2 .pexpr cs2 initSt _ hp2
      cases res1 with
      | error e =>
        obtain ⟨cs2f, he2⟩ :=
          (parse_rend realB (max (3 * cs1.length + 5) (3 * cs2.length + 5)) l .pexpr
            cs1 cs2 initSt t1 t2).1 e rest1 st1 hp1F
        rw [he2] at hp2F
        simp only [Option.some.injEq, Prod.mk.injEq] at hp2F
        obtain ⟨hr, hcx, hsx⟩ := hp2F
        rw [← hr, ← hsx] at hp2
        simp only [runBody, hp1, hp2]
      | ok v =>
        obtain ⟨cs2f, l2, he2, Rr1, Rr2⟩ :=
          (parse_rend realB (max (3 * cs1.length + 5) (3 * cs2.length + 5)) l .pexpr
            cs1 cs2 initSt t1 t2).2 v rest1 st1 hp1F
        rw [he2] at hp2F
        simp only [Option.some.injEq, Prod.mk.injEq] at hp2F
        obtain ⟨hr, hcx, hsx⟩ := hp2F
        rw [← hr, ← hcx, ← hsx] at hp2
        simp only [runBody, hp1, hp2]
        cases l2 with
        | nil =>
          rw [RendW_of_map_nil Rr1 rfl, RendW_of_map_nil Rr2 rfl]
        | cons t l3 =>
          obtain ⟨r1x, hr1x⟩ := rend_head_shape Rr1
          obtain ⟨r2x, hr2x⟩ := rend_head_shape Rr2
          rw [hr1x, hr2x]

/-- C5: the outcome of a line depends only on its token sequence: any two
whitespace-interleavings of the same tokens produce the same `run` result. -/
theorem c5_whitespace_insensitivity :
    ∀ (l : List Tok) (s1 s2 : String), RendW l s1.data → RendW l s2.data →
      run s1 = run s2 := by
  intro l s1 s2 h1 h2
  rw [run_eq_runBody s1, run_eq_runBody s2]
  exact runBody_rend (RendW_trim h1) (RendW_trim h2)

theorem c5_whitespace_insensitivity_witness :
    run " 1 +  2 " = run "1+2" ∧ run "1+2" = Outcome.ok 3 :=
  ⟨c5_whitespace_insensitivity [Tok.num ['1'], Tok.sym '+', Tok.num ['2']] " 1 +  2 " "1+2"
    ⟨[' '], [(Tok.num ['1'], [' ']), (Tok.sym '+', [' ', ' ']), (Tok.num ['2'], [' '])],
      by decide, by decide, by decide, by decide⟩
    ⟨[], [(Tok.num ['1'], []), (Tok.sym '+', []), (Tok.num ['2'], [])],
      by decide, by decide, by decide, by decide⟩,
    by decide⟩

end Sino
